import Mathlib

/-!
Espira interpreter (`esp.cpp`): the expression evaluation engine.

A shallow embedding of `src/esp.cpp` and the properties of its specification.

Modelling conventions.

* `std::string` is `Str := List Char`; one `Char` stands for one byte.  The
  character classes are those of the "C" locale (`isspace`, `isdigit`,
  `isalpha` on ASCII).
* `int` is `Int`; every `int` the program produces comes from `std::stoi` or a
  `static_cast<int>`, both of which are modelled with their range check, so the
  values stay within 32 bits.
* `float` is IEEE-754 binary32 with round-to-nearest-even, modelled by `F32`
  over exact rationals (`round32`).  The sign of zero is not modelled (it is
  observable only by printing and by dividing by zero, which the code guards).
* The global `variables` map is threaded explicitly: every function that can
  touch it through the non-const `operator[]` returns the store it leaves.
  The global `currentLine` is a parameter.
* A call ends in `Res.ok`, in `Res.throw what` (a C++ exception derived from
  `std::exception`, with its `what()` text as libstdc++ produces it), or in
  `Res.undefined` (behaviour the C++ standard leaves undefined).
* At two places the behaviour is undefined and a compiled program still goes
  on: `static_cast<int>` of a `float` whose truncation is not an `int`, and
  `front()` and `back()` on an empty string.  The functions with the suffix
  `On` take a `Target` that supplies the `int` and the characters read there;
  they never end in `Res.undefined` and agree with the plain functions
  wherever those are defined.
-/

set_option maxRecDepth 100000

namespace Esp

/-! ## Strings -/

/-- The type of `std::string` values. -/
abbrev Str := List Char

/-- The outcome of a call: a value, a thrown exception with its `what()` text,
or undefined behaviour. -/
inductive Res (α : Type) where
  | ok (a : α)
  | throw (what : Str)
  | undefined
  deriving DecidableEq, Repr

/-- The C function `isspace` in the "C" locale. -/
def isspace (c : Char) : Bool :=
  c = ' ' ∨ c = '\t' ∨ c = '\n' ∨ c = '\x0b' ∨ c = '\x0c' ∨ c = '\r'

/-- The C function `isdigit`. -/
def isdigit (c : Char) : Bool := c.isDigit

/-- The C function `isalpha` in the "C" locale. -/
def isalpha (c : Char) : Bool := c.isAlpha

/-- The method `s.substr(pos, len)` for `pos ≤ s.length()`. -/
def substr (s : Str) (pos len : Nat) : Str := (s.drop pos).take len

/-- The method `s.substr(pos)` for `pos ≤ s.length()`. -/
def substrFrom (s : Str) (pos : Nat) : Str := s.drop pos

/-- The method `s.find_first_not_of(set)`; `none` is `npos`. -/
def find_first_not_of (s set : Str) : Option Nat :=
  s.findIdx? (fun c => !set.contains c)

/-- The method `s.find_last_not_of(set)`; `none` is `npos`. -/
def find_last_not_of (s set : Str) : Option Nat :=
  (s.reverse.findIdx? (fun c => !set.contains c)).map (fun i => s.length - 1 - i)

/-- The method `s.find_first_of(set)`; `none` is `npos`. -/
def find_first_of (s set : Str) : Option Nat :=
  s.findIdx? (fun c => set.contains c)

/-- The method `s.find(c)` for a character; `none` is `npos`. -/
def findChar (s : Str) (c : Char) : Option Nat :=
  s.findIdx? (fun d => d = c)

/-- The function `trim` (lines 26-31). -/
def trim (str : Str) : Str :=
  match find_first_not_of str " \t\r\n".toList with
  | none => []
  | some first =>
    let last := (find_last_not_of str " \t\r\n".toList).getD 0
    substr str first (last - first + 1)

/-- The function `removeQuotes` (lines 34-41). -/
def removeQuotes (str : Str) : Str :=
  let s := trim str
  if 2 ≤ s.length ∧ ((s.head? = some '"' ∧ s.getLast? = some '"') ∨
      (s.head? = some '\'' ∧ s.getLast? = some '\'')) then
    substr s 1 (s.length - 2)
  else s

/-! ## Tokenizer -/

/-- The loop state of `tokenize`: the vector `tokens` and the pending string
`current`.  (The local `inNumber` is written but never read and is left out.) -/
structure TokState where
  tokens : List Str
  current : Str
  deriving DecidableEq, Repr

/-- Whether `tokens` is empty or its last element is `(` or an operator: the
left context in which `tokenize` takes a `-` into the pending token
(lines 66-68). -/
def minusContext (tokens : List Str) : Bool :=
  tokens.isEmpty ∨ tokens.getLast? = some ['('] ∨ tokens.getLast? = some ['+'] ∨
    tokens.getLast? = some ['-'] ∨ tokens.getLast? = some ['*'] ∨
    tokens.getLast? = some ['/']

/-- One iteration of the loop of `tokenize` (lines 49-83). -/
def tokenizeStep (st : TokState) (c : Char) : TokState :=
  if isspace c then
    if st.current ≠ [] then ⟨st.tokens ++ [st.current], []⟩ else st
  else if isdigit c ∨ c = '.' then
    ⟨st.tokens, st.current ++ [c]⟩
  else if c = '+' ∨ c = '-' ∨ c = '*' ∨ c = '/' ∨ c = '(' ∨ c = ')' then
    if c = '-' ∧ minusContext st.tokens then
      ⟨st.tokens, st.current ++ [c]⟩
    else
      let tokens1 := if st.current ≠ [] then st.tokens ++ [st.current] else st.tokens
      ⟨tokens1 ++ [[c]], []⟩
  else
    ⟨st.tokens, st.current ++ [c]⟩

/-- The function `tokenize` (lines 44-90). -/
def tokenize (expr : Str) : List Str :=
  let st := expr.foldl tokenizeStep ⟨[], []⟩
  if st.current ≠ [] then st.tokens ++ [st.current] else st.tokens

/-! ## Numbers -/

/-- A `float` (IEEE-754 binary32): a finite value, an infinity with its sign,
or a NaN.  Every finite value the operations below produce is a binary32
number, because they all end in `round32`. -/
inductive F32 where
  | fin (q : ℚ)
  | inf (neg : Bool)
  | nan
  deriving DecidableEq

/-- Rounding of a rational to the nearest integer, ties to even. -/
def rne (x : ℚ) : ℤ :=
  let f := ⌊x⌋
  let r := x - f
  if r < 1 / 2 then f
  else if 1 / 2 < r then f + 1
  else if f % 2 = 0 then f else f + 1

/-- The loop of `natLog2`, by halving, bounded by `fuel`. -/
def natLog2Fuel : Nat → Nat → Nat
  | 0, _ => 0
  | fuel + 1, n => if 2 ≤ n then natLog2Fuel fuel (n / 2) + 1 else 0

/-- The binary logarithm of a natural number, rounded down (0 at 0). -/
def natLog2 (n : Nat) : Nat := natLog2Fuel n n

/-- The binary exponent of a positive rational: the `e` with
`2 ^ e ≤ q < 2 ^ (e + 1)`. -/
def ilog2 (q : ℚ) : ℤ :=
  let e0 : ℤ := (natLog2 q.num.natAbs : ℤ) - (natLog2 q.den : ℤ)
  if (2 : ℚ) ^ e0 ≤ q then e0 else e0 - 1

/-- Rounding to 24 significant bits in the binade of exponent `e`
(nearest, ties to even). -/
def roundTo (e : ℤ) (q : ℚ) : ℚ :=
  (rne (q / (2 : ℚ) ^ (e - 23)) : ℚ) * (2 : ℚ) ^ (e - 23)

/-- Rounding of an exact result to binary32: 24 significant bits, least
exponent `-126` (subnormals below), overflow to infinity. -/
def round32 (q : ℚ) : F32 :=
  if q = 0 then F32.fin 0
  else
    let r := roundTo (max (ilog2 |q|) (-126)) q
    if (2 : ℚ) ^ (128 : ℕ) ≤ |r| then F32.inf (decide (q < 0)) else F32.fin r

/-- Negation of a `float`. -/
def F32.neg : F32 → F32
  | F32.fin q => F32.fin (-q)
  | F32.inf s => F32.inf (!s)
  | F32.nan => F32.nan

/-- The `float` sum `a + b`. -/
def F32.add : F32 → F32 → F32
  | F32.fin a, F32.fin b => round32 (a + b)
  | F32.nan, _ => F32.nan
  | _, F32.nan => F32.nan
  | F32.inf s, F32.inf t => if s = t then F32.inf s else F32.nan
  | F32.inf s, F32.fin _ => F32.inf s
  | F32.fin _, F32.inf t => F32.inf t

/-- The `float` difference `a - b`. -/
def F32.sub (a b : F32) : F32 := F32.add a (F32.neg b)

/-- The `float` product `a * b`. -/
def F32.mul : F32 → F32 → F32
  | F32.fin a, F32.fin b => round32 (a * b)
  | F32.nan, _ => F32.nan
  | _, F32.nan => F32.nan
  | F32.inf s, F32.inf t => F32.inf (xor s t)
  | F32.inf s, F32.fin b => if b = 0 then F32.nan else F32.inf (xor s (decide (b < 0)))
  | F32.fin a, F32.inf t => if a = 0 then F32.nan else F32.inf (xor (decide (a < 0)) t)

/-- The `float` quotient `a / b`.  The code divides only after `b == 0` has
been excluded; for a zero divisor the sign of the result would depend on the
sign of the zero, and the positive zero is taken here. -/
def F32.div : F32 → F32 → F32
  | F32.fin a, F32.fin b =>
    if b = 0 then (if a = 0 then F32.nan else F32.inf (decide (a < 0)))
    else round32 (a / b)
  | F32.nan, _ => F32.nan
  | _, F32.nan => F32.nan
  | F32.inf _, F32.inf _ => F32.nan
  | F32.inf s, F32.fin b => F32.inf (xor s (decide (b < 0)))
  | F32.fin _, F32.inf _ => F32.fin 0

/-- The comparison `b == 0` on a `float`. -/
def F32.isZero : F32 → Bool
  | F32.fin q => decide (q = 0)
  | _ => false

/-- The conversion `static_cast<float>(i)` of an `int`. -/
def intToFloat (i : Int) : F32 := round32 (i : ℚ)

/-- Truncation of a rational toward zero. -/
def truncQ (q : ℚ) : ℤ := if 0 ≤ q then ⌊q⌋ else -⌊-q⌋

/-- The conversion `static_cast<int>(f)` of a `float`: truncation toward zero;
the behaviour is undefined when the truncated value is not an `int` (also for
the infinities and NaN). -/
def floatToInt : F32 → Res Int
  | F32.fin q =>
    if -2147483648 ≤ truncQ q ∧ truncQ q ≤ 2147483647 then Res.ok (truncQ q)
    else Res.undefined
  | _ => Res.undefined

/-- The value of a decimal digit character. -/
def digitVal (c : Char) : Nat := c.toNat - 48

/-- The value of a string of decimal digits. -/
def digitsVal (ds : Str) : Nat := ds.foldl (fun acc c => 10 * acc + digitVal c) 0

/-- The function `std::to_string` on an `int`. -/
def to_string (n : Int) : Str :=
  if n < 0 then '-' :: Nat.toDigits 10 n.natAbs else Nat.toDigits 10 n.toNat

/-- An optional sign at the head of a string: whether it is `-`, the rest, and
the number of characters taken. -/
def takeSign (s : Str) : Bool × Str × Nat :=
  match s with
  | '-' :: r => (true, r, 1)
  | '+' :: r => (false, r, 1)
  | _ => (false, s, 0)

/-- The function `std::stoi(s, &pos)` (base 10): leading white space, an
optional sign, decimal digits.  It throws `std::invalid_argument` when there
is no digit and `std::out_of_range` when the value is not an `int`; the
`what()` of both is `"stoi"`. -/
def stoi (s : Str) : Res (Int × Nat) :=
  let ws := s.takeWhile isspace
  let (neg, rest, k) := takeSign (s.drop ws.length)
  let ds := rest.takeWhile isdigit
  if ds = [] then Res.throw "stoi".toList
  else
    let n : Int := if neg then -(digitsVal ds : Int) else (digitsVal ds : Int)
    if n < -2147483648 ∨ 2147483647 < n then Res.throw "stoi".toList
    else Res.ok (n, ws.length + k + ds.length)

/-- The C function `isxdigit`. -/
def isxdigit (c : Char) : Bool :=
  c.isDigit ∨ ('a' ≤ c ∧ c ≤ 'f') ∨ ('A' ≤ c ∧ c ≤ 'F')

/-- The value of a hexadecimal digit character. -/
def hexVal (c : Char) : Nat :=
  if c.isDigit then c.toNat - 48
  else if 'a' ≤ c ∧ c ≤ 'f' then c.toNat - 87
  else c.toNat - 55

/-- The value of a string of hexadecimal digits. -/
def hexDigitsVal (ds : Str) : Nat := ds.foldl (fun acc c => 16 * acc + hexVal c) 0

/-- The exponent part of a floating literal, introduced by `lower` or `upper`
(`e`/`E`, or `p`/`P` in a hexadecimal literal): its value and the number of
characters it takes; it is taken only when at least one digit follows. -/
def parseExponent (rest : Str) (lower upper : Char) : Int × Nat :=
  match rest with
  | [] => (0, 0)
  | c :: r =>
    if c = lower ∨ c = upper then
      let (neg, r1, k) := takeSign r
      let ds := r1.takeWhile isdigit
      if ds = [] then (0, 0)
      else ((if neg then -(digitsVal ds : Int) else (digitsVal ds : Int)), 1 + k + ds.length)
    else (0, 0)

/-- The digit sequence of a floating literal, with an optional radix point:
the integer digits, the fraction digits, and the number of characters taken
(0 when there is no digit at all). -/
def parseMantissa (isDig : Char → Bool) (s : Str) : Str × Str × Nat :=
  let ip := s.takeWhile isDig
  match s.drop ip.length with
  | '.' :: r =>
    let fp := r.takeWhile isDig
    if ip = [] ∧ fp = [] then ([], [], 0) else (ip, fp, ip.length + 1 + fp.length)
  | _ => (ip, [], ip.length)

/-- The result of `strtof` for the exact value `q` of a finite literal: the
rounded `float` and whether `errno` is set to `ERANGE`, which glibc does on
overflow and when the result is tiny (below `2 ^ (-126)` after rounding to 24
bits) and inexact. -/
def finishFloat (q : ℚ) : F32 × Bool :=
  match round32 q with
  | F32.fin r =>
    (F32.fin r, decide (q ≠ 0 ∧ |roundTo (ilog2 |q|) q| < (2 : ℚ) ^ (-126 : ℤ) ∧ r ≠ q))
  | v => (v, true)

/-- The characters allowed between the parentheses of `nan(...)`. -/
def isNanChar (c : Char) : Bool := c.isAlphanum ∨ c = '_'

/-- The body of `strtof` after white space and sign: the value, the number of
characters taken (0: no conversion) and whether `errno` is `ERANGE`. -/
def strtofBody (s : Str) : F32 × Nat × Bool :=
  let low := s.map Char.toLower
  if low.take 8 = "infinity".toList then (F32.inf false, 8, false)
  else if low.take 3 = "inf".toList then (F32.inf false, 3, false)
  else if low.take 3 = "nan".toList then
    match s.drop 3 with
    | '(' :: r =>
      let cs := r.takeWhile isNanChar
      match r.drop cs.length with
      | ')' :: _ => (F32.nan, 3 + 1 + cs.length + 1, false)
      | _ => (F32.nan, 3, false)
    | _ => (F32.nan, 3, false)
  else
    let hex := parseMantissa isxdigit (s.drop 2)
    if low.take 2 = "0x".toList ∧ hex.2.2 ≠ 0 then
      let ex := parseExponent (s.drop (2 + hex.2.2)) 'p' 'P'
      let q : ℚ := (hexDigitsVal (hex.1 ++ hex.2.1) : ℚ) *
        (2 : ℚ) ^ (ex.1 - 4 * (hex.2.1.length : ℤ))
      let fr := finishFloat q
      (fr.1, 2 + hex.2.2 + ex.2, fr.2)
    else
      let dec := parseMantissa isdigit s
      if dec.2.2 = 0 then (F32.fin 0, 0, false)
      else
        let ex := parseExponent (s.drop dec.2.2) 'e' 'E'
        let q : ℚ := (digitsVal (dec.1 ++ dec.2.1) : ℚ) *
          (10 : ℚ) ^ (ex.1 - (dec.2.1.length : ℤ))
        let fr := finishFloat q
        (fr.1, dec.2.2 + ex.2, fr.2)

/-- The function `std::stof(s, &pos)`: `strtof` (leading white space, an
optional sign, then a decimal or hexadecimal floating literal, `inf`,
`infinity` or `nan`).  It throws `std::invalid_argument` when nothing is
converted and `std::out_of_range` when `errno` is `ERANGE`; the `what()` of
both is `"stof"`. -/
def stof (s : Str) : Res (F32 × Nat) :=
  let ws := s.takeWhile isspace
  let (neg, rest, k) := takeSign (s.drop ws.length)
  let (v, n, erange) := strtofBody rest
  if n = 0 then Res.throw "stof".toList
  else if erange then Res.throw "stof".toList
  else Res.ok (if neg then F32.neg v else v, ws.length + k + n)

/-! ## Values and the variable store -/

/-- The type `VarType`: `std::variant<int, float, bool, std::string,
std::monostate>`. -/
inductive VarType where
  | int (i : Int)
  | float (f : F32)
  | bool (b : Bool)
  | string (s : Str)
  | monostate
  deriving DecidableEq

/-- The struct `Variable`. -/
structure Variable where
  value : VarType
  declaredType : Str
  deriving DecidableEq

/-- The global `variables`: an `unordered_map` from names to variables. -/
abbrev Store := Str → Option Variable

/-- The empty map. -/
def Store.empty : Store := fun _ => none

/-- The method `variables.find(key)`; `none` is `variables.end()`. -/
def Store.find (vars : Store) (key : Str) : Option Variable := vars key

/-- The assignment `variables[key] = var`. -/
def Store.assign (vars : Store) (key : Str) (var : Variable) : Store :=
  fun k => if k = key then some var else vars k

/-- The non-const access `variables[key]`: the entry, which is first inserted
with a value-initialised `Variable` (the `int` 0 and the empty string) when the
key is absent, and the map afterwards. -/
def Store.index (vars : Store) (key : Str) : Variable × Store :=
  match vars key with
  | some var => (var, vars)
  | none => (⟨VarType.int 0, []⟩, vars.assign key ⟨VarType.int 0, []⟩)

/-! ## Expression parser (infix to postfix) -/

/-- The function `getPrecedence` (lines 93-97). -/
def getPrecedence (op : Str) : Int :=
  if op = ['+'] ∨ op = ['-'] then 1
  else if op = ['*'] ∨ op = ['/'] then 2
  else 0

/-- Whether a token is one of the four operators. -/
def isOperator (token : Str) : Bool :=
  token = ['+'] ∨ token = ['-'] ∨ token = ['*'] ∨ token = ['/']

/-- The test of lines 162 (and 108): the token starts with a digit, or with
`-` and is longer than one character. -/
def isNumberToken (token : Str) : Bool :=
  match token with
  | [] => false
  | c :: _ => isdigit c ∨ (c = '-' ∧ 1 < token.length)

/-- The test of lines 108-109: a number, or a name bound in `variables`. -/
def isOperandToken (vars : Store) (token : Str) : Bool :=
  match token with
  | [] => false
  | c :: _ => isNumberToken token ∨ (isalpha c ∧ (vars.find token).isSome)

/-- The loop of lines 118-121: move operators from the stack (top first) to
the output until the stack is empty or its top is `(`. -/
def popToParen : List Str → List Str → List Str × List Str
  | output, [] => (output, [])
  | output, top :: rest =>
    if top ≠ ['('] then popToParen (output ++ [top]) rest else (output, top :: rest)

/-- The loop of lines 126-130: move operators to the output while the top is
not `(` and its precedence is at least that of `token`. -/
def popPrec (token : Str) : List Str → List Str → List Str × List Str
  | output, [] => (output, [])
  | output, top :: rest =>
    if top ≠ ['('] ∧ getPrecedence token ≤ getPrecedence top then
      popPrec token (output ++ [top]) rest
    else (output, top :: rest)

/-- One iteration of the loop of `infixToPostfix` (lines 104-133) on the pair
of `output` and the `operators` stack (top first). -/
def infixStep (vars : Store) (st : List Str × List Str) (token : Str) :
    List Str × List Str :=
  if token = [] then st
  else if isOperandToken vars token then (st.1 ++ [token], st.2)
  else if token = ['('] then (st.1, token :: st.2)
  else if token = [')'] then
    let r := popToParen st.1 st.2
    (r.1, r.2.tail)
  else if isOperator token then
    let r := popPrec token st.1 st.2
    (r.1, token :: r.2)
  else st

/-- The function `infixToPostfix` (lines 100-141); it only reads `variables`. -/
def infixToPostfix (vars : Store) (tokens : List Str) : List Str :=
  let st := tokens.foldl (infixStep vars) ([], [])
  st.1 ++ st.2

/-! ## Postfix evaluator -/

/-- The body of the loop of `evaluatePostfix` for one token (lines 148-181) on
the `values` stack (top first). -/
def evalToken (currentLine : Int) (vars : Store) (values : List F32) (token : Str) :
    Res (List F32) × Store :=
  if token = [] then (Res.ok values, vars)
  else if (vars.find token).isSome then
    let r := vars.index token
    match r.1.value with
    | VarType.int i => (Res.ok (intToFloat i :: values), r.2)
    | VarType.float f => (Res.ok (f :: values), r.2)
    | _ => (Res.throw ("Variable '".toList ++ token ++ "' is not numeric".toList), r.2)
  else if isNumberToken token then
    match stof token with
    | Res.ok (v, _) => (Res.ok (v :: values), vars)
    | Res.throw what => (Res.throw what, vars)
    | Res.undefined => (Res.undefined, vars)
  else if isOperator token then
    match values with
    | b :: a :: rest =>
      if token = ['+'] then (Res.ok (F32.add a b :: rest), vars)
      else if token = ['-'] then (Res.ok (F32.sub a b :: rest), vars)
      else if token = ['*'] then (Res.ok (F32.mul a b :: rest), vars)
      else if b.isZero then
        (Res.throw ("Division by zero at line ".toList ++ to_string currentLine), vars)
      else (Res.ok (F32.div a b :: rest), vars)
    | _ => (Res.throw "Invalid expression".toList, vars)
  else (Res.ok values, vars)

/-- The loop of `evaluatePostfix` (lines 147-182); an exception ends it. -/
def evalLoop (currentLine : Int) : Store → List F32 → List Str → Res (List F32) × Store
  | vars, values, [] => (Res.ok values, vars)
  | vars, values, token :: rest =>
    match evalToken currentLine vars values token with
    | (Res.ok values1, vars1) => evalLoop currentLine vars1 values1 rest
    | r => r

/-- The function `evaluatePostfix` (lines 144-189). -/
def evaluatePostfix (vars : Store) (currentLine : Int) (tokens : List Str) :
    Res F32 × Store :=
  match evalLoop currentLine vars [] tokens with
  | (Res.ok [v], vars1) => (Res.ok v, vars1)
  | (Res.ok _, vars1) => (Res.throw "Invalid expression".toList, vars1)
  | (Res.throw what, vars1) => (Res.throw what, vars1)
  | (Res.undefined, vars1) => (Res.undefined, vars1)

/-- The function `evaluate_math_expression` (lines 192-196). -/
def evaluate_math_expression (vars : Store) (currentLine : Int) (expr : Str) :
    Res F32 × Store :=
  evaluatePostfix vars currentLine (infixToPostfix vars (tokenize expr))

/-! ## Resolver -/

/-- The test of lines 203-204 on the first and last character. -/
def isQuoted (front back : Char) : Bool :=
  (front = '"' ∧ back = '"') ∨ (front = '\'' ∧ back = '\'')

/-- Lines 227-246 of `evaluate_expression`: try `int`, then `float`, else the
string itself. -/
def parseLiteral (trimmedExpr : Str) : VarType :=
  match stoi trimmedExpr with
  | Res.ok (intVal, pos) =>
    if pos = trimmedExpr.length then VarType.int intVal
    else
      match stof trimmedExpr with
      | Res.ok (floatVal, pos1) =>
        if pos1 = trimmedExpr.length then VarType.float floatVal
        else VarType.string trimmedExpr
      | _ => VarType.string trimmedExpr
  | _ =>
    match stof trimmedExpr with
    | Res.ok (floatVal, pos1) =>
      if pos1 = trimmedExpr.length then VarType.float floatVal
      else VarType.string trimmedExpr
    | _ => VarType.string trimmedExpr

/-- The function `evaluate_expression` (lines 199-247).  On an empty trimmed
string `front()` and `back()` have undefined behaviour. -/
def evaluate_expression (vars : Store) (currentLine : Int) (expr : Str) :
    Res VarType × Store :=
  let trimmedExpr := trim expr
  match trimmedExpr.head?, trimmedExpr.getLast? with
  | some front, some back =>
    if isQuoted front back then
      (Res.ok (VarType.string (removeQuotes trimmedExpr)), vars)
    else if (vars.find trimmedExpr).isSome then
      let r := vars.index trimmedExpr
      (Res.ok r.1.value, r.2)
    else if trimmedExpr = "true".toList then (Res.ok (VarType.bool true), vars)
    else if trimmedExpr = "false".toList then (Res.ok (VarType.bool false), vars)
    else if (find_first_of trimmedExpr "+-*/()".toList).isSome then
      match evaluate_math_expression vars currentLine trimmedExpr with
      | (Res.ok v, vars1) => (Res.ok (VarType.float v), vars1)
      | (Res.throw _, vars1) => (Res.ok (VarType.string trimmedExpr), vars1)
      | (Res.undefined, vars1) => (Res.undefined, vars1)
    else (Res.ok (parseLiteral trimmedExpr), vars)
  | _, _ => (Res.undefined, vars)

/-! ## Declarations -/

/-- Lines 305-335 of `handle_variable_assignment`: split the line into the
declared type, the identifier and the value text, and validate the identifier.
(The local `keyword` is computed but never read.) -/
def parseDeclaration (currentLine : Int) (line : Str) : Res (Str × Str × Str) :=
  match findChar line ' ' with
  | none =>
    Res.throw ("Invalid variable declaration at line ".toList ++ to_string currentLine)
  | some keywordEnd =>
    let rest := trim (substrFrom line (keywordEnd + 1))
    match findChar rest ' ' with
    | none =>
      Res.throw ("Missing type declaration at line ".toList ++ to_string currentLine)
    | some typeEnd =>
      let varType := substr rest 0 typeEnd
      let rest1 := trim (substrFrom rest (typeEnd + 1))
      match findChar rest1 '=' with
      | none =>
        Res.throw ("Missing assignment operator at line ".toList ++ to_string currentLine)
      | some equalsPos =>
        let identifier := trim (substr rest1 0 equalsPos)
        let valueStr := trim (substrFrom rest1 (equalsPos + 1))
        match identifier with
        | [] =>
          Res.throw ("Invalid identifier '".toList ++ identifier ++ "' at line ".toList ++
            to_string currentLine)
        | c :: _ =>
          if ¬ isalpha c then
            Res.throw ("Invalid identifier '".toList ++ identifier ++ "' at line ".toList ++
              to_string currentLine)
          else Res.ok (varType, identifier, valueStr)

/-- Lines 341-370 of `handle_variable_assignment`: the value to store for a
declared type and a value text, or the exception raised in the `try` block. -/
def coerceValue (vars : Store) (currentLine : Int) (varType valueStr : Str) :
    Res VarType × Store :=
  if varType = "int".toList then
    match evaluate_expression vars currentLine valueStr with
    | (Res.ok (VarType.int i), vars1) => (Res.ok (VarType.int i), vars1)
    | (Res.ok (VarType.float f), vars1) =>
      match floatToInt f with
      | Res.ok i => (Res.ok (VarType.int i), vars1)
      | Res.throw what => (Res.throw what, vars1)
      | Res.undefined => (Res.undefined, vars1)
    | (Res.ok _, vars1) => (Res.throw "Cannot convert to int".toList, vars1)
    | r => r
  else if varType = "float".toList then
    match evaluate_expression vars currentLine valueStr with
    | (Res.ok (VarType.float f), vars1) => (Res.ok (VarType.float f), vars1)
    | (Res.ok (VarType.int i), vars1) => (Res.ok (VarType.float (intToFloat i)), vars1)
    | (Res.ok _, vars1) => (Res.throw "Cannot convert to float".toList, vars1)
    | r => r
  else if varType = "string".toList then
    (Res.ok (VarType.string (removeQuotes valueStr)), vars)
  else if varType = "bool".toList ∨ varType = "boolean".toList then
    match evaluate_expression vars currentLine valueStr with
    | (Res.ok (VarType.bool b), vars1) => (Res.ok (VarType.bool b), vars1)
    | (Res.ok _, vars1) => (Res.throw "Cannot convert to boolean".toList, vars1)
    | r => r
  else (Res.throw ("Unknown type '".toList ++ varType ++ "'".toList), vars)

/-- The function `handle_variable_assignment` (lines 304-377): the outcome and
the store it leaves. -/
def handle_variable_assignment (vars : Store) (currentLine : Int) (line : Str) :
    Res Unit × Store :=
  match parseDeclaration currentLine line with
  | Res.ok (varType, identifier, valueStr) =>
    match coerceValue vars currentLine varType valueStr with
    | (Res.ok value, vars1) => (Res.ok (), vars1.assign identifier ⟨value, varType⟩)
    | (Res.throw what, vars1) =>
      (Res.throw ("Error assigning variable '".toList ++ identifier ++ "': ".toList ++ what),
        vars1)
    | (Res.undefined, vars1) => (Res.undefined, vars1)
  | Res.throw what => (Res.throw what, vars)
  | Res.undefined => (Res.undefined, vars)

/-! ## Declarations on a target -/

/-- What a run does at the two places where the C++ standard leaves the
behaviour undefined and the compiled program goes on: the `int` that
`static_cast<int>` yields for a `float` whose truncation is not an `int`
(line 346), and the characters that `front()` and `back()` read from an empty
string (lines 203-204). -/
structure Target where
  castInt : F32 → Int
  front : Char
  back : Char

/-- The conversion `static_cast<int>(f)` on a target: `floatToInt` where the
standard defines it, the target's value elsewhere. -/
def castToInt (t : Target) (f : F32) : Int :=
  match floatToInt f with
  | Res.ok i => i
  | _ => t.castInt f

/-- The function `evaluate_expression` (lines 199-247) on a target: on an empty
trimmed string `front()` and `back()` read the target's characters and the
rules go on from there. -/
def evaluate_expressionOn (t : Target) (vars : Store) (currentLine : Int) (expr : Str) :
    Res VarType × Store :=
  let trimmedExpr := trim expr
  let front := trimmedExpr.head?.getD t.front
  let back := trimmedExpr.getLast?.getD t.back
  if isQuoted front back then
    (Res.ok (VarType.string (removeQuotes trimmedExpr)), vars)
  else if (vars.find trimmedExpr).isSome then
    let r := vars.index trimmedExpr
    (Res.ok r.1.value, r.2)
  else if trimmedExpr = "true".toList then (Res.ok (VarType.bool true), vars)
  else if trimmedExpr = "false".toList then (Res.ok (VarType.bool false), vars)
  else if (find_first_of trimmedExpr "+-*/()".toList).isSome then
    match evaluate_math_expression vars currentLine trimmedExpr with
    | (Res.ok v, vars1) => (Res.ok (VarType.float v), vars1)
    | (Res.throw _, vars1) => (Res.ok (VarType.string trimmedExpr), vars1)
    | (Res.undefined, vars1) => (Res.undefined, vars1)
  else (Res.ok (parseLiteral trimmedExpr), vars)

/-- Lines 341-370 of `handle_variable_assignment` on a target. -/
def coerceValueOn (t : Target) (vars : Store) (currentLine : Int) (varType valueStr : Str) :
    Res VarType × Store :=
  if varType = "int".toList then
    match evaluate_expressionOn t vars currentLine valueStr with
    | (Res.ok (VarType.int i), vars1) => (Res.ok (VarType.int i), vars1)
    | (Res.ok (VarType.float f), vars1) => (Res.ok (VarType.int (castToInt t f)), vars1)
    | (Res.ok _, vars1) => (Res.throw "Cannot convert to int".toList, vars1)
    | r => r
  else if varType = "float".toList then
    match evaluate_expressionOn t vars currentLine valueStr with
    | (Res.ok (VarType.float f), vars1) => (Res.ok (VarType.float f), vars1)
    | (Res.ok (VarType.int i), vars1) => (Res.ok (VarType.float (intToFloat i)), vars1)
    | (Res.ok _, vars1) => (Res.throw "Cannot convert to float".toList, vars1)
    | r => r
  else if varType = "string".toList then
    (Res.ok (VarType.string (removeQuotes valueStr)), vars)
  else if varType = "bool".toList ∨ varType = "boolean".toList then
    match evaluate_expressionOn t vars currentLine valueStr with
    | (Res.ok (VarType.bool b), vars1) => (Res.ok (VarType.bool b), vars1)
    | (Res.ok _, vars1) => (Res.throw "Cannot convert to boolean".toList, vars1)
    | r => r
  else (Res.throw ("Unknown type '".toList ++ varType ++ "'".toList), vars)

/-- The function `handle_variable_assignment` (lines 304-377) on a target: the
outcome and the store it leaves, for every line. -/
def handle_variable_assignmentOn (t : Target) (vars : Store) (currentLine : Int) (line : Str) :
    Res Unit × Store :=
  match parseDeclaration currentLine line with
  | Res.ok (varType, identifier, valueStr) =>
    match coerceValueOn t vars currentLine varType valueStr with
    | (Res.ok value, vars1) => (Res.ok (), vars1.assign identifier ⟨value, varType⟩)
    | (Res.throw what, vars1) =>
      (Res.throw ("Error assigning variable '".toList ++ identifier ++ "': ".toList ++ what),
        vars1)
    | (Res.undefined, vars1) => (Res.undefined, vars1)
  | Res.throw what => (Res.throw what, vars)
  | Res.undefined => (Res.undefined, vars)

/-! ## Specification vocabulary -/

/-- A non-empty string of decimal digits. -/
def IsDigits (s : Str) : Prop := s ≠ [] ∧ ∀ c ∈ s, isdigit c = true

instance (s : Str) : Decidable (IsDigits s) := by
  unfold IsDigits
  infer_instance

/-- The decimal numeral of a natural number. -/
def decimal (n : Nat) : Str := Nat.toDigits 10 n

/-- The decimal literal of an integer, with a leading `-` when it is negative. -/
def intLiteral (n : Int) : Str :=
  if n < 0 then '-' :: decimal n.natAbs else decimal n.toNat

/-- Whether a call returned a value. -/
def Res.isOk {α : Type} : Res α → Bool
  | Res.ok _ => true
  | _ => false

/-- Whether a string starts and ends with the same quote character (the test
of lines 203-204 on a non-empty string). -/
def startsAndEndsQuoted (s : Str) : Bool :=
  match s.head?, s.getLast? with
  | some front, some back => isQuoted front back
  | _, _ => false

/-- An Identifier token: it starts with a letter. -/
def isIdentifierToken (token : Str) : Bool :=
  match token with
  | [] => false
  | c :: _ => isalpha c

/-- An operand of an infix expression as written: a number or an identifier,
bound or not. -/
def isOperandShaped (token : Str) : Bool := isNumberToken token || isIdentifierToken token

/-- A Number token as the tokenizer builds it from digits and decimal points,
starting with a digit. -/
def IsNumberLiteral : Str → Prop
  | [] => False
  | c :: rest => isdigit c = true ∧ ∀ d ∈ rest, isdigit d = true ∨ d = '.'

instance (s : Str) : Decidable (IsNumberLiteral s) := by
  cases s <;> unfold IsNumberLiteral <;> infer_instance

/-- Every key of the store is an identifier as line 333 validates it: not
empty and starting with a letter. -/
def Store.KeysAreIdentifiers (vars : Store) : Prop :=
  ∀ key : Str, (vars key).isSome → ∃ c rest, key = c :: rest ∧ isalpha c = true

/-- The value variant agrees with the declared type, and is not the empty
`monostate`. -/
def Variable.Consistent (var : Variable) : Prop :=
  match var.value with
  | VarType.int _ => var.declaredType = "int".toList
  | VarType.float _ => var.declaredType = "float".toList
  | VarType.string _ => var.declaredType = "string".toList
  | VarType.bool _ => var.declaredType = "bool".toList ∨ var.declaredType = "boolean".toList
  | VarType.monostate => False

/-- The stores the interpreter can be in: the empty one, and the one left by
`handle_variable_assignment` on any line, on any target, whether the call
succeeds or throws. -/
inductive Store.Reachable : Store → Prop where
  | empty : Store.Reachable Store.empty
  | step (t : Target) (vars : Store) (currentLine : Int) (line : Str) :
      Store.Reachable vars →
      Store.Reachable (handle_variable_assignmentOn t vars currentLine line).2

/-- A character the tokenizer can put into the pending token next to others:
not white space and none of `+ * / ( )`. -/
def isTokenChar (c : Char) : Bool :=
  !isspace c && c != '+' && c != '*' && c != '/' && c != '(' && c != ')'

/-- A token as `tokenize` can produce it: not empty, free of white space, and
either a single character or free of `+ * / ( )`. -/
def IsToken (t : Str) : Prop :=
  t ≠ [] ∧ (∀ c ∈ t, isspace c = false) ∧ (t.length = 1 ∨ ∀ c ∈ t, isTokenChar c = true)

/-- The invariant of the loop of `tokenize` after reading `processed`. -/
def TokInv (st : TokState) (processed : Str) : Prop :=
  (∀ t ∈ st.tokens, IsToken t) ∧ (∀ c ∈ st.current, isTokenChar c = true) ∧
    st.tokens.flatten ++ st.current = processed.filter (fun c => !isspace c)

/-- One of the four characters `trim` strips: space, tab, carriage return,
line feed. -/
def isTrimSpace (c : Char) : Bool := " \t\r\n".toList.contains c

/-- A token that begins with a digit, or with `-` followed by a digit. -/
def startsLikeNumber : Str → Bool
  | c :: d :: _ => isdigit c || (c == '-' && isdigit d)
  | [c] => isdigit c
  | [] => false

/-- The depth of the value stack after a postfix sequence is read from depth
`depth`: an operand adds one value, an operator needs two and leaves one;
`none` when an operator finds fewer than two values. -/
def rpnDepth : List Str → Nat → Option Nat
  | [], depth => some depth
  | t :: rest, depth =>
    if isOperator t then
      if 2 ≤ depth then rpnDepth rest (depth - 1) else none
    else rpnDepth rest (depth + 1)

/-- A well-formed Reverse Polish sequence: every operator finds two values and
exactly one value remains. -/
def WellFormedRPN (tokens : List Str) : Prop := rpnDepth tokens 0 = some 1

instance (tokens : List Str) : Decidable (WellFormedRPN tokens) := by
  unfold WellFormedRPN
  infer_instance

/-- No division has a zero right operand: whenever the evaluation, started on
the stack `values`, reaches a `/`, the value on top of the stack is not zero. -/
def NoZeroDivisorFrom (vars : Store) (currentLine : Int) (values : List F32)
    (tokens : List Str) : Prop :=
  ∀ (pre post : List Str) (b : F32) (rest : List F32) (vars1 : Store),
    tokens = pre ++ ['/'] :: post →
    evalLoop currentLine vars values pre = (Res.ok (b :: rest), vars1) → b.isZero = false

/-- An expression tree: a number literal, or an operator with its left and
right operands. -/
inductive Expr where
  | leaf (token : Str)
  | node (op : Str) (left right : Expr)
  deriving DecidableEq

/-- The post-order traversal of an expression tree: left operand, right
operand, operator. -/
def Expr.postorder : Expr → List Str
  | Expr.leaf token => [token]
  | Expr.node op left right => left.postorder ++ right.postorder ++ [op]

/-- The three levels of the standard grammar of infix expressions. -/
inductive Level where
  | sum
  | product
  | atom
  deriving DecidableEq

/-- The standard grammar of infix expressions and the tree it assigns:
`sum ::= sum (+|-) product | product`, `product ::= product (*|/) atom | atom`,
`atom ::= number | ( sum )`.  The left recursion makes operators of equal
precedence associate to the left; `*` and `/` bind tighter than `+` and `-`. -/
inductive Parses : Level → List Str → Expr → Prop where
  | number (token : Str) : IsNumberLiteral token → Parses Level.atom [token] (Expr.leaf token)
  | parens (tokens : List Str) (e : Expr) :
      Parses Level.sum tokens e → Parses Level.atom (['('] :: tokens ++ [[')']]) e
  | ofAtom (tokens : List Str) (e : Expr) :
      Parses Level.atom tokens e → Parses Level.product tokens e
  | mul (tokens1 tokens2 : List Str) (left right : Expr) (op : Str) :
      Parses Level.product tokens1 left → Parses Level.atom tokens2 right →
      (op = ['*'] ∨ op = ['/']) →
      Parses Level.product (tokens1 ++ op :: tokens2) (Expr.node op left right)
  | ofProduct (tokens : List Str) (e : Expr) :
      Parses Level.product tokens e → Parses Level.sum tokens e
  | add (tokens1 tokens2 : List Str) (left right : Expr) (op : Str) :
      Parses Level.sum tokens1 left → Parses Level.product tokens2 right →
      (op = ['+'] ∨ op = ['-']) →
      Parses Level.sum (tokens1 ++ op :: tokens2) (Expr.node op left right)

/-- An operator stack on which a sum can start: empty, or with `(` on top. -/
def IsBarrier (ops : List Str) : Prop := ops = [] ∨ ∃ rest, ops = ['('] :: rest

/-- An operator stack on which a product can start: empty, or with `(`, `+`
or `-` on top. -/
def IsLowTop (ops : List Str) : Prop :=
  ops = [] ∨ ∃ top rest, ops = top :: rest ∧ (top = ['('] ∨ top = ['+'] ∨ top = ['-'])

/-- What the loop of `infixToPostfix` does on the tokens of an expression, by
level: an atom is emitted whole and leaves the stack as it was; a product
leaves at most one pending `*` or `/`; a sum leaves pending operators only;
in each case the output followed by the pending operators is the post-order
of the tree. -/
def ShuntInv (vars : Store) : Level → List Str → Expr → Prop
  | Level.atom, tokens, e =>
    ∀ out ops, tokens.foldl (infixStep vars) (out, ops) = (out ++ e.postorder, ops)
  | Level.product, tokens, e =>
    ∀ out ops, IsLowTop ops →
      ∃ o pending, tokens.foldl (infixStep vars) (out, ops) = (out ++ o, pending ++ ops) ∧
        o ++ pending = e.postorder ∧
        (pending = [] ∨ pending = [['*']] ∨ pending = [['/']])
  | Level.sum, tokens, e =>
    ∀ out ops, IsBarrier ops →
      ∃ o pending, tokens.foldl (infixStep vars) (out, ops) = (out ++ o, pending ++ ops) ∧
        o ++ pending = e.postorder ∧ ∀ p ∈ pending, isOperator p = true

/-- A parenthesis token. -/
def isParen (token : Str) : Bool := token = ['('] ∨ token = [')']

/-! ## Characters -/

theorem isdigit_cases {c : Char} (h : isdigit c = true) :
    c = '0' ∨ c = '1' ∨ c = '2' ∨ c = '3' ∨ c = '4' ∨ c = '5' ∨ c = '6' ∨ c = '7' ∨
      c = '8' ∨ c = '9' := by
  have hc : c = Char.ofNat c.toNat := (Char.ofNat_toNat c).symm
  simp only [isdigit, Char.isDigit, Bool.and_eq_true, decide_eq_true_eq] at h
  obtain ⟨h1, h2⟩ := h
  have h1 : 48 ≤ c.toNat := by
    have := UInt32.le_def.mp h1
    simpa [Char.toNat] using this
  have h2 : c.toNat ≤ 57 := by
    have := UInt32.le_def.mp h2
    simpa [Char.toNat] using this
  generalize c.toNat = n at hc h1 h2
  subst hc
  interval_cases n <;> decide

/-! ## Tokenizer lemmas -/

theorem isdigit_not_isspace {c : Char} (h : isdigit c = true) : isspace c = false := by
  rcases isdigit_cases h with h | h | h | h | h | h | h | h | h | h <;> subst h <;> decide

theorem tokenizeStep_digit (st : TokState) {c : Char} (h : isdigit c = true) :
    tokenizeStep st c = ⟨st.tokens, st.current ++ [c]⟩ := by
  simp [tokenizeStep, isdigit_not_isspace h, h]

theorem foldl_tokenizeStep_digits (ds : Str) (hds : ∀ c ∈ ds, isdigit c = true) (st : TokState) :
    ds.foldl tokenizeStep st = ⟨st.tokens, st.current ++ ds⟩ := by
  induction ds generalizing st with
  | nil => simp
  | cons c cs ih =>
    rw [List.foldl_cons, tokenizeStep_digit st (hds c (List.mem_cons_self _ _)),
      ih (fun d hd => hds d (List.mem_cons_of_mem _ hd))]
    simp

theorem digits_ne_singleton {a : Str} (ha : ∀ c ∈ a, isdigit c = true) {c : Char}
    (hc : isdigit c = false) : a ≠ [c] := by
  intro h
  subst h
  have := ha c (List.mem_singleton_self c)
  simp [hc] at this

/-! ## Rounding of small integers -/

theorem rne_intCast (m : ℤ) : rne (m : ℚ) = m := by
  simp [rne]

theorem roundTo_intCast (e : ℤ) (z : ℤ) (he : e ≤ 23) : roundTo e (z : ℚ) = z := by
  obtain ⟨k, hk⟩ : ∃ k : ℕ, e - 23 = -(k : ℤ) := ⟨(23 - e).toNat, by omega⟩
  have h2 : ((2 : ℚ) ^ k) ≠ 0 := by positivity
  have h1 : (z : ℚ) / (2 : ℚ) ^ (e - 23) = ((z * 2 ^ k : ℤ) : ℚ) := by
    rw [hk, zpow_neg, zpow_natCast]
    push_cast
    field_simp
  unfold roundTo
  rw [h1, rne_intCast, hk, zpow_neg, zpow_natCast]
  push_cast
  field_simp

theorem natLog2Fuel_le (fuel n k : ℕ) (h : n < 2 ^ (k + 1)) : natLog2Fuel fuel n ≤ k := by
  induction fuel generalizing n k with
  | zero => simp [natLog2Fuel]
  | succ f ih =>
    unfold natLog2Fuel
    split
    · rename_i h2
      cases k with
      | zero => omega
      | succ k' =>
        have : n / 2 < 2 ^ (k' + 1) := by
          rw [Nat.div_lt_iff_lt_mul (by norm_num)]
          rw [pow_succ] at h
          exact h
        have := ih (n / 2) k' this
        omega
    · omega

theorem ilog2_intCast_le (z : ℤ) (k : ℕ) (h : z.natAbs < 2 ^ (k + 1)) :
    ilog2 |(z : ℚ)| ≤ k := by
  have habs : |(z : ℚ)| = ((z.natAbs : ℤ) : ℚ) := by
    rw [← Int.cast_abs, Int.abs_eq_natAbs]
  have h1 : natLog2 (z.natAbs) ≤ k := natLog2Fuel_le _ _ _ h
  have h2 : natLog2 1 = 0 := by decide
  unfold ilog2
  rw [habs]
  simp only [Rat.intCast_num, Rat.intCast_den, Int.natAbs_ofNat, h2]
  split <;> omega

theorem round32_intCast (z : ℤ) (h : z.natAbs < 2 ^ 24) : round32 (z : ℚ) = F32.fin z := by
  unfold round32
  split
  · rename_i h0
    rw [h0]
  · have he : max (ilog2 |(z : ℚ)|) (-126) ≤ 23 := by
      have := ilog2_intCast_le z 23 h
      simp only [Nat.cast_ofNat] at this
      omega
    simp only [roundTo_intCast _ z he]
    have habs : |(z : ℚ)| = ((z.natAbs : ℕ) : ℚ) := by
      rw [← Int.cast_abs, Int.abs_eq_natAbs, Int.cast_natCast]
    have : ¬ ((2 : ℚ) ^ (128 : ℕ) ≤ |(z : ℚ)|) := by
      rw [habs, not_le]
      have h3 : ((z.natAbs : ℕ) : ℚ) < ((2 ^ 24 : ℕ) : ℚ) := by exact_mod_cast h
      have h4 : ((2 ^ 24 : ℕ) : ℚ) ≤ (2 : ℚ) ^ (128 : ℕ) := by norm_num
      exact lt_of_lt_of_le h3 h4
    simp [this]

theorem round32_natCast (n : ℕ) (h : n < 2 ^ 24) : round32 (n : ℚ) = F32.fin n := by
  have := round32_intCast (n : ℤ) (by simpa using h)
  simpa using this

/-! ## Number parsing -/

theorem takeSign_digit {c : Char} (h : isdigit c = true) (cs : Str) :
    takeSign (c :: cs) = (false, c :: cs, 0) := by
  rcases isdigit_cases h with h | h | h | h | h | h | h | h | h | h <;> subst h <;> rfl

theorem toLower_digit {c : Char} (h : isdigit c = true) : c.toLower = c := by
  rcases isdigit_cases h with h | h | h | h | h | h | h | h | h | h <;> subst h <;> decide

theorem map_toLower_digits {ds : Str} (hds : ∀ c ∈ ds, isdigit c = true) :
    ds.map Char.toLower = ds := by
  induction ds with
  | nil => rfl
  | cons c cs ih =>
    simp only [List.map_cons, toLower_digit (hds c (List.mem_cons_self _ _)),
      ih (fun d hd => hds d (List.mem_cons_of_mem _ hd))]

theorem digits_take_ne {ds : Str} (hds : ∀ c ∈ ds, isdigit c = true) (n : ℕ) (w : Str) (x : Char)
    (hx : x ∈ w) (hxd : isdigit x = false) : ds.take n ≠ w := by
  intro h
  have h1 : x ∈ ds := List.mem_of_mem_take (h ▸ hx)
  have := hds x h1
  simp [hxd] at this

theorem finishFloat_natCast (n : ℕ) (h : n < 2 ^ 24) :
    finishFloat (n : ℚ) = (F32.fin n, false) := by
  simp [finishFloat, round32_natCast n h]

theorem strtofBody_digits (ds : Str) (h : IsDigits ds) (hv : digitsVal ds < 2 ^ 24) :
    strtofBody ds = (F32.fin (digitsVal ds), ds.length, false) := by
  obtain ⟨h0, hds⟩ := h
  have hlow := map_toLower_digits hds
  have e1 : ds.take 8 ≠ "infinity".toList := digits_take_ne hds 8 _ 'i' (by decide) (by decide)
  have e2 : ds.take 3 ≠ "inf".toList := digits_take_ne hds 3 _ 'i' (by decide) (by decide)
  have e3 : ds.take 3 ≠ "nan".toList := digits_take_ne hds 3 _ 'n' (by decide) (by decide)
  have e4 : ds.take 2 ≠ "0x".toList := digits_take_ne hds 2 _ 'x' (by decide) (by decide)
  have e5 : ds.takeWhile isdigit = ds := List.takeWhile_eq_self_iff.mpr hds
  have e6 : parseMantissa isdigit ds = (ds, [], ds.length) := by
    simp [parseMantissa, e5]
  have e7 : ds.length ≠ 0 := by simpa using h0
  unfold strtofBody
  simp only [hlow, e1, e2, e3, e4, e6, if_false, false_and, e7, List.drop_length,
    parseExponent, List.append_nil, List.length_nil]
  simp [finishFloat_natCast _ hv]

theorem stof_digits (ds : Str) (h : IsDigits ds) (hv : digitsVal ds < 2 ^ 24) :
    stof ds = Res.ok (F32.fin (digitsVal ds), ds.length) := by
  have hb := strtofBody_digits ds h hv
  obtain ⟨h0, hds⟩ := h
  obtain ⟨c, cs, rfl⟩ := List.exists_cons_of_ne_nil h0
  have hc := hds c (List.mem_cons_self _ _)
  have e1 : (c :: cs).takeWhile isspace = [] := by
    simp [List.takeWhile_cons, isdigit_not_isspace hc]
  unfold stof
  simp only [e1, List.length_nil, List.drop_zero, takeSign_digit hc, hb]
  simp

theorem isdigit_digitChar {k : ℕ} (h : k < 10) : isdigit (Nat.digitChar k) = true := by
  interval_cases k <;> decide

theorem digitVal_digitChar {k : ℕ} (h : k < 10) : digitVal (Nat.digitChar k) = k := by
  interval_cases k <;> decide

theorem toDigitsCore_append (fuel n : ℕ) (ds : Str) :
    Nat.toDigitsCore 10 fuel n ds = Nat.toDigitsCore 10 fuel n [] ++ ds := by
  induction fuel generalizing n ds with
  | zero => simp [Nat.toDigitsCore]
  | succ f ih =>
    simp only [Nat.toDigitsCore]
    split
    · simp
    · rw [ih (n / 10) (Nat.digitChar (n % 10) :: ds), ih (n / 10) [Nat.digitChar (n % 10)]]
      simp

theorem digitsVal_append_singleton (xs : Str) (d : Char) :
    digitsVal (xs ++ [d]) = 10 * digitsVal xs + digitVal d := by
  simp [digitsVal, List.foldl_append]

theorem toDigitsCore_spec (fuel n : ℕ) (h : n < fuel) :
    IsDigits (Nat.toDigitsCore 10 fuel n []) ∧ digitsVal (Nat.toDigitsCore 10 fuel n []) = n := by
  induction fuel generalizing n with
  | zero => omega
  | succ f ih =>
    have hd : n % 10 < 10 := Nat.mod_lt _ (by norm_num)
    simp only [Nat.toDigitsCore]
    split
    · rename_i h0
      refine ⟨⟨by simp, ?_⟩, ?_⟩
      · intro c hc
        simp only [List.mem_singleton] at hc
        subst hc
        exact isdigit_digitChar hd
      · simp only [digitsVal, List.foldl_cons, List.foldl_nil, digitVal_digitChar hd]
        omega
    · rename_i h0
      rw [toDigitsCore_append]
      obtain ⟨⟨_, h1⟩, h2⟩ := ih (n / 10) (by omega)
      refine ⟨⟨by simp, ?_⟩, ?_⟩
      · intro c hc
        simp only [List.mem_append, List.mem_singleton] at hc
        rcases hc with hc | hc
        · exact h1 c hc
        · subst hc
          exact isdigit_digitChar hd
      · rw [digitsVal_append_singleton, h2, digitVal_digitChar hd]
        omega

theorem decimal_isDigits (n : ℕ) : IsDigits (decimal n) :=
  (toDigitsCore_spec (n + 1) n (Nat.lt_succ_self n)).1

theorem digitsVal_decimal (n : ℕ) : digitsVal (decimal n) = n :=
  (toDigitsCore_spec (n + 1) n (Nat.lt_succ_self n)).2

/-! ## Parser and evaluator lemmas -/

theorem isdigit_not_isalpha {c : Char} (h : isdigit c = true) : isalpha c = false := by
  rcases isdigit_cases h with h | h | h | h | h | h | h | h | h | h <;> subst h <;> decide

theorem isNumberToken_digits {a : Str} (ha : IsDigits a) : isNumberToken a = true := by
  obtain ⟨h0, hds⟩ := ha
  obtain ⟨c, cs, rfl⟩ := List.exists_cons_of_ne_nil h0
  simp [isNumberToken, hds c (List.mem_cons_self _ _)]

theorem isOperandToken_digits (vars : Store) {a : Str} (ha : IsDigits a) :
    isOperandToken vars a = true := by
  have h := isNumberToken_digits ha
  obtain ⟨h0, hds⟩ := ha
  obtain ⟨c, cs, rfl⟩ := List.exists_cons_of_ne_nil h0
  simp [isOperandToken, h]

theorem isOperandToken_symbol (vars : Store) {c : Char} (h1 : isdigit c = false)
    (h2 : isalpha c = false) : isOperandToken vars [c] = false := by
  simp [isOperandToken, isNumberToken, h1, h2]

theorem find_eq_none_of_not_alpha {vars : Store} (hvars : vars.KeysAreIdentifiers) {c : Char}
    (cs : Str) (h : isalpha c = false) : vars.find (c :: cs) = none := by
  cases hf : vars.find (c :: cs) with
  | none => rfl
  | some v =>
    obtain ⟨d, rest, h1, h2⟩ := hvars (c :: cs) (by simp [Store.find] at hf; simp [hf])
    simp only [List.cons.injEq] at h1
    rw [← h1.1, h] at h2
    exact absurd h2 (by simp)

theorem find_digits {vars : Store} (hvars : vars.KeysAreIdentifiers) {a : Str} (ha : IsDigits a) :
    vars.find a = none := by
  obtain ⟨h0, hds⟩ := ha
  obtain ⟨c, cs, rfl⟩ := List.exists_cons_of_ne_nil h0
  exact find_eq_none_of_not_alpha hvars cs (isdigit_not_isalpha (hds c (List.mem_cons_self _ _)))

theorem evalToken_digits {vars : Store} (hvars : vars.KeysAreIdentifiers) (currentLine : Int)
    (values : List F32) {a : Str} (ha : IsDigits a) (hv : digitsVal a < 2 ^ 24) :
    evalToken currentLine vars values a = (Res.ok (F32.fin (digitsVal a) :: values), vars) := by
  simp [evalToken, ha.1, find_digits hvars ha, isNumberToken_digits ha, stof_digits a ha hv]

theorem evalToken_operator {vars : Store} (hvars : vars.KeysAreIdentifiers) (currentLine : Int)
    (a b : F32) (rest : List F32) :
    evalToken currentLine vars (b :: a :: rest) ['+'] = (Res.ok (F32.add a b :: rest), vars) ∧
    evalToken currentLine vars (b :: a :: rest) ['-'] = (Res.ok (F32.sub a b :: rest), vars) ∧
    evalToken currentLine vars (b :: a :: rest) ['*'] = (Res.ok (F32.mul a b :: rest), vars) ∧
    evalToken currentLine vars (b :: a :: rest) ['/'] =
      if b.isZero then
        (Res.throw ("Division by zero at line ".toList ++ to_string currentLine), vars)
      else (Res.ok (F32.div a b :: rest), vars) := by
  have h1 : vars.find ['+'] = none := find_eq_none_of_not_alpha hvars [] (by decide)
  have h2 : vars.find ['-'] = none := find_eq_none_of_not_alpha hvars [] (by decide)
  have h3 : vars.find ['*'] = none := find_eq_none_of_not_alpha hvars [] (by decide)
  have h4 : vars.find ['/'] = none := find_eq_none_of_not_alpha hvars [] (by decide)
  refine ⟨?_, ?_, ?_, ?_⟩ <;>
    simp [evalToken, h1, h2, h3, h4, isNumberToken, isOperator, isdigit]

theorem tokenize_sum_product (a b c : Str) (ha : IsDigits a) (hb : IsDigits b) (hc : IsDigits c) :
    tokenize (a ++ " + ".toList ++ b ++ " * ".toList ++ c) = [a, ['+'], b, ['*'], c] ∧
    tokenize ('(' :: a ++ " + ".toList ++ b ++ ") * ".toList ++ c) =
      [['('], a, ['+'], b, [')'], ['*'], c] := by
  obtain ⟨ha0, ha⟩ := ha
  obtain ⟨hb0, hb⟩ := hb
  obtain ⟨hc0, hc⟩ := hc
  constructor <;>
  simp [tokenize, List.foldl_append, foldl_tokenizeStep_digits a ha,
      foldl_tokenizeStep_digits b hb, foldl_tokenizeStep_digits c hc, tokenizeStep, minusContext,
      isspace, isdigit, ha0, hb0, hc0]

theorem infixToPostfix_sum_product (vars : Store) (a b c : Str) (ha : IsDigits a)
    (hb : IsDigits b) (hc : IsDigits c) :
    infixToPostfix vars [a, ['+'], b, ['*'], c] = [a, b, c, ['*'], ['+']] ∧
    infixToPostfix vars [['('], a, ['+'], b, [')'], ['*'], c] = [a, b, ['+'], c, ['*']] := by
  have h1 := isOperandToken_digits vars ha
  have h2 := isOperandToken_digits vars hb
  have h3 := isOperandToken_digits vars hc
  have o1 : isOperandToken vars ['+'] = false := isOperandToken_symbol vars (by decide) (by decide)
  have o2 : isOperandToken vars ['*'] = false := isOperandToken_symbol vars (by decide) (by decide)
  have o3 : isOperandToken vars ['('] = false := isOperandToken_symbol vars (by decide) (by decide)
  have o4 : isOperandToken vars [')'] = false := isOperandToken_symbol vars (by decide) (by decide)
  constructor <;>
  simp [infixToPostfix, infixStep, ha.1, hb.1, hc.1, h1, h2, h3, o1, o2, o3, o4, isOperator,
    popPrec, popToParen, getPrecedence]


theorem F32.add_natCast (a b : ℕ) (h : a + b < 2 ^ 24) :
    F32.add (F32.fin a) (F32.fin b) = F32.fin ((a + b : ℕ) : ℚ) := by
  simp only [F32.add]
  rw [← Nat.cast_add]
  exact round32_natCast _ h

theorem F32.mul_natCast (a b : ℕ) (h : a * b < 2 ^ 24) :
    F32.mul (F32.fin a) (F32.fin b) = F32.fin ((a * b : ℕ) : ℚ) := by
  simp only [F32.mul]
  rw [← Nat.cast_mul]
  exact round32_natCast _ h

theorem Store.empty_keysAreIdentifiers : Store.empty.KeysAreIdentifiers := by
  intro key h
  simp [Store.empty] at h

/-! ## Resolver lemmas -/

theorem findIdx?_head {p : Char → Bool} {c : Char} (cs : Str) (h : p c = true) :
    (c :: cs).findIdx? p = some 0 := by
  simp [List.findIdx?_cons, h]

/-- `trim` leaves a string alone when its first and last characters are not
among the four it strips. -/
theorem trim_eq_self {s : Str} {front back : Char} (hf : s.head? = some front)
    (hb : s.getLast? = some back) (h1 : " \t\r\n".toList.contains front = false)
    (h2 : " \t\r\n".toList.contains back = false) : trim s = s := by
  cases s with
  | nil => simp at hf
  | cons c cs =>
    simp only [List.head?_cons, Option.some.injEq] at hf
    subst hf
    have e1 : find_first_not_of (c :: cs) " \t\r\n".toList = some 0 := by
      unfold find_first_not_of
      exact findIdx?_head cs (by simpa using h1)
    have e2 : find_last_not_of (c :: cs) " \t\r\n".toList = some ((c :: cs).length - 1) := by
      unfold find_last_not_of
      rw [← List.head?_reverse] at hb
      cases hr : (c :: cs).reverse with
      | nil => simp at hr
      | cons l r =>
        rw [hr] at hb
        simp only [List.head?_cons, Option.some.injEq] at hb
        subst hb
        rw [findIdx?_head r (by simpa using h2)]
        simp
    unfold trim
    rw [e1, e2]
    simp [substr]

theorem stoi_digits (ds : Str) (h : IsDigits ds) (hv : digitsVal ds ≤ 2147483647) :
    stoi ds = Res.ok ((digitsVal ds : Int), ds.length) := by
  obtain ⟨h0, hds⟩ := h
  have e5 : ds.takeWhile isdigit = ds := List.takeWhile_eq_self_iff.mpr hds
  obtain ⟨c, cs, rfl⟩ := List.exists_cons_of_ne_nil h0
  have hc := hds c (List.mem_cons_self _ _)
  have e1 : (c :: cs).takeWhile isspace = [] := by
    simp [List.takeWhile_cons, isdigit_not_isspace hc]
  unfold stoi
  simp only [e1, List.length_nil, List.drop_zero, takeSign_digit hc, e5]
  simp only [reduceCtorEq, if_false, Bool.false_eq_true]
  rw [if_neg (by omega)]
  simp

theorem digit_not_trimmed {c : Char} (h : isdigit c = true) :
    " \t\r\n".toList.contains c = false := by
  rcases isdigit_cases h with h | h | h | h | h | h | h | h | h | h <;> subst h <;> decide

theorem digit_not_opchar {c : Char} (h : isdigit c = true) :
    "+-*/()".toList.contains c = false := by
  rcases isdigit_cases h with h | h | h | h | h | h | h | h | h | h <;> subst h <;> decide

theorem digit_not_quote {c : Char} (h : isdigit c = true) (back : Char) :
    isQuoted c back = false := by
  rcases isdigit_cases h with h | h | h | h | h | h | h | h | h | h <;> subst h <;>
    simp [isQuoted]

theorem digits_ne_of_mem {ds : Str} (hds : ∀ c ∈ ds, isdigit c = true) {w : Str} {x : Char}
    (hx : x ∈ w) (hxd : isdigit x = false) : ds ≠ w := by
  intro h
  subst h
  have := hds x hx
  simp [hxd] at this

theorem digits_getLast {ds : Str} (h : IsDigits ds) :
    ∃ back, ds.getLast? = some back ∧ isdigit back = true := by
  obtain ⟨h0, hds⟩ := h
  refine ⟨ds.getLast h0, List.getLast?_eq_getLast _ h0, hds _ (List.getLast_mem h0)⟩

theorem parseLiteral_digits (ds : Str) (h : IsDigits ds) (hv : digitsVal ds ≤ 2147483647) :
    parseLiteral ds = VarType.int (digitsVal ds) := by
  simp [parseLiteral, stoi_digits ds h hv]

theorem evaluate_expression_digits (vars : Store) (currentLine : Int) (ds : Str)
    (h : IsDigits ds) (hv : digitsVal ds ≤ 2147483647) (hfree : vars.find ds = none) :
    evaluate_expression vars currentLine ds = (Res.ok (VarType.int (digitsVal ds)), vars) := by
  have hp := parseLiteral_digits ds h hv
  obtain ⟨back, hb1, hb2⟩ := digits_getLast h
  obtain ⟨h0, hds⟩ := h
  obtain ⟨c, cs, rfl⟩ := List.exists_cons_of_ne_nil h0
  have hc := hds c (List.mem_cons_self _ _)
  have ht : trim (c :: cs) = c :: cs :=
    trim_eq_self (List.head?_cons) hb1 (digit_not_trimmed hc) (digit_not_trimmed hb2)
  have n1 : (c :: cs) ≠ "true".toList := digits_ne_of_mem hds (x := 't') (by decide) (by decide)
  have n2 : (c :: cs) ≠ "false".toList := digits_ne_of_mem hds (x := 'f') (by decide) (by decide)
  have n3 : find_first_of (c :: cs) "+-*/()".toList = none := by
    unfold find_first_of
    rw [List.findIdx?_eq_none_iff]
    intro x hx
    exact digit_not_opchar (hds x hx)
  unfold evaluate_expression
  simp only [ht, hb1, List.head?_cons, digit_not_quote hc, hfree, n1, n2, n3, hp]
  simp


theorem stof_minus_digits (ds : Str) (h : IsDigits ds) (hv : digitsVal ds < 2 ^ 24) :
    stof ('-' :: ds) = Res.ok (F32.fin (-(digitsVal ds : ℚ)), 1 + ds.length) := by
  have hb := strtofBody_digits ds h hv
  have e1 : ('-' :: ds).takeWhile isspace = [] := by
    rw [List.takeWhile_cons]
    have : isspace '-' = false := by decide
    simp [this]
  have e2 : takeSign ('-' :: ds) = (true, ds, 1) := rfl
  unfold stof
  simp only [e1, List.length_nil, List.drop_zero, e2, hb]
  have e3 : ds.length ≠ 0 := by simpa using h.1
  simp [e3, F32.neg]

theorem tokenize_minus_digits (ds : Str) (h : IsDigits ds) : tokenize ('-' :: ds) = ['-' :: ds] := by
  simp [tokenize, foldl_tokenizeStep_digits ds h.2, tokenizeStep, minusContext, isspace, isdigit]

theorem evaluate_expression_minus_digits (vars : Store) (currentLine : Int) (ds : Str)
    (h : IsDigits ds) (hv : digitsVal ds < 2 ^ 24) (hfree : vars.find ('-' :: ds) = none) :
    evaluate_expression vars currentLine ('-' :: ds) =
      (Res.ok (VarType.float (F32.fin (-(digitsVal ds : ℚ)))), vars) := by
  obtain ⟨back, hb1, hb2⟩ := digits_getLast h
  have hs := stof_minus_digits ds h hv
  have htok := tokenize_minus_digits ds h
  obtain ⟨h0, hds⟩ := h
  have hlen : 1 < ('-' :: ds).length := by
    have : ds.length ≠ 0 := by simpa using h0
    simp only [List.length_cons]
    omega
  have hb : ('-' :: ds).getLast? = some back := by
    obtain ⟨c, cs, rfl⟩ := List.exists_cons_of_ne_nil h0
    rw [List.getLast?_cons_cons]
    exact hb1
  have ht : trim ('-' :: ds) = '-' :: ds :=
    trim_eq_self (List.head?_cons) hb (by decide) (digit_not_trimmed hb2)
  have n1 : ('-' :: ds) ≠ "true".toList := by simp
  have n2 : ('-' :: ds) ≠ "false".toList := by simp
  have n3 : find_first_of ('-' :: ds) "+-*/()".toList = some 0 := by
    unfold find_first_of
    exact findIdx?_head ds (by decide)
  have hq : isQuoted '-' back = false := by simp [isQuoted]
  have hnum : isNumberToken ('-' :: ds) = true := by
    simp only [isNumberToken, hlen]
    simp
  have hop : isOperandToken vars ('-' :: ds) = true := by
    simp [isOperandToken, hnum]
  have hpost : infixToPostfix vars ['-' :: ds] = ['-' :: ds] := by
    simp [infixToPostfix, infixStep, hop]
  have hev : evalToken currentLine vars [] ('-' :: ds) =
      (Res.ok [F32.fin (-(digitsVal ds : ℚ))], vars) := by
    simp [evalToken, hfree, hnum, hs]
  have hmath : evaluate_math_expression vars currentLine ('-' :: ds) =
      (Res.ok (F32.fin (-(digitsVal ds : ℚ))), vars) := by
    simp only [evaluate_math_expression, htok, hpost, evaluatePostfix, evalLoop, hev]
  unfold evaluate_expression
  simp only [ht, hb, List.head?_cons, hq, hfree, n1, n2, n3, hmath]
  simp

/-! ## The arithmetic pipeline has no undefined behaviour -/

theorem stof_ne_undefined (s : Str) : stof s ≠ Res.undefined := by
  unfold stof
  simp only
  split_ifs <;> simp

theorem evalToken_ne_undefined (currentLine : Int) (vars : Store) (values : List F32)
    (token : Str) : (evalToken currentLine vars values token).1 ≠ Res.undefined := by
  unfold evalToken
  have hs := stof_ne_undefined token
  by_cases h1 : token = []
  · simp [h1]
  by_cases h2 : (vars.find token).isSome = true
  · rw [if_neg h1, if_pos h2]
    cases hx : (vars.index token).1.value <;> simp [hx]
  by_cases h3 : isNumberToken token = true
  · rw [if_neg h1, if_neg h2, if_pos h3]
    cases h : stof token with
    | ok a => simp
    | throw w => simp
    | undefined => exact absurd h hs
  by_cases h4 : isOperator token = true
  · rw [if_neg h1, if_neg h2, if_neg h3, if_pos h4]
    rcases values with _ | ⟨b, _ | ⟨a, rest⟩⟩
    · simp
    · simp
    · simp only
      split_ifs <;> simp
  · rw [if_neg h1, if_neg h2, if_neg h3, if_neg h4]
    simp

theorem evalLoop_ne_undefined (currentLine : Int) (vars : Store) (values : List F32)
    (tokens : List Str) : (evalLoop currentLine vars values tokens).1 ≠ Res.undefined := by
  induction tokens generalizing vars values with
  | nil => simp [evalLoop]
  | cons token rest ih =>
    have h := evalToken_ne_undefined currentLine vars values token
    unfold evalLoop
    split
    · exact ih _ _
    · rename_i r hr
      rcases hres : evalToken currentLine vars values token with ⟨res, vars1⟩
      rw [hres] at h
      cases res with
      | ok v => exact absurd hres (hr v vars1)
      | throw w => simp
      | undefined => simp at h

theorem evaluate_math_expression_ne_undefined (vars : Store) (currentLine : Int) (expr : Str) :
    (evaluate_math_expression vars currentLine expr).1 ≠ Res.undefined := by
  have h := evalLoop_ne_undefined currentLine vars [] (infixToPostfix vars (tokenize expr))
  unfold evaluate_math_expression evaluatePostfix
  split <;> simp_all

/-! ## Evaluation leaves the store unchanged -/

theorem Store.index_of_isSome {vars : Store} {key : Str} (h : (vars.find key).isSome = true) :
    (vars.index key).2 = vars := by
  unfold Store.index
  unfold Store.find at h
  cases hk : vars key with
  | none => simp [hk] at h
  | some v => rfl

theorem evalToken_store (currentLine : Int) (vars : Store) (values : List F32) (token : Str) :
    (evalToken currentLine vars values token).2 = vars := by
  unfold evalToken
  by_cases h1 : token = []
  · simp [h1]
  by_cases h2 : (vars.find token).isSome = true
  · rw [if_neg h1, if_pos h2]
    cases hx : (vars.index token).1.value <;> simp [hx, Store.index_of_isSome h2]
  by_cases h3 : isNumberToken token = true
  · rw [if_neg h1, if_neg h2, if_pos h3]
    cases h : stof token <;> simp
  by_cases h4 : isOperator token = true
  · rw [if_neg h1, if_neg h2, if_neg h3, if_pos h4]
    rcases values with _ | ⟨b, _ | ⟨a, rest⟩⟩
    · simp
    · simp
    · simp only
      split_ifs <;> simp
  · rw [if_neg h1, if_neg h2, if_neg h3, if_neg h4]

theorem evalLoop_store (currentLine : Int) (vars : Store) (values : List F32)
    (tokens : List Str) : (evalLoop currentLine vars values tokens).2 = vars := by
  induction tokens generalizing vars values with
  | nil => simp [evalLoop]
  | cons token rest ih =>
    have h := evalToken_store currentLine vars values token
    unfold evalLoop
    split
    · rename_i values1 vars1 heq
      rw [heq] at h
      simp only at h
      rw [ih, h]
    · exact h

theorem evaluatePostfix_store (vars : Store) (currentLine : Int) (tokens : List Str) :
    (evaluatePostfix vars currentLine tokens).2 = vars := by
  have h := evalLoop_store currentLine vars [] tokens
  unfold evaluatePostfix
  split <;> simp_all

theorem evaluate_math_expression_store (vars : Store) (currentLine : Int) (expr : Str) :
    (evaluate_math_expression vars currentLine expr).2 = vars :=
  evaluatePostfix_store vars currentLine _

theorem evaluate_expression_store (vars : Store) (currentLine : Int) (expr : Str) :
    (evaluate_expression vars currentLine expr).2 = vars := by
  have hm := evaluate_math_expression_store vars currentLine (trim expr)
  unfold evaluate_expression
  simp only
  split
  · split_ifs with h1 h2 h3 h4 h5
    · rfl
    · exact Store.index_of_isSome h2
    · rfl
    · rfl
    · split <;> simp_all
    · rfl
  · rfl

/-! ## Stack accounting of the evaluator -/

theorem isOperator_iff {token : Str} :
    isOperator token = true ↔ token = ['+'] ∨ token = ['-'] ∨ token = ['*'] ∨ token = ['/'] := by
  simp [isOperator]

theorem isOperator_not_number {token : Str} (h : isOperator token = true) :
    isNumberToken token = false := by
  rcases isOperator_iff.mp h with h | h | h | h <;> subst h <;> decide

theorem isOperator_not_operand (vars : Store) {token : Str} (h : isOperator token = true) :
    isOperandToken vars token = false := by
  rcases isOperator_iff.mp h with h | h | h | h <;> subst h <;>
    exact isOperandToken_symbol vars (by decide) (by decide)

theorem isOperandToken_of_find {vars : Store} (hvars : vars.KeysAreIdentifiers) {token : Str}
    (h : (vars.find token).isSome = true) : isOperandToken vars token = true := by
  obtain ⟨c, rest, rfl, hc⟩ := hvars token h
  simp [isOperandToken, hc, h]

theorem isOperandToken_of_number (vars : Store) {token : Str} (h : isNumberToken token = true) :
    isOperandToken vars token = true := by
  cases token with
  | nil => simp [isNumberToken] at h
  | cons c cs => simp [isOperandToken, h]

theorem isOperandToken_false {vars : Store} {token : Str}
    (h2 : ¬ (vars.find token).isSome = true) (h3 : ¬ isNumberToken token = true) :
    isOperandToken vars token = false := by
  cases token with
  | nil => rfl
  | cons c cs =>
    simp only [Bool.not_eq_true] at h2 h3
    simp [isOperandToken, h2, h3]

theorem evalToken_length {vars : Store} (hvars : vars.KeysAreIdentifiers) (currentLine : Int)
    (values values1 : List F32) (token : Str) (vars1 : Store)
    (h : evalToken currentLine vars values token = (Res.ok values1, vars1)) :
    values1.length + (if isOperator token = true then 1 else 0) =
      values.length + (if isOperandToken vars token = true then 1 else 0) := by
  unfold evalToken at h
  by_cases h1 : token = []
  · rw [if_pos h1] at h
    simp only [Prod.mk.injEq, Res.ok.injEq] at h
    subst h1
    simp [← h.1, isOperator, isOperandToken]
  by_cases h2 : (vars.find token).isSome = true
  · rw [if_neg h1, if_pos h2] at h
    have hop := isOperandToken_of_find hvars h2
    have hnot : isOperator token = false := by
      cases ho : isOperator token with
      | false => rfl
      | true => rw [isOperator_not_operand vars ho] at hop; exact absurd hop (by simp)
    cases hx : (vars.index token).1.value <;> simp [hx] at h <;>
      simp [← h.1, hop, hnot]
  by_cases h3 : isNumberToken token = true
  · rw [if_neg h1, if_neg h2, if_pos h3] at h
    have hop := isOperandToken_of_number vars h3
    have hnot : isOperator token = false := by
      cases ho : isOperator token with
      | false => rfl
      | true => rw [isOperator_not_number ho] at h3; exact absurd h3 (by simp)
    cases hs : stof token with
    | ok a =>
      rw [hs] at h
      simp only [Prod.mk.injEq, Res.ok.injEq] at h
      simp [← h.1, hop, hnot]
    | throw w => rw [hs] at h; simp at h
    | undefined => rw [hs] at h; simp at h
  have hop := isOperandToken_false h2 h3
  by_cases h4 : isOperator token = true
  · rw [if_neg h1, if_neg h2, if_neg h3, if_pos h4] at h
    rcases values with _ | ⟨b, _ | ⟨a, rest⟩⟩
    · simp at h
    · simp at h
    · simp only at h
      split_ifs at h <;> simp only [Prod.mk.injEq, Res.ok.injEq, reduceCtorEq, false_and] at h <;>
        simp [← h.1, hop, h4]
  · rw [if_neg h1, if_neg h2, if_neg h3, if_neg h4] at h
    simp only [Prod.mk.injEq, Res.ok.injEq] at h
    simp [← h.1, hop, h4]

theorem evalLoop_length {vars : Store} (hvars : vars.KeysAreIdentifiers) (currentLine : Int)
    (values values1 : List F32) (tokens : List Str) (vars1 : Store)
    (h : evalLoop currentLine vars values tokens = (Res.ok values1, vars1)) :
    values1.length + tokens.countP isOperator =
      values.length + tokens.countP (isOperandToken vars) := by
  induction tokens generalizing values with
  | nil =>
    simp only [evalLoop, Prod.mk.injEq, Res.ok.injEq] at h
    simp [h.1]
  | cons token rest ih =>
    unfold evalLoop at h
    rcases ht : evalToken currentLine vars values token with ⟨res, vars2⟩
    have hst := evalToken_store currentLine vars values token
    rw [ht] at hst h
    simp only at hst
    subst hst
    cases res with
    | ok values2 =>
      simp only at h
      have h1 := evalToken_length hvars currentLine values values2 token _ ht
      have h2 := ih values2 h
      rw [List.countP_cons, List.countP_cons]
      omega
    | throw w => simp at h
    | undefined => simp at h

/-! ## Token counts through the parser -/

theorem popToParen_countP (p : Str → Bool) (output ops : List Str) :
    ((popToParen output ops).1 ++ (popToParen output ops).2).countP p =
      (output ++ ops).countP p ∧
    ((popToParen output ops).2 = [] ∨ ∃ r, (popToParen output ops).2 = ['('] :: r) := by
  induction ops generalizing output with
  | nil => simp [popToParen]
  | cons top rest ih =>
    unfold popToParen
    split_ifs with h
    · obtain ⟨h1, h2⟩ := ih (output ++ [top])
      refine ⟨?_, h2⟩
      rw [h1]
      simp
    · simp only [ne_eq, Decidable.not_not] at h
      exact ⟨rfl, Or.inr ⟨rest, by rw [h]⟩⟩

theorem popPrec_countP (p : Str → Bool) (token : Str) (output ops : List Str) :
    ((popPrec token output ops).1 ++ (popPrec token output ops).2).countP p =
      (output ++ ops).countP p := by
  induction ops generalizing output with
  | nil => simp [popPrec]
  | cons top rest ih =>
    unfold popPrec
    split_ifs with h
    · rw [ih (output ++ [top])]
      simp
    · rfl

theorem infixStep_countP (vars : Store) (p : Str → Bool) (hp : p ['('] = false)
    (st : List Str × List Str) (token : Str) :
    ((infixStep vars st token).1 ++ (infixStep vars st token).2).countP p =
      (st.1 ++ st.2).countP p +
        (if ((isOperandToken vars token || isOperator token) && p token) = true then 1 else 0) := by
  unfold infixStep
  by_cases h1 : token = []
  · subst h1
    simp [isOperandToken, isOperator]
  by_cases h2 : isOperandToken vars token = true
  · rw [if_neg h1, if_pos h2]
    simp only [h2, Bool.true_or, Bool.true_and, List.countP_append, List.countP_cons,
      List.countP_nil]
    omega
  have h2' : isOperandToken vars token = false := by simpa using h2
  by_cases h3 : token = ['(']
  · rw [if_neg h1, if_neg h2, if_pos h3]
    subst h3
    simp [List.countP_cons, hp, isOperator, h2']
  by_cases h4 : token = [')']
  · rw [if_neg h1, if_neg h2, if_neg h3, if_pos h4]
    subst h4
    obtain ⟨e1, e2⟩ := popToParen_countP p st.1 st.2
    have e3 : isOperator [')'] = false := by decide
    simp only [h2', e3, Bool.or_self, Bool.false_and, Bool.false_eq_true, if_false, add_zero]
    rw [← e1]
    rcases e2 with e2 | ⟨r, e2⟩
    · rw [e2]; simp
    · rw [e2]; simp [List.countP_cons, hp]
  by_cases h5 : isOperator token = true
  · rw [if_neg h1, if_neg h2, if_neg h3, if_neg h4, if_pos h5]
    have e1 := popPrec_countP p token st.1 st.2
    simp only [h2', h5, Bool.false_or, Bool.true_and]
    rw [← e1]
    simp only [List.countP_append, List.countP_cons]
    omega
  · rw [if_neg h1, if_neg h2, if_neg h3, if_neg h4, if_neg h5]
    have h5' : isOperator token = false := by simpa using h5
    simp [h2', h5']

theorem foldl_infixStep_countP (vars : Store) (p : Str → Bool) (hp : p ['('] = false)
    (tokens : List Str) (st : List Str × List Str) :
    ((tokens.foldl (infixStep vars) st).1 ++ (tokens.foldl (infixStep vars) st).2).countP p =
      (st.1 ++ st.2).countP p +
        tokens.countP (fun t => (isOperandToken vars t || isOperator t) && p t) := by
  induction tokens generalizing st with
  | nil => simp
  | cons token rest ih =>
    rw [List.foldl_cons, ih, infixStep_countP vars p hp, List.countP_cons]
    omega

theorem infixToPostfix_countP_operand (vars : Store) (tokens : List Str) :
    (infixToPostfix vars tokens).countP (isOperandToken vars) =
      tokens.countP (isOperandToken vars) := by
  unfold infixToPostfix
  simp only
  rw [foldl_infixStep_countP vars _ (isOperandToken_symbol vars (by decide) (by decide))]
  simp only [List.append_nil, List.countP_nil, zero_add]
  congr 1
  funext t
  cases isOperandToken vars t <;> simp

theorem infixToPostfix_countP_operator (vars : Store) (tokens : List Str) :
    (infixToPostfix vars tokens).countP isOperator = tokens.countP isOperator := by
  unfold infixToPostfix
  simp only
  rw [foldl_infixStep_countP vars _ (by decide)]
  simp only [List.append_nil, List.countP_nil, zero_add]
  congr 1
  funext t
  cases isOperator t <;> simp

/-! ## The fallback to Text -/

theorem find_first_of_isSome {s set : Str} (h : ∃ c ∈ s, c ∈ set) :
    (find_first_of s set).isSome = true := by
  obtain ⟨c, hc, hs⟩ := h
  unfold find_first_of
  rw [List.findIdx?_isSome, List.any_eq_true]
  exact ⟨c, hc, by simpa using hs⟩

theorem evaluate_expression_of_math_fails (vars : Store) (currentLine : Int) (expr : Str)
    (hq : startsAndEndsQuoted (trim expr) = false)
    (hfree : vars.find (trim expr) = none)
    (ht : trim expr ≠ "true".toList) (hfl : trim expr ≠ "false".toList)
    (hop : ∃ c ∈ trim expr, c ∈ "+-*/()".toList)
    (hfail : (evaluate_math_expression vars currentLine (trim expr)).1.isOk = false) :
    (evaluate_expression vars currentLine expr).1 = Res.ok (VarType.string (trim expr)) := by
  have hsome := find_first_of_isSome hop
  have hne : trim expr ≠ [] := by
    obtain ⟨c, hc, _⟩ := hop
    exact List.ne_nil_of_mem hc
  obtain ⟨front, rest, hcons⟩ := List.exists_cons_of_ne_nil hne
  have hhead : (trim expr).head? = some front := by rw [hcons]; rfl
  have hlast : (trim expr).getLast? = some ((trim expr).getLast hne) :=
    List.getLast?_eq_getLast _ hne
  have hq' : isQuoted front ((trim expr).getLast hne) = false := by
    simpa [startsAndEndsQuoted, hhead, hlast] using hq
  have hund := evaluate_math_expression_ne_undefined vars currentLine (trim expr)
  unfold evaluate_expression
  simp only [hhead, hlast, hq', hfree, ht, hfl, hsome, Option.isSome_none, if_false, if_true,
    Bool.false_eq_true]
  rcases hm : evaluate_math_expression vars currentLine (trim expr) with ⟨res, vars1⟩
  rw [hm] at hfail hund
  cases res with
  | ok v => simp [Res.isOk] at hfail
  | throw w => rfl
  | undefined => exact absurd rfl hund

/-! ## Unbound identifiers -/

theorem countP_lt_of_imp {l : List Str} {p q : Str → Bool} (h : ∀ t, p t = true → q t = true)
    {u : Str} (hu : u ∈ l) (hq : q u = true) (hp : p u = false) : l.countP p < l.countP q := by
  induction l with
  | nil => simp at hu
  | cons a rest ih =>
    have hle : rest.countP p ≤ rest.countP q := List.countP_mono_left (fun t _ => h t)
    rw [List.countP_cons, List.countP_cons]
    rcases List.mem_cons.mp hu with rfl | hmem
    · simp only [hq, hp, if_true, Bool.false_eq_true, if_false]
      omega
    · have hlt := ih hmem
      have ha := h a
      cases hpa : p a <;> cases hqa : q a <;> simp_all
      all_goals omega

theorem isOperandShaped_of_operand {vars : Store} {token : Str}
    (h : isOperandToken vars token = true) : isOperandShaped token = true := by
  cases token with
  | nil => simp [isOperandToken] at h
  | cons c cs =>
    simp only [isOperandToken, Bool.decide_or, Bool.decide_and, Bool.decide_eq_true,
      Bool.or_eq_true, Bool.and_eq_true] at h
    rcases h with h | h
    · simp [isOperandShaped, h]
    · simp [isOperandShaped, isIdentifierToken, h.1]

theorem isalpha_not_number {c : Char} (cs : Str) (h : isalpha c = true) :
    isNumberToken (c :: cs) = false := by
  have h1 : isdigit c = false := by
    cases hd : isdigit c with
    | false => rfl
    | true => rw [isdigit_not_isalpha hd] at h; exact absurd h (by simp)
  have h2 : c ≠ '-' := by
    intro hc
    subst hc
    exact absurd h (by decide)
  simp [isNumberToken, h1, h2]

theorem unbound_identifier_not_operand {vars : Store} {token : Str}
    (h : isIdentifierToken token = true) (hfree : vars.find token = none) :
    isOperandToken vars token = false := by
  cases token with
  | nil => rfl
  | cons c cs =>
    simp only [isIdentifierToken] at h
    simp [isOperandToken, isalpha_not_number cs h, hfree]

theorem evaluate_math_expression_short_of_operands {vars : Store}
    (hvars : vars.KeysAreIdentifiers) (currentLine : Int) (expr : Str)
    (hid : ∃ token ∈ tokenize expr, isIdentifierToken token = true ∧ vars.find token = none)
    (hshape : (tokenize expr).countP isOperandShaped ≤ (tokenize expr).countP isOperator + 1) :
    (evaluate_math_expression vars currentLine expr).1.isOk = false := by
  obtain ⟨u, hu, hu1, hu2⟩ := hid
  have hlt : (tokenize expr).countP (isOperandToken vars) <
      (tokenize expr).countP isOperandShaped :=
    countP_lt_of_imp (fun t ht => isOperandShaped_of_operand ht) hu
      (by simp [isOperandShaped, hu1]) (unbound_identifier_not_operand hu1 hu2)
  have c1 := infixToPostfix_countP_operand vars (tokenize expr)
  have c2 := infixToPostfix_countP_operator vars (tokenize expr)
  unfold evaluate_math_expression evaluatePostfix
  rcases hl : evalLoop currentLine vars [] (infixToPostfix vars (tokenize expr)) with ⟨res, vars1⟩
  cases res with
  | ok values =>
    have hlen := evalLoop_length hvars currentLine [] values _ vars1 hl
    rcases values with _ | ⟨v, _ | ⟨w, rest⟩⟩
    · rfl
    · exfalso
      simp only [List.length_cons, List.length_nil] at hlen
      omega
    · rfl
  | throw w => rfl
  | undefined => rfl

/-! ## Division by zero -/

theorem evalLoop_append (currentLine : Int) (vars : Store) (values : List F32)
    (pre post : List Str) :
    evalLoop currentLine vars values (pre ++ post) =
      match evalLoop currentLine vars values pre with
      | (Res.ok values1, vars1) => evalLoop currentLine vars1 values1 post
      | r => r := by
  induction pre generalizing vars values with
  | nil => simp [evalLoop]
  | cons token rest ih =>
    simp only [List.cons_append, evalLoop]
    rcases ht : evalToken currentLine vars values token with ⟨res, vars2⟩
    cases res with
    | ok values2 => exact ih _ _
    | throw w => rfl
    | undefined => rfl

theorem IsNumberLiteral.chars {s : Str} (h : IsNumberLiteral s) :
    ∀ c ∈ s, isdigit c = true ∨ c = '.' := by
  cases s with
  | nil => simp
  | cons c rest =>
    intro d hd
    rcases List.mem_cons.mp hd with rfl | hd
    · exact Or.inl h.1
    · exact h.2 d hd

theorem tokenizeStep_numchar (st : TokState) {c : Char} (h : isdigit c = true ∨ c = '.') :
    tokenizeStep st c = ⟨st.tokens, st.current ++ [c]⟩ := by
  rcases h with h | h
  · exact tokenizeStep_digit st h
  · subst h
    simp [tokenizeStep, isspace]

theorem foldl_tokenizeStep_numchars (ds : Str) (hds : ∀ c ∈ ds, isdigit c = true ∨ c = '.')
    (st : TokState) : ds.foldl tokenizeStep st = ⟨st.tokens, st.current ++ ds⟩ := by
  induction ds generalizing st with
  | nil => simp
  | cons c cs ih =>
    rw [List.foldl_cons, tokenizeStep_numchar st (hds c (List.mem_cons_self _ _)),
      ih (fun d hd => hds d (List.mem_cons_of_mem _ hd))]
    simp

theorem numberLiteral_ne_singleton {a : Str} (ha : IsNumberLiteral a) {c : Char}
    (hc : isdigit c = false) : a ≠ [c] := by
  intro h
  subst h
  have := ha.1
  rw [hc] at this
  exact absurd this (by simp)

theorem tokenize_quotient_zero (a : Str) (ha : IsNumberLiteral a) :
    tokenize (a ++ " / 0".toList) = [a, ['/'], ['0']] := by
  have h1 : a ≠ ['('] := numberLiteral_ne_singleton ha (by decide)
  have h2 : a ≠ ['+'] := numberLiteral_ne_singleton ha (by decide)
  have h3 : a ≠ ['-'] := numberLiteral_ne_singleton ha (by decide)
  have h4 : a ≠ ['*'] := numberLiteral_ne_singleton ha (by decide)
  have h5 : a ≠ ['/'] := numberLiteral_ne_singleton ha (by decide)
  have h0 : a ≠ [] := by
    intro h
    subst h
    exact ha
  simp [tokenize, List.foldl_append, foldl_tokenizeStep_numchars a ha.chars, tokenizeStep,
    minusContext, isspace, isdigit, h0, h1, h2, h3, h4, h5]

theorem evaluatePostfix_reaches_zero_divisor {vars : Store} (hvars : vars.KeysAreIdentifiers)
    (currentLine : Int) (pre post : List Str) (b a : F32) (rest : List F32) (vars1 : Store)
    (hreach : evalLoop currentLine vars [] pre = (Res.ok (b :: a :: rest), vars1))
    (hb : b.isZero = true) :
    evaluatePostfix vars currentLine (pre ++ ['/'] :: post) =
      (Res.throw ("Division by zero at line ".toList ++ to_string currentLine), vars) := by
  have hst := evalLoop_store currentLine vars [] pre
  rw [hreach] at hst
  simp only at hst
  subst hst
  have hdiv := (evalToken_operator hvars currentLine a b rest).2.2.2
  rw [if_pos hb] at hdiv
  unfold evaluatePostfix
  rw [evalLoop_append, hreach]
  simp only [evalLoop, hdiv]

theorem isNumberToken_numberLiteral {a : Str} (ha : IsNumberLiteral a) :
    isNumberToken a = true := by
  cases a with
  | nil => exact absurd ha (by simp [IsNumberLiteral])
  | cons c rest => simp [isNumberToken, ha.1]

theorem find_numberLiteral {vars : Store} (hvars : vars.KeysAreIdentifiers) {a : Str}
    (ha : IsNumberLiteral a) : vars.find a = none := by
  cases a with
  | nil => exact absurd ha (by simp [IsNumberLiteral])
  | cons c rest => exact find_eq_none_of_not_alpha hvars rest (isdigit_not_isalpha ha.1)

theorem infixToPostfix_binary (vars : Store) (x y op : Str)
    (hx : isOperandToken vars x = true) (hy : isOperandToken vars y = true)
    (hop : isOperator op = true) : infixToPostfix vars [x, op, y] = [x, y, op] := by
  have h1 : x ≠ [] := by intro h; subst h; simp [isOperandToken] at hx
  have h2 : y ≠ [] := by intro h; subst h; simp [isOperandToken] at hy
  have h3 := isOperator_not_operand vars hop
  have h4 : op ≠ [] := by intro h; subst h; simp [isOperator] at hop
  have h5 : op ≠ ['('] := by intro h; subst h; simp [isOperator] at hop
  have h6 : op ≠ [')'] := by intro h; subst h; simp [isOperator] at hop
  simp [infixToPostfix, infixStep, hx, hy, hop, h1, h2, h3, h4, h5, h6, popPrec]

theorem evaluate_math_expression_quotient_zero {vars : Store} (hvars : vars.KeysAreIdentifiers)
    (currentLine : Int) (a : Str) (v : F32) (n : ℕ) (ha : IsNumberLiteral a)
    (hs : stof a = Res.ok (v, n)) :
    evaluate_math_expression vars currentLine (a ++ " / 0".toList) =
      (Res.throw ("Division by zero at line ".toList ++ to_string currentLine), vars) := by
  have hz : IsDigits ['0'] := by decide
  have hpost : infixToPostfix vars [a, ['/'], ['0']] = [a, ['0'], ['/']] :=
    infixToPostfix_binary vars a ['0'] ['/'] (isOperandToken_of_number vars
      (isNumberToken_numberLiteral ha)) (isOperandToken_digits vars hz) (by decide)
  have h0 : a ≠ [] := by intro h; subst h; exact ha
  have ea : evalToken currentLine vars [] a = (Res.ok [v], vars) := by
    simp [evalToken, h0, find_numberLiteral hvars ha, isNumberToken_numberLiteral ha, hs]
  have ez := evalToken_digits hvars currentLine [v] hz (by decide)
  have hpre : evalLoop currentLine vars [] [a, ['0']] =
      (Res.ok [F32.fin (digitsVal ['0']), v], vars) := by
    simp only [evalLoop, ea, ez]
  have := evaluatePostfix_reaches_zero_divisor hvars currentLine [a, ['0']] [] _ v [] vars hpre
    (by decide!)
  unfold evaluate_math_expression
  rw [tokenize_quotient_zero a ha, hpost]
  exact this

/-! ## Declarations -/

theorem coerceValue_store (vars : Store) (currentLine : Int) (varType valueStr : Str) :
    (coerceValue vars currentLine varType valueStr).2 = vars := by
  have h := evaluate_expression_store vars currentLine valueStr
  unfold coerceValue
  rcases he : evaluate_expression vars currentLine valueStr with ⟨res, vars1⟩
  rw [he] at h
  simp only at h
  subst h
  split_ifs
  · rcases res with v | w | _
    · cases v with
      | float f => cases hf : floatToInt f <;> simp [hf]
      | _ => simp
    · simp
    · simp
  · rcases res with v | w | _
    · cases v <;> simp
    · simp
    · simp
  · rfl
  · rcases res with v | w | _
    · cases v <;> simp
    · simp
    · simp
  · rfl

theorem truncQ_toward_zero (q : ℚ) : |(truncQ q : ℚ)| ≤ |q| ∧ |q - truncQ q| < 1 := by
  unfold truncQ
  split_ifs with h
  · have h1 : ((⌊q⌋ : ℤ) : ℚ) ≤ q := Int.floor_le q
    have h2 : q < ⌊q⌋ + 1 := Int.lt_floor_add_one q
    have h3 : (0 : ℚ) ≤ ⌊q⌋ := by exact_mod_cast Int.floor_nonneg.mpr h
    rw [abs_of_nonneg h3, abs_of_nonneg h, abs_of_nonneg (by linarith)]
    constructor <;> linarith
  · push_neg at h
    have h1 : ((⌊-q⌋ : ℤ) : ℚ) ≤ -q := Int.floor_le (-q)
    have h2 : -q < ⌊-q⌋ + 1 := Int.lt_floor_add_one (-q)
    have h3 : (0 : ℚ) ≤ ⌊-q⌋ := by exact_mod_cast Int.floor_nonneg.mpr (by linarith)
    push_cast
    rw [abs_neg, abs_of_nonneg h3, abs_of_neg h, abs_of_nonpos (by linarith)]
    constructor <;> linarith

theorem coerceValue_int_of_float (vars : Store) (currentLine : Int) (valueStr : Str) (q : ℚ)
    (hres : (evaluate_expression vars currentLine valueStr).1 = Res.ok (VarType.float (F32.fin q)))
    (hrange : -2147483648 ≤ truncQ q ∧ truncQ q ≤ 2147483647) :
    coerceValue vars currentLine "int".toList valueStr = (Res.ok (VarType.int (truncQ q)), vars) := by
  have h := evaluate_expression_store vars currentLine valueStr
  rcases he : evaluate_expression vars currentLine valueStr with ⟨res, vars1⟩
  rw [he] at h hres
  simp only at h hres
  rw [h] at he
  subst hres
  unfold coerceValue
  rw [if_pos rfl, he]
  simp [floatToInt, hrange]

theorem parseDeclaration_identifier {currentLine : Int} {line varType identifier valueStr : Str}
    (h : parseDeclaration currentLine line = Res.ok (varType, identifier, valueStr)) :
    ∃ c rest, identifier = c :: rest ∧ isalpha c = true := by
  unfold parseDeclaration at h
  split at h
  · simp at h
  · simp only at h
    split at h
    · simp at h
    · split at h
      · simp at h
      · split at h
        · simp at h
        · rename_i c rest hid
          split_ifs at h with hc
          simp only [Res.ok.injEq, Prod.mk.injEq] at h
          rw [← h.2.1, hid]
          exact ⟨c, rest, rfl, hc⟩

theorem handle_variable_assignment_keysAreIdentifiers {vars : Store}
    (hvars : vars.KeysAreIdentifiers) (currentLine : Int) (line : Str) :
    (handle_variable_assignment vars currentLine line).2.KeysAreIdentifiers := by
  unfold handle_variable_assignment
  cases hp : parseDeclaration currentLine line with
  | ok parts =>
    obtain ⟨varType, identifier, valueStr⟩ := parts
    simp only
    have hs := coerceValue_store vars currentLine varType valueStr
    rcases hc : coerceValue vars currentLine varType valueStr with ⟨res, vars2⟩
    rw [hc] at hs
    simp only at hs
    rw [hs]
    cases res with
    | ok value =>
      simp only
      intro key hkey
      by_cases hk : key = identifier
      · rw [hk]
        exact parseDeclaration_identifier hp
      · apply hvars key
        simpa [Store.assign, hk] using hkey
    | throw w => exact hvars
    | undefined => exact hvars
  | throw w => exact hvars
  | undefined => exact hvars

/-! ## Store invariant -/

theorem coerceValue_consistent (vars : Store) (currentLine : Int) (varType valueStr : Str)
    (value : VarType) (h : (coerceValue vars currentLine varType valueStr).1 = Res.ok value) :
    Variable.Consistent ⟨value, varType⟩ := by
  unfold coerceValue at h
  rcases he : evaluate_expression vars currentLine valueStr with ⟨res, vars1⟩
  rw [he] at h
  split_ifs at h with h1 h2 h3 h4
  · rcases res with v | w | _
    · cases v with
      | float f =>
        cases hf : floatToInt f <;> simp [hf] at h
        subst h
        simp [Variable.Consistent, h1]
      | int i => simp at h; subst h; simp [Variable.Consistent, h1]
      | _ => simp at h
    · simp at h
    · simp at h
  · rcases res with v | w | _
    · cases v with
      | float f => simp at h; subst h; simp [Variable.Consistent, h2]
      | int i => simp at h; subst h; simp [Variable.Consistent, h2]
      | _ => simp at h
    · simp at h
    · simp at h
  · simp at h; subst h; simp [Variable.Consistent, h3]
  · rcases res with v | w | _
    · cases v with
      | bool b => simp at h; subst h; simpa [Variable.Consistent] using h4
      | _ => simp at h
    · simp at h
    · simp at h

theorem handle_variable_assignment_consistent {vars : Store}
    (hvars : ∀ key var, vars.find key = some var → var.Consistent) (currentLine : Int)
    (line : Str) :
    ∀ key var, (handle_variable_assignment vars currentLine line).2.find key = some var →
      var.Consistent := by
  unfold handle_variable_assignment
  cases hp : parseDeclaration currentLine line with
  | ok parts =>
    obtain ⟨varType, identifier, valueStr⟩ := parts
    simp only
    have hs := coerceValue_store vars currentLine varType valueStr
    rcases hc : coerceValue vars currentLine varType valueStr with ⟨res, vars2⟩
    rw [hc] at hs
    simp only at hs
    rw [hs]
    cases res with
    | ok value =>
      simp only
      intro key var hkey
      by_cases hk : key = identifier
      · simp only [Store.find, Store.assign, hk, if_true, Option.some.injEq] at hkey
        rw [← hkey]
        exact coerceValue_consistent vars currentLine varType valueStr value (by rw [hc])
      · apply hvars key
        simpa [Store.find, Store.assign, hk] using hkey
    | throw w => exact hvars
    | undefined => exact hvars
  | throw w => exact hvars
  | undefined => exact hvars

/-! ## Tokenizer invariant -/

theorem isTokenChar_not_space {c : Char} (h : isTokenChar c = true) : isspace c = false := by
  simp only [isTokenChar, Bool.and_eq_true, Bool.not_eq_true'] at h
  exact h.1.1.1.1.1

theorem isToken_of_current {current : Str} (h0 : current ≠ [])
    (h : ∀ c ∈ current, isTokenChar c = true) : IsToken current :=
  ⟨h0, fun c hc => isTokenChar_not_space (h c hc), Or.inr h⟩

theorem tokenizeStep_inv (st : TokState) (processed : Str) (c : Char) (h : TokInv st processed) :
    TokInv (tokenizeStep st c) (processed ++ [c]) := by
  obtain ⟨h1, h2, h3⟩ := h
  unfold tokenizeStep
  by_cases hs : isspace c = true
  · rw [if_pos hs]
    by_cases h0 : st.current = []
    · rw [if_neg (by simpa using h0)]
      refine ⟨h1, h2, ?_⟩
      rw [h3]
      simp [List.filter_append, hs]
    · rw [if_pos h0]
      refine ⟨?_, by simp, ?_⟩
      · intro t ht
        rcases List.mem_append.mp ht with ht | ht
        · exact h1 t ht
        · rw [List.mem_singleton.mp ht]
          exact isToken_of_current h0 h2
      · simp only [List.flatten_append, List.flatten_cons, List.flatten_nil, List.append_nil]
        rw [h3]
        simp [List.filter_append, hs]
  have hs' : isspace c = false := by simpa using hs
  have hfilter : (processed ++ [c]).filter (fun c => !isspace c) =
      processed.filter (fun c => !isspace c) ++ [c] := by
    simp [List.filter_append, hs']
  rw [if_neg hs]
  have happend : ∀ (hc : isTokenChar c = true),
      TokInv ⟨st.tokens, st.current ++ [c]⟩ (processed ++ [c]) := by
    intro hc
    refine ⟨h1, ?_, ?_⟩
    · intro d hd
      rcases List.mem_append.mp hd with hd | hd
      · exact h2 d hd
      · rw [List.mem_singleton.mp hd]; exact hc
    · simp only
      rw [hfilter, ← h3, List.append_assoc]
  by_cases hd : isdigit c = true ∨ c = '.'
  · rw [if_pos hd]
    apply happend
    rcases hd with hd | hd
    · rcases isdigit_cases hd with h | h | h | h | h | h | h | h | h | h <;> subst h <;> decide
    · subst hd; decide
  rw [if_neg hd]
  by_cases hop : c = '+' ∨ c = '-' ∨ c = '*' ∨ c = '/' ∨ c = '(' ∨ c = ')'
  · rw [if_pos hop]
    by_cases hm : c = '-' ∧ minusContext st.tokens = true
    · rw [if_pos hm]
      apply happend
      rw [hm.1]; decide
    · rw [if_neg hm]
      have hsingle : IsToken [c] := ⟨by simp, by simpa using hs', Or.inl rfl⟩
      by_cases h0 : st.current = []
      · simp only [h0, ne_eq, not_true_eq_false, if_false]
        refine ⟨?_, by simp, ?_⟩
        · intro t ht
          rcases List.mem_append.mp ht with ht | ht
          · exact h1 t ht
          · rw [List.mem_singleton.mp ht]; exact hsingle
        · rw [hfilter, ← h3, h0]
          simp
      · simp only [ne_eq, h0, not_false_eq_true, if_true]
        refine ⟨?_, by simp, ?_⟩
        · intro t ht
          rcases List.mem_append.mp ht with ht | ht
          · rcases List.mem_append.mp ht with ht | ht
            · exact h1 t ht
            · rw [List.mem_singleton.mp ht]
              exact isToken_of_current h0 h2
          · rw [List.mem_singleton.mp ht]; exact hsingle
        · rw [hfilter, ← h3]
          simp
  · rw [if_neg hop]
    apply happend
    push_neg at hop
    simp [isTokenChar, hs', hop.1, hop.2.2.1, hop.2.2.2.1, hop.2.2.2.2.1, hop.2.2.2.2.2]

theorem foldl_tokenizeStep_inv (s : Str) (st : TokState) (processed : Str)
    (h : TokInv st processed) : TokInv (s.foldl tokenizeStep st) (processed ++ s) := by
  induction s generalizing st processed with
  | nil => simpa using h
  | cons c cs ih =>
    have := ih (tokenizeStep st c) (processed ++ [c]) (tokenizeStep_inv st processed c h)
    simpa using this

theorem tokenize_spec (s : Str) :
    (∀ t ∈ tokenize s, IsToken t) ∧ (tokenize s).flatten = s.filter (fun c => !isspace c) := by
  have h := foldl_tokenizeStep_inv s ⟨[], []⟩ [] ⟨by simp, by simp, by simp⟩
  obtain ⟨h1, h2, h3⟩ := h
  simp only [List.nil_append] at h3
  unfold tokenize
  simp only
  by_cases h0 : (s.foldl tokenizeStep ⟨[], []⟩).current = []
  · rw [if_neg (by simpa using h0)]
    refine ⟨h1, ?_⟩
    rw [← h3, h0, List.append_nil]
  · rw [if_pos h0]
    refine ⟨?_, ?_⟩
    · intro t ht
      rcases List.mem_append.mp ht with ht | ht
      · exact h1 t ht
      · rw [List.mem_singleton.mp ht]
        exact isToken_of_current h0 h2
    · rw [← h3]
      simp

/-! ## The function trim -/

theorem find_first_not_of_eq (s : Str) :
    find_first_not_of s " \t\r\n".toList = s.findIdx? (fun c => !isTrimSpace c) := rfl

theorem find_last_not_of_eq (s : Str) :
    find_last_not_of s " \t\r\n".toList =
      (s.reverse.findIdx? (fun c => !isTrimSpace c)).map (fun i => s.length - 1 - i) := rfl

theorem findIdx?_all_false {p : Char → Bool} {l : Str} (h : ∀ c ∈ l, p c = false) :
    l.findIdx? p = none :=
  List.findIdx?_eq_none_iff.mpr h

/-- `trim` returns the middle of a string whose ends are runs of the stripped
characters and whose middle neither starts nor ends with one. -/
theorem trim_surrounded (pre mid post : Str) (hpre : ∀ c ∈ pre, isTrimSpace c = true)
    (hpost : ∀ c ∈ post, isTrimSpace c = true) (hmid : mid ≠ [])
    (hhead : isTrimSpace (mid.head hmid) = false)
    (hlast : isTrimSpace (mid.getLast hmid) = false) : trim (pre ++ mid ++ post) = mid := by
  obtain ⟨c, cs, rfl⟩ := List.exists_cons_of_ne_nil hmid
  simp only [List.head_cons] at hhead
  have e1 : find_first_not_of (pre ++ (c :: cs) ++ post) " \t\r\n".toList = some pre.length := by
    rw [find_first_not_of_eq, List.append_assoc, List.findIdx?_append,
      findIdx?_all_false (fun d hd => by simp [hpre d hd])]
    simp [List.findIdx?_cons, hhead]
  have e2 : find_last_not_of (pre ++ (c :: cs) ++ post) " \t\r\n".toList =
      some (pre.length + cs.length) := by
    rw [find_last_not_of_eq]
    obtain ⟨l, r, hr⟩ : ∃ l r, (c :: cs).reverse = l :: r ∧ isTrimSpace l = false := by
      cases hrev : (c :: cs).reverse with
      | nil => simp at hrev
      | cons l r =>
        refine ⟨l, r, rfl, ?_⟩
        have : (c :: cs).getLast hmid = l := by
          have h1 : (c :: cs) = (l :: r).reverse := by rw [← hrev, List.reverse_reverse]
          simp only [h1, List.reverse_cons, List.getLast_append_singleton]
        rw [← this]; exact hlast
    have hlen : r.length = cs.length := by
      have := congrArg List.length hr.1
      simpa using this.symm
    rw [List.reverse_append, List.reverse_append, hr.1, List.findIdx?_append,
      findIdx?_all_false (l := post.reverse) (fun d hd => by
        simp [hpost d (List.mem_reverse.mp hd)])]
    simp only [Option.none_or, List.cons_append, List.findIdx?_cons, hr.2, Bool.not_false,
      if_true, Option.map_some', List.length_reverse, List.length_append, List.length_cons]
    congr 1
    omega
  unfold trim
  rw [e1, e2]
  simp only [Option.getD_some, substr]
  rw [List.append_assoc, List.drop_left]
  have : pre.length + cs.length - pre.length + 1 = (c :: cs).length := by
    simp only [List.length_cons]; omega
  rw [this, List.take_left]

theorem rdropWhile_append_rtakeWhile (p : Char → Bool) (l : Str) :
    l.rdropWhile p ++ l.rtakeWhile p = l := by
  unfold List.rdropWhile List.rtakeWhile
  rw [← List.reverse_append, List.takeWhile_append_dropWhile, List.reverse_reverse]

/-- `trim` drops the leading and the trailing run of the stripped characters. -/
theorem trim_eq_rdropWhile (s : Str) :
    trim s = (s.dropWhile isTrimSpace).rdropWhile isTrimSpace := by
  by_cases hrem : s.dropWhile isTrimSpace = []
  · have hall : ∀ c ∈ s, isTrimSpace c = true := List.dropWhile_eq_nil_iff.mp hrem
    rw [hrem]
    unfold trim
    rw [find_first_not_of_eq, findIdx?_all_false (fun c hc => by simp [hall c hc])]
    simp [List.rdropWhile]
  · have hhead := List.head_dropWhile_not isTrimSpace s hrem
    have hmid : (s.dropWhile isTrimSpace).rdropWhile isTrimSpace ≠ [] := by
      intro h
      have := List.rdropWhile_eq_nil_iff.mp h _ (List.head_mem hrem)
      rw [hhead] at this
      exact absurd this (by simp)
    have hsplit := rdropWhile_append_rtakeWhile isTrimSpace (s.dropWhile isTrimSpace)
    have hh : ((s.dropWhile isTrimSpace).rdropWhile isTrimSpace).head hmid =
        (s.dropWhile isTrimSpace).head hrem := by
      have : (s.dropWhile isTrimSpace).head hrem =
          ((s.dropWhile isTrimSpace).rdropWhile isTrimSpace ++
            (s.dropWhile isTrimSpace).rtakeWhile isTrimSpace).head (by simp [hmid]) := by
        simp only [hsplit]
      rw [this, List.head_append_of_ne_nil]
    have key := trim_surrounded (s.takeWhile isTrimSpace)
      ((s.dropWhile isTrimSpace).rdropWhile isTrimSpace)
      ((s.dropWhile isTrimSpace).rtakeWhile isTrimSpace)
      (fun c hc => List.mem_takeWhile_imp hc) (fun c hc => List.mem_rtakeWhile_imp hc) hmid
      (by rw [hh, hhead]) (by simpa using List.rdropWhile_last_not isTrimSpace _ hmid)
    rw [List.append_assoc, hsplit, List.takeWhile_append_dropWhile] at key
    exact key

theorem trim_head_last (s : Str) (h : trim s ≠ []) :
    isTrimSpace ((trim s).head h) = false ∧ isTrimSpace ((trim s).getLast h) = false := by
  have e := trim_eq_rdropWhile s
  have hmid : (s.dropWhile isTrimSpace).rdropWhile isTrimSpace ≠ [] := by rw [← e]; exact h
  have hrem : s.dropWhile isTrimSpace ≠ [] := by
    intro h0
    rw [h0] at hmid
    simp [List.rdropWhile] at hmid
  constructor
  · have hhead := List.head_dropWhile_not isTrimSpace s hrem
    have hsplit := rdropWhile_append_rtakeWhile isTrimSpace (s.dropWhile isTrimSpace)
    have hh : ((s.dropWhile isTrimSpace).rdropWhile isTrimSpace).head hmid =
        (s.dropWhile isTrimSpace).head hrem := by
      have : (s.dropWhile isTrimSpace).head hrem =
          ((s.dropWhile isTrimSpace).rdropWhile isTrimSpace ++
            (s.dropWhile isTrimSpace).rtakeWhile isTrimSpace).head (by simp [hmid]) := by
        simp only [hsplit]
      rw [this, List.head_append_of_ne_nil]
    simp only [e, hh, hhead]
  · have := List.rdropWhile_last_not isTrimSpace _ hmid
    simp only [e]
    simpa using this

theorem trim_head?_last? (s : Str) :
    (∀ c, (trim s).head? = some c → isTrimSpace c = false) ∧
      (∀ c, (trim s).getLast? = some c → isTrimSpace c = false) := by
  by_cases h : trim s = []
  · simp [h]
  · obtain ⟨h1, h2⟩ := trim_head_last s h
    constructor
    · intro c hc
      rw [List.head?_eq_head h] at hc
      simp only [Option.some.injEq] at hc
      rw [← hc]; exact h1
    · intro c hc
      rw [List.getLast?_eq_getLast _ h] at hc
      simp only [Option.some.injEq] at hc
      rw [← hc]; exact h2

theorem trim_trim (s : Str) : trim (trim s) = trim s := by
  by_cases h : trim s = []
  · rw [h]; rfl
  · obtain ⟨h1, h2⟩ := trim_head_last s h
    have := trim_surrounded [] (trim s) [] (by simp) (by simp) h h1 h2
    simpa using this

theorem parseDeclaration_identifier_trimmed {currentLine : Int}
    {line varType identifier valueStr : Str}
    (h : parseDeclaration currentLine line = Res.ok (varType, identifier, valueStr)) :
    trim identifier = identifier := by
  unfold parseDeclaration at h
  split at h
  · simp at h
  · simp only at h
    split at h
    · simp at h
    · split at h
      · simp at h
      · split at h
        · simp at h
        · split_ifs at h with hc
          simp only [Res.ok.injEq, Prod.mk.injEq] at h
          rw [← h.2.1, trim_trim]

theorem handle_variable_assignment_keys_trimmed {vars : Store}
    (hvars : ∀ key, (vars.find key).isSome → trim key = key) (currentLine : Int) (line : Str) :
    ∀ key, ((handle_variable_assignment vars currentLine line).2.find key).isSome →
      trim key = key := by
  unfold handle_variable_assignment
  cases hp : parseDeclaration currentLine line with
  | ok parts =>
    obtain ⟨varType, identifier, valueStr⟩ := parts
    simp only
    have hs := coerceValue_store vars currentLine varType valueStr
    rcases hc : coerceValue vars currentLine varType valueStr with ⟨res, vars2⟩
    rw [hc] at hs
    simp only at hs
    rw [hs]
    cases res with
    | ok value =>
      simp only
      intro key hkey
      by_cases hk : key = identifier
      · rw [hk]
        exact parseDeclaration_identifier_trimmed hp
      · apply hvars key
        simpa [Store.find, Store.assign, hk] using hkey
    | throw w => exact hvars
    | undefined => exact hvars
  | throw w => exact hvars
  | undefined => exact hvars

theorem evaluate_expression_of_bound {vars : Store} (currentLine : Int) {expr : Str}
    {var : Variable} (hbound : vars.find (trim expr) = some var) (hne : trim expr ≠ [])
    (hq : startsAndEndsQuoted (trim expr) = false) :
    evaluate_expression vars currentLine expr = (Res.ok var.value, vars) := by
  obtain ⟨front, rest, hcons⟩ := List.exists_cons_of_ne_nil hne
  have hhead : (trim expr).head? = some front := by rw [hcons]; rfl
  have hlast : (trim expr).getLast? = some ((trim expr).getLast hne) :=
    List.getLast?_eq_getLast _ hne
  have hq' : isQuoted front ((trim expr).getLast hne) = false := by
    simpa [startsAndEndsQuoted, hhead, hlast] using hq
  have hidx : vars.index (trim expr) = (var, vars) := by
    unfold Store.index
    unfold Store.find at hbound
    rw [hbound]
  unfold evaluate_expression
  simp only [hhead, hlast, hq', hbound, hidx, Option.isSome_some, if_true, if_false,
    Bool.false_eq_true]

theorem substr_inner (s : Str) : substr s 1 (s.length - 2) = s.tail.dropLast := by
  rw [List.dropLast_eq_take, substr, ← List.drop_one]
  congr 1
  simp only [List.length_drop]
  omega

theorem isTokenChar_digit {c : Char} (h : isdigit c = true) : isTokenChar c = true := by
  rcases isdigit_cases h with h | h | h | h | h | h | h | h | h | h <;> subst h <;> decide

theorem isTokenChar_spec {c : Char} (h : isTokenChar c = true) :
    isspace c = false ∧ c ≠ '+' ∧ c ≠ '*' ∧ c ≠ '/' ∧ c ≠ '(' ∧ c ≠ ')' := by
  simp only [isTokenChar, Bool.and_eq_true, Bool.not_eq_true', bne_iff_ne, ne_eq] at h
  exact ⟨h.1.1.1.1.1, h.1.1.1.1.2, h.1.1.1.2, h.1.1.2, h.1.2, h.2⟩

/-! ## Accuracy of rounding -/

theorem natLog2Fuel_spec (fuel n : ℕ) (hn : 0 < n) (hf : n ≤ fuel) :
    2 ^ natLog2Fuel fuel n ≤ n ∧ n < 2 ^ (natLog2Fuel fuel n + 1) := by
  induction fuel generalizing n with
  | zero => omega
  | succ f ih =>
    unfold natLog2Fuel
    split_ifs with h2
    · obtain ⟨h3, h4⟩ := ih (n / 2) (by omega) (by omega)
      constructor
      · rw [pow_succ]
        have := (Nat.le_div_iff_mul_le (by norm_num : 0 < 2)).mp h3
        exact this
      · rw [pow_succ]
        have := (Nat.div_lt_iff_lt_mul (by norm_num : 0 < 2)).mp h4
        exact this
    · constructor <;> simp <;> omega

theorem natLog2_spec (n : ℕ) (hn : 0 < n) : 2 ^ natLog2 n ≤ n ∧ n < 2 ^ (natLog2 n + 1) :=
  natLog2Fuel_spec n n hn le_rfl

theorem ilog2_spec (q : ℚ) (hq : 0 < q) :
    (2 : ℚ) ^ ilog2 q ≤ q ∧ q < (2 : ℚ) ^ (ilog2 q + 1) := by
  have hnum : 0 < q.num := Rat.num_pos.mpr hq
  have hn : 0 < q.num.natAbs := Int.natAbs_pos.mpr (ne_of_gt hnum)
  obtain ⟨n1, n2⟩ := natLog2_spec q.num.natAbs hn
  obtain ⟨d1, d2⟩ := natLog2_spec q.den q.den_pos
  have hqe : q = (q.num.natAbs : ℚ) / (q.den : ℚ) := by
    have h1 : ((q.num.natAbs : ℕ) : ℤ) = q.num := Int.natAbs_of_nonneg (le_of_lt hnum)
    have h2 : ((q.num.natAbs : ℕ) : ℚ) = (q.num : ℚ) := by rw [← h1, Int.cast_natCast, h1]
    rw [h2]
    exact (Rat.num_div_den q).symm
  set n := q.num.natAbs with hndef
  set d := q.den with hddef
  set ln := natLog2 n
  set ld := natLog2 d
  have hd0 : (0 : ℚ) < d := by exact_mod_cast q.den_pos
  have N1 : (2 : ℚ) ^ ln ≤ n := by exact_mod_cast n1
  have N2 : (n : ℚ) < 2 ^ (ln + 1) := by exact_mod_cast n2
  have D1 : (2 : ℚ) ^ ld ≤ d := by exact_mod_cast d1
  have D2 : (d : ℚ) < 2 ^ (ld + 1) := by exact_mod_cast d2
  have p1 : (0 : ℚ) < 2 ^ ln := by positivity
  have p2 : (0 : ℚ) < 2 ^ ld := by positivity
  have e0 : (2 : ℚ) ^ ((ln : ℤ) - (ld : ℤ)) = 2 ^ ln / 2 ^ ld := by
    rw [zpow_sub₀ (by norm_num), zpow_natCast, zpow_natCast]
  have e1 : (2 : ℚ) ^ ((ln : ℤ) - (ld : ℤ) + 1) = 2 * 2 ^ ln / 2 ^ ld := by
    rw [zpow_add_one₀ (by norm_num), e0]; ring
  have e2 : (2 : ℚ) ^ ((ln : ℤ) - (ld : ℤ) - 1) = 2 ^ ln / (2 * 2 ^ ld) := by
    rw [zpow_sub_one₀ (by norm_num), e0]; field_simp; ring
  have hile : ilog2 q = if (2 : ℚ) ^ ((ln : ℤ) - (ld : ℤ)) ≤ q then (ln : ℤ) - ld
      else (ln : ℤ) - ld - 1 := rfl
  rw [hile]
  split_ifs with hc
  · refine ⟨hc, ?_⟩
    rw [e1, hqe, div_lt_div_iff₀ hd0 p2]
    rw [pow_succ] at N2
    nlinarith
  · push_neg at hc
    constructor
    · rw [e2, hqe, div_le_div_iff₀ (by positivity) hd0]
      rw [pow_succ] at D2
      nlinarith
    · simpa using hc

theorem rne_error (x : ℚ) : |(rne x : ℚ) - x| ≤ 1 / 2 := by
  have h1 : ((⌊x⌋ : ℤ) : ℚ) ≤ x := Int.floor_le x
  have h2 : x < ⌊x⌋ + 1 := Int.lt_floor_add_one x
  unfold rne
  simp only
  split_ifs with a b c
  · rw [abs_le]; constructor <;> linarith
  · push_cast; rw [abs_le]; constructor <;> linarith
  · rw [abs_le]; constructor <;> linarith
  · push_cast; rw [abs_le]; constructor <;> linarith

/-- Rounding to binary32 of a positive rational in the normal range gives a
finite value within relative error `2 ^ (-24)`. -/
theorem round32_error (q : ℚ) (hlo : (2 : ℚ) ^ (-126 : ℤ) ≤ q) (hhi : q < (2 : ℚ) ^ (127 : ℤ)) :
    ∃ r : ℚ, round32 q = F32.fin r ∧ |r - q| ≤ q * (2 : ℚ) ^ (-24 : ℤ) := by
  have hq : 0 < q := lt_of_lt_of_le (by positivity) hlo
  obtain ⟨s1, s2⟩ := ilog2_spec q hq
  have habs : |q| = q := abs_of_pos hq
  have hge : -126 ≤ ilog2 q := by
    by_contra hcon
    push_neg at hcon
    have : (2 : ℚ) ^ (ilog2 q + 1) ≤ 2 ^ (-126 : ℤ) :=
      zpow_le_zpow_right₀ (by norm_num) (by omega)
    linarith
  have hlt : ilog2 q < 127 := by
    by_contra hcon
    push_neg at hcon
    have : (2 : ℚ) ^ (127 : ℤ) ≤ 2 ^ (ilog2 q) := zpow_le_zpow_right₀ (by norm_num) hcon
    linarith
  have hmax : max (ilog2 q) (-126) = ilog2 q := max_eq_left hge
  set e := ilog2 q with he
  have hu : (0 : ℚ) < 2 ^ (e - 23) := by positivity
  have herr := rne_error (q / 2 ^ (e - 23))
  have hr : |roundTo e q - q| ≤ 2 ^ (e - 23) / 2 := by
    unfold roundTo
    have : (rne (q / 2 ^ (e - 23)) : ℚ) * 2 ^ (e - 23) - q =
        ((rne (q / 2 ^ (e - 23)) : ℚ) - q / 2 ^ (e - 23)) * 2 ^ (e - 23) := by
      field_simp
    rw [this, abs_mul, abs_of_pos hu]
    calc |(rne (q / 2 ^ (e - 23)) : ℚ) - q / 2 ^ (e - 23)| * 2 ^ (e - 23)
        ≤ 1 / 2 * 2 ^ (e - 23) := by
          exact mul_le_mul_of_nonneg_right herr (le_of_lt hu)
      _ = 2 ^ (e - 23) / 2 := by ring
  have hulp : (2 : ℚ) ^ (e - 23) / 2 ≤ q * 2 ^ (-24 : ℤ) := by
    have : (2 : ℚ) ^ (e - 23) / 2 = 2 ^ e * 2 ^ (-24 : ℤ) := by
      rw [show e - 23 = e + (-24) + 1 by ring, zpow_add_one₀ (by norm_num),
        zpow_add₀ (by norm_num)]
      ring
    rw [this]
    exact mul_le_mul_of_nonneg_right s1 (by positivity)
  have hbound : |roundTo e q - q| ≤ q * 2 ^ (-24 : ℤ) := le_trans hr hulp
  have hfin : ¬ ((2 : ℚ) ^ (128 : ℕ) ≤ |roundTo e q|) := by
    rw [not_le]
    have h1 : |roundTo e q| ≤ |roundTo e q - q| + |q| := by
      have := abs_add (roundTo e q - q) q
      simpa using this
    have h2 : q * (2 : ℚ) ^ (-24 : ℤ) ≤ q := by
      have : (2 : ℚ) ^ (-24 : ℤ) ≤ 1 := by norm_num
      nlinarith
    have h3 : (2 : ℚ) ^ (127 : ℤ) * 2 = 2 ^ (128 : ℕ) := by norm_num
    rw [habs] at h1
    linarith
  refine ⟨roundTo e q, ?_, hbound⟩
  unfold round32
  rw [if_neg (ne_of_gt hq)]
  simp only [habs, ← he, hmax, hfin, if_false]

theorem F32.sub_natCast (a b : ℕ) (ha : a < 2 ^ 24) (hb : b < 2 ^ 24) :
    F32.sub (F32.fin a) (F32.fin b) = F32.fin ((a : ℚ) - b) := by
  have h : round32 (((a : ℤ) - (b : ℤ) : ℤ) : ℚ) = F32.fin (((a : ℤ) - (b : ℤ) : ℤ) : ℚ) :=
    round32_intCast _ (by omega)
  simp only [F32.sub, F32.neg, F32.add]
  push_cast at h
  rw [← sub_eq_add_neg]
  exact h

theorem round32_quotient (a b : ℕ) (ha : a < 1000) (hb : b < 1000) (hb0 : b ≠ 0) :
    ∃ r : ℚ, round32 ((a : ℚ) / b) = F32.fin r ∧
      |r - (a : ℚ) / b| ≤ (a : ℚ) / b * (2 : ℚ) ^ (-24 : ℤ) := by
  by_cases ha0 : a = 0
  · subst ha0
    exact ⟨0, by simp [round32], by simp⟩
  · have hbq : (0 : ℚ) < b := by exact_mod_cast Nat.pos_of_ne_zero hb0
    have haq : (1 : ℚ) ≤ a := by exact_mod_cast Nat.pos_of_ne_zero ha0
    have ha' : (a : ℚ) < 1000 := by exact_mod_cast ha
    have hb' : (b : ℚ) < 1000 := by exact_mod_cast hb
    have hb1 : (1 : ℚ) ≤ b := by exact_mod_cast Nat.pos_of_ne_zero hb0
    apply round32_error
    · rw [le_div_iff₀ hbq]
      have h1 : (2 : ℚ) ^ (-126 : ℤ) ≤ 1 / 1000 := by norm_num
      have h2 : (2 : ℚ) ^ (-126 : ℤ) * b ≤ 1 / 1000 * b :=
        mul_le_mul_of_nonneg_right h1 (le_of_lt hbq)
      generalize (2 : ℚ) ^ (-126 : ℤ) = c at h1 h2 ⊢
      linarith
    · rw [div_lt_iff₀ hbq]
      have h1 : (1000 : ℚ) ≤ 2 ^ (127 : ℤ) := by norm_num
      have h2 : (2 : ℚ) ^ (127 : ℤ) * 1 ≤ 2 ^ (127 : ℤ) * b :=
        mul_le_mul_of_nonneg_left hb1 (by positivity)
      generalize (2 : ℚ) ^ (127 : ℤ) = c at h1 h2 ⊢
      linarith

/-! ## Reverse Polish sequences -/

theorem evalToken_operator_short {vars : Store} (hvars : vars.KeysAreIdentifiers)
    (currentLine : Int) (values : List F32) (op : Str) (hop : isOperator op = true)
    (hlen : values.length < 2) :
    evalToken currentLine vars values op = (Res.throw "Invalid expression".toList, vars) := by
  have h1 : op ≠ [] := by intro h; subst h; simp [isOperator] at hop
  have h2 : vars.find op = none := by
    rcases isOperator_iff.mp hop with h | h | h | h <;> subst h <;>
      exact find_eq_none_of_not_alpha hvars [] (by decide)
  have h3 := isOperator_not_number hop
  unfold evalToken
  rw [if_neg h1, h2]
  simp only [Option.isSome_none, Bool.false_eq_true, if_false, h3, hop, if_true]
  rcases values with _ | ⟨b, _ | ⟨a, rest⟩⟩
  · rfl
  · rfl
  · simp only [List.length_cons] at hlen
    omega

theorem evalToken_operator_ok {vars : Store} (hvars : vars.KeysAreIdentifiers)
    (currentLine : Int) (b a : F32) (rest : List F32) (op : Str) (hop : isOperator op = true)
    (hz : op = ['/'] → b.isZero = false) :
    ∃ x, evalToken currentLine vars (b :: a :: rest) op = (Res.ok (x :: rest), vars) := by
  obtain ⟨e1, e2, e3, e4⟩ := evalToken_operator hvars currentLine a b rest
  rcases isOperator_iff.mp hop with h | h | h | h <;> subst h
  · exact ⟨_, e1⟩
  · exact ⟨_, e2⟩
  · exact ⟨_, e3⟩
  · rw [e4, hz rfl]
    exact ⟨_, rfl⟩

theorem find_numberToken {vars : Store} (hvars : vars.KeysAreIdentifiers) {t : Str}
    (ht : isNumberToken t = true) : vars.find t = none := by
  cases t with
  | nil => simp [isNumberToken] at ht
  | cons c cs =>
    apply find_eq_none_of_not_alpha hvars cs
    simp only [isNumberToken, Bool.decide_or, Bool.decide_and, Bool.decide_eq_true,
      Bool.or_eq_true, Bool.and_eq_true, decide_eq_true_eq] at ht
    rcases ht with h | h
    · exact isdigit_not_isalpha h
    · rw [h.1]; decide

theorem evalToken_number {vars : Store} (hvars : vars.KeysAreIdentifiers)
    (currentLine : Int) (values : List F32) {t : Str} (ht : isNumberToken t = true)
    (hs : (stof t).isOk = true) :
    ∃ v, evalToken currentLine vars values t = (Res.ok (v :: values), vars) := by
  have h0 : t ≠ [] := by intro h; subst h; simp [isNumberToken] at ht
  cases hst : stof t with
  | ok r =>
    refine ⟨r.1, ?_⟩
    simp [evalToken, h0, find_numberToken hvars ht, ht, hst]
  | throw w => rw [hst] at hs; simp [Res.isOk] at hs
  | undefined => rw [hst] at hs; simp [Res.isOk] at hs

theorem noZeroDivisorFrom_tail {vars : Store} {currentLine : Int} {values values1 : List F32}
    {t : Str} {rest : List Str}
    (h : NoZeroDivisorFrom vars currentLine values (t :: rest))
    (ht : evalToken currentLine vars values t = (Res.ok values1, vars)) :
    NoZeroDivisorFrom vars currentLine values1 rest := by
  intro pre post b r vars1 hsplit hev
  apply h (t :: pre) post b r vars1
  · rw [hsplit]; rfl
  · simp only [evalLoop, ht]
    exact hev

theorem evalLoop_rpn {vars : Store} (hvars : vars.KeysAreIdentifiers) (currentLine : Int)
    (tokens : List Str) (values : List F32)
    (htok : ∀ t ∈ tokens, isOperator t = true ∨ (isNumberToken t = true ∧ (stof t).isOk = true))
    (hnz : NoZeroDivisorFrom vars currentLine values tokens) :
    (∀ d, rpnDepth tokens values.length = some d →
      ∃ values1, evalLoop currentLine vars values tokens = (Res.ok values1, vars) ∧
        values1.length = d) ∧
    (rpnDepth tokens values.length = none →
      evalLoop currentLine vars values tokens =
        (Res.throw "Invalid expression".toList, vars)) := by
  induction tokens generalizing values with
  | nil =>
    constructor
    · intro d hd
      simp only [rpnDepth, Option.some.injEq] at hd
      exact ⟨values, rfl, hd⟩
    · intro hd
      simp [rpnDepth] at hd
  | cons t rest ih =>
    have htok' : ∀ t ∈ rest, isOperator t = true ∨ (isNumberToken t = true ∧ (stof t).isOk = true) :=
      fun u hu => htok u (List.mem_cons_of_mem _ hu)
    by_cases hop : isOperator t = true
    · by_cases hlen : 2 ≤ values.length
      · obtain ⟨b, a, r, rfl⟩ : ∃ b a r, values = b :: a :: r := by
          rcases values with _ | ⟨b, _ | ⟨a, r⟩⟩
          · simp at hlen
          · simp at hlen
          · exact ⟨b, a, r, rfl⟩
        have hz : t = ['/'] → b.isZero = false := by
          intro ht
          exact hnz [] rest b (a :: r) vars (by rw [ht]; rfl) rfl
        obtain ⟨x, hx⟩ := evalToken_operator_ok hvars currentLine b a r t hop hz
        have ih' := ih (x :: r) htok' (noZeroDivisorFrom_tail hnz hx)
        have hd : rpnDepth (t :: rest) (b :: a :: r).length = rpnDepth rest (x :: r).length := by
          simp only [rpnDepth, hop, if_true, List.length_cons]
          rw [if_pos (by omega)]
          rfl
        rw [hd]
        simp only [evalLoop, hx]
        exact ih'
      · have hshort := evalToken_operator_short hvars currentLine values t hop (by omega)
        have hd : rpnDepth (t :: rest) values.length = none := by
          simp only [rpnDepth, hop, if_true]
          rw [if_neg hlen]
        rw [hd]
        simp only [evalLoop, hshort]
        exact ⟨fun d h => by simp at h, fun _ => trivial⟩
    · have hlit := (htok t (List.mem_cons_self _ _)).resolve_left hop
      obtain ⟨v, hv⟩ := evalToken_number hvars currentLine values hlit.1 hlit.2
      have ih' := ih (v :: values) htok' (noZeroDivisorFrom_tail hnz hv)
      have hd : rpnDepth (t :: rest) values.length = rpnDepth rest (v :: values).length := by
        simp only [rpnDepth, hop, Bool.false_eq_true, if_false, List.length_cons]
      rw [hd]
      simp only [evalLoop, hv]
      exact ih'

theorem noZeroDivisorFrom_of_no_division (vars : Store) (currentLine : Int) (values : List F32)
    (tokens : List Str) (h : ['/'] ∉ tokens) :
    NoZeroDivisorFrom vars currentLine values tokens := by
  intro pre post b rest vars1 hsplit _
  exact absurd (by rw [hsplit]; simp) h

theorem evaluatePostfix_of_rpn {vars : Store} (hvars : vars.KeysAreIdentifiers)
    (currentLine : Int) (tokens : List Str)
    (htok : ∀ t ∈ tokens, isOperator t = true ∨ (isNumberToken t = true ∧ (stof t).isOk = true))
    (hnz : NoZeroDivisorFrom vars currentLine [] tokens) :
    (WellFormedRPN tokens → ∃ v, evaluatePostfix vars currentLine tokens = (Res.ok v, vars)) ∧
    (¬ WellFormedRPN tokens →
      evaluatePostfix vars currentLine tokens =
        (Res.throw "Invalid expression".toList, vars)) := by
  obtain ⟨h1, h2⟩ := evalLoop_rpn hvars currentLine tokens [] htok hnz
  simp only [List.length_nil] at h1 h2
  unfold WellFormedRPN evaluatePostfix
  cases hd : rpnDepth tokens 0 with
  | none =>
    rw [h2 hd]
    exact ⟨fun h => by simp at h, fun _ => rfl⟩
  | some d =>
    obtain ⟨values1, hv, hlen⟩ := h1 d hd
    rw [hv]
    constructor
    · intro hwf
      simp only [Option.some.injEq] at hwf
      subst hwf
      match values1, hlen with
      | [v], _ => exact ⟨v, rfl⟩
    · intro hwf
      have hne : d ≠ 1 := fun h => hwf (by rw [h])
      match values1, hlen with
      | [], _ => rfl
      | [v], hl => exact absurd hl.symm hne
      | _ :: _ :: _, _ => rfl

/-! ## Shunting yard -/

theorem infixStep_number (vars : Store) (out ops : List Str) {t : Str} (ht : IsNumberLiteral t) :
    infixStep vars (out, ops) t = (out ++ [t], ops) := by
  have h0 : t ≠ [] := by intro h; subst h; exact ht
  simp [infixStep, h0, isOperandToken_of_number vars (isNumberToken_numberLiteral ht)]

theorem infixStep_open (vars : Store) (out ops : List Str) :
    infixStep vars (out, ops) ['('] = (out, ['('] :: ops) := by
  have h : isOperandToken vars ['('] = false :=
    isOperandToken_symbol vars (by decide) (by decide)
  simp [infixStep, h]

theorem popToParen_operators (out pending ops : List Str)
    (h : ∀ p ∈ pending, isOperator p = true) :
    popToParen out (pending ++ ['('] :: ops) = (out ++ pending, ['('] :: ops) := by
  induction pending generalizing out with
  | nil => simp [popToParen]
  | cons p ps ih =>
    have hp : p ≠ ['('] := by
      intro hp
      have := h p (List.mem_cons_self _ _)
      rw [hp] at this
      exact absurd this (by decide)
    simp only [List.cons_append, popToParen, ne_eq, hp, not_false_eq_true, if_true]
    rw [show ps.append (['('] :: ops) = ps ++ ['('] :: ops from rfl,
      ih _ (fun q hq => h q (List.mem_cons_of_mem _ hq))]
    simp

theorem infixStep_close (vars : Store) (out pending ops : List Str)
    (h : ∀ p ∈ pending, isOperator p = true) :
    infixStep vars (out, pending ++ ['('] :: ops) [')'] = (out ++ pending, ops) := by
  have h1 : isOperandToken vars [')'] = false :=
    isOperandToken_symbol vars (by decide) (by decide)
  simp [infixStep, h1, popToParen_operators out pending ops h]

theorem getPrecedence_operator {p : Str} (h : isOperator p = true) : 1 ≤ getPrecedence p := by
  rcases isOperator_iff.mp h with h | h | h | h <;> subst h <;> decide

theorem popPrec_additive (a : Str) (ha : a = ['+'] ∨ a = ['-']) (out pending ops : List Str)
    (h : ∀ p ∈ pending, isOperator p = true) (hops : IsBarrier ops) :
    popPrec a out (pending ++ ops) = (out ++ pending, ops) := by
  have hpa : getPrecedence a = 1 := by rcases ha with h | h <;> subst h <;> decide
  induction pending generalizing out with
  | nil =>
    rcases hops with h0 | ⟨rest, h0⟩ <;> subst h0 <;> simp [popPrec]
  | cons p ps ih =>
    have hop := h p (List.mem_cons_self _ _)
    have hp : p ≠ ['('] := by
      intro hp
      rw [hp] at hop
      exact absurd hop (by decide)
    have hprec := getPrecedence_operator hop
    simp only [List.cons_append, popPrec, ne_eq, hp, not_false_eq_true, hpa, hprec, and_self,
      if_true]
    rw [show ps.append ops = ps ++ ops from rfl,
      ih _ (fun q hq => h q (List.mem_cons_of_mem _ hq))]
    simp

theorem popPrec_multiplicative (m : Str) (hm : m = ['*'] ∨ m = ['/']) (out pending ops : List Str)
    (h : pending = [] ∨ pending = [['*']] ∨ pending = [['/']]) (hops : IsLowTop ops) :
    popPrec m out (pending ++ ops) = (out ++ pending, ops) := by
  have hbase : ∀ out, popPrec m out ops = (out, ops) := by
    intro out
    rcases hops with h0 | ⟨top, rest, h0, htop⟩
    · subst h0; simp [popPrec]
    · subst h0
      rcases hm with hm | hm <;> subst hm <;> rcases htop with ht | ht | ht <;> subst ht <;>
        simp [popPrec, getPrecedence]
  rcases h with h | h | h <;> subst h
  · simpa using hbase out
  · rcases hm with hm | hm <;> subst hm <;>
      simp [popPrec, getPrecedence, hbase]
  · rcases hm with hm | hm <;> subst hm <;>
      simp [popPrec, getPrecedence, hbase]

theorem infixStep_operator (vars : Store) (out ops : List Str) {op : Str}
    (hop : isOperator op = true) :
    infixStep vars (out, ops) op = ((popPrec op out ops).1, op :: (popPrec op out ops).2) := by
  have h3 := isOperator_not_operand vars hop
  have h4 : op ≠ [] := by intro h; subst h; simp [isOperator] at hop
  have h5 : op ≠ ['('] := by intro h; subst h; simp [isOperator] at hop
  have h6 : op ≠ [')'] := by intro h; subst h; simp [isOperator] at hop
  simp [infixStep, hop, h3, h4, h5, h6]

theorem shuntInv_of_parses (vars : Store) {level : Level} {tokens : List Str} {e : Expr}
    (h : Parses level tokens e) : ShuntInv vars level tokens e := by
  induction h with
  | number token ht =>
    intro out ops
    simp [infixStep_number vars out ops ht, Expr.postorder]
  | parens tokens e _ ih =>
    intro out ops
    obtain ⟨o, pending, h1, h2, h3⟩ := ih out (['('] :: ops) (Or.inr ⟨ops, rfl⟩)
    simp only [List.cons_append, List.foldl_cons, List.foldl_append, List.foldl_nil,
      infixStep_open, h1, infixStep_close vars _ _ _ h3]
    rw [← h2, List.append_assoc]
  | ofAtom tokens e _ ih =>
    intro out ops _
    exact ⟨e.postorder, [], by simpa using ih out ops, by simp, Or.inl rfl⟩
  | mul tokens1 tokens2 left right op _ _ hop ih1 ih2 =>
    intro out ops hops
    obtain ⟨o, pending, h1, h2, h3⟩ := ih1 out ops hops
    have hoper : isOperator op = true := by rcases hop with h | h <;> subst h <;> decide
    refine ⟨left.postorder ++ right.postorder, [op], ?_, by simp [Expr.postorder], ?_⟩
    · simp only [List.foldl_append, List.foldl_cons, h1, infixStep_operator vars _ _ hoper,
        popPrec_multiplicative op hop _ _ _ h3 hops]
      rw [ih2, ← h2]
      simp
    · rcases hop with h | h <;> subst h <;> simp
  | ofProduct tokens e _ ih =>
    intro out ops hops
    have hlow : IsLowTop ops := by
      rcases hops with h | ⟨rest, h⟩
      · exact Or.inl h
      · exact Or.inr ⟨['('], rest, h, Or.inl rfl⟩
    obtain ⟨o, pending, h1, h2, h3⟩ := ih out ops hlow
    refine ⟨o, pending, h1, h2, ?_⟩
    rcases h3 with h | h | h <;> subst h <;> simp <;> decide
  | add tokens1 tokens2 left right op _ _ hop ih1 ih2 =>
    intro out ops hops
    obtain ⟨o1, pending1, h1, h2, h3⟩ := ih1 out ops hops
    have hoper : isOperator op = true := by rcases hop with h | h <;> subst h <;> decide
    have hlow : IsLowTop (op :: ops) := Or.inr ⟨op, ops, rfl, Or.inr hop⟩
    obtain ⟨o2, pending2, k1, k2, k3⟩ := ih2 (out ++ left.postorder) (op :: ops) hlow
    refine ⟨left.postorder ++ o2, pending2 ++ [op], ?_, ?_, ?_⟩
    · simp only [List.foldl_append, List.foldl_cons, h1, infixStep_operator vars _ _ hoper,
        popPrec_additive op hop _ _ _ h3 hops]
      rw [← h2]
      have := k1
      rw [← h2] at this
      simp only [List.append_assoc] at this ⊢
      rw [this]
      simp
    · simp only [Expr.postorder, ← k2]
      simp
    · intro p hp
      rcases List.mem_append.mp hp with hp | hp
      · rcases k3 with h | h | h <;> subst h <;> simp at hp <;> subst hp <;> decide
      · rw [List.mem_singleton.mp hp]; exact hoper

theorem infixToPostfix_of_parses (vars : Store) {tokens : List Str} {e : Expr}
    (h : Parses Level.sum tokens e) : infixToPostfix vars tokens = e.postorder := by
  obtain ⟨o, pending, h1, h2, _⟩ := shuntInv_of_parses vars h [] [] (Or.inl rfl)
  unfold infixToPostfix
  simp only [h1]
  simpa using h2

theorem isParen_numberLiteral {t : Str} (h : IsNumberLiteral t) : isParen t = false := by
  have h1 : t ≠ ['('] := numberLiteral_ne_singleton h (by decide)
  have h2 : t ≠ [')'] := numberLiteral_ne_singleton h (by decide)
  simp [isParen, h1, h2]

theorem parses_postorder {level : Level} {tokens : List Str} {e : Expr}
    (h : Parses level tokens e) :
    (∀ t ∈ e.postorder, isParen t = false) ∧
    e.postorder.Perm (tokens.filter (fun t => !isParen t)) ∧
    e.postorder.filter isNumberToken = tokens.filter isNumberToken := by
  induction h with
  | number token ht =>
    refine ⟨?_, ?_, ?_⟩
    · intro t hmem
      simp only [Expr.postorder, List.mem_singleton] at hmem
      rw [hmem]; exact isParen_numberLiteral ht
    · simp [Expr.postorder, isParen_numberLiteral ht]
    · rfl
  | parens tokens e _ ih =>
    obtain ⟨h1, h2, h3⟩ := ih
    refine ⟨h1, ?_, ?_⟩
    · have e1 : isParen ['('] = true := by decide
      have e2 : isParen [')'] = true := by decide
      simpa [List.filter_cons, List.filter_append, e1, e2] using h2
    · have e1 : isNumberToken ['('] = false := by decide
      have e2 : isNumberToken [')'] = false := by decide
      simpa [List.filter_cons, List.filter_append, e1, e2] using h3
  | ofAtom tokens e _ ih => exact ih
  | ofProduct tokens e _ ih => exact ih
  | mul tokens1 tokens2 left right op _ _ hop ih1 ih2 =>
    obtain ⟨a1, a2, a3⟩ := ih1
    obtain ⟨b1, b2, b3⟩ := ih2
    have e1 : isParen op = false := by rcases hop with h | h <;> subst h <;> decide
    have e2 : isNumberToken op = false := by rcases hop with h | h <;> subst h <;> decide
    refine ⟨?_, ?_, ?_⟩
    · intro t hmem
      simp only [Expr.postorder, List.mem_append, List.mem_singleton] at hmem
      rcases hmem with (hmem | hmem) | hmem
      · exact a1 t hmem
      · exact b1 t hmem
      · rw [hmem]; exact e1
    · simp only [Expr.postorder, List.filter_append, List.filter_cons, e1, Bool.not_false,
        if_true]
      rw [List.append_assoc]
      exact List.Perm.append a2
        ((List.perm_append_singleton op _).trans (List.Perm.cons op b2))
    · simp [Expr.postorder, List.filter_append, List.filter_cons, e2, a3, b3]
  | add tokens1 tokens2 left right op _ _ hop ih1 ih2 =>
    obtain ⟨a1, a2, a3⟩ := ih1
    obtain ⟨b1, b2, b3⟩ := ih2
    have e1 : isParen op = false := by rcases hop with h | h <;> subst h <;> decide
    have e2 : isNumberToken op = false := by rcases hop with h | h <;> subst h <;> decide
    refine ⟨?_, ?_, ?_⟩
    · intro t hmem
      simp only [Expr.postorder, List.mem_append, List.mem_singleton] at hmem
      rcases hmem with (hmem | hmem) | hmem
      · exact a1 t hmem
      · exact b1 t hmem
      · rw [hmem]; exact e1
    · simp only [Expr.postorder, List.filter_append, List.filter_cons, e1, Bool.not_false,
        if_true]
      rw [List.append_assoc]
      exact List.Perm.append a2
        ((List.perm_append_singleton op _).trans (List.Perm.cons op b2))
    · simp [Expr.postorder, List.filter_append, List.filter_cons, e2, a3, b3]

/-! ## Integer literals of any size -/

theorem rne_neg (x : ℚ) : rne (-x) = -rne x := by
  by_cases hx : ((⌊x⌋ : ℤ) : ℚ) = x
  · rw [← hx, ← Int.cast_neg, rne_intCast, rne_intCast]
  · have h1 : ((⌊x⌋ : ℤ) : ℚ) ≤ x := Int.floor_le x
    have h2 : x < ⌊x⌋ + 1 := Int.lt_floor_add_one x
    have h3 : ((⌊x⌋ : ℤ) : ℚ) < x := lt_of_le_of_ne h1 hx
    have hf : ⌊-x⌋ = -⌊x⌋ - 1 := by
      rw [Int.floor_eq_iff]
      push_cast
      constructor <;> linarith
    unfold rne
    simp only [hf]
    push_cast
    split_ifs <;> first | omega | (exfalso; linarith)

theorem roundTo_neg (e : ℤ) (q : ℚ) : roundTo e (-q) = -roundTo e q := by
  unfold roundTo
  rw [neg_div, rne_neg]
  push_cast
  ring

theorem round32_neg (q : ℚ) : round32 (-q) = F32.neg (round32 q) := by
  unfold round32
  by_cases h0 : q = 0
  · simp [h0, F32.neg]
  · have h1 : -q ≠ 0 := neg_ne_zero.mpr h0
    simp only [h0, h1, if_false, abs_neg, roundTo_neg]
    split_ifs with h
    · simp only [F32.neg, F32.inf.injEq]
      rcases lt_or_gt_of_ne h0 with hn | hp
      · have : ¬ (-q < 0) := by linarith
        simp [hn, this]
      · have : ¬ (q < 0) := by linarith
        have h2 : -q < 0 := by linarith
        simp [h2, this]
    · simp [F32.neg]

/-- Rounding in the binade of a positive rational does not go below the
binade. -/
theorem roundTo_ge (q : ℚ) (hq : 0 < q) : (2 : ℚ) ^ ilog2 q ≤ roundTo (ilog2 q) q := by
  obtain ⟨s1, _⟩ := ilog2_spec q hq
  set e := ilog2 q
  have hu : (0 : ℚ) < 2 ^ (e - 23) := by positivity
  have hx : (2 : ℚ) ^ (23 : ℕ) ≤ q / 2 ^ (e - 23) := by
    rw [le_div_iff₀ hu]
    have : (2 : ℚ) ^ (23 : ℕ) * 2 ^ (e - 23) = 2 ^ e := by
      rw [← zpow_natCast, ← zpow_add₀ (by norm_num)]
      congr 1
      push_cast
      ring
    rw [this]
    exact s1
  have herr := rne_error (q / 2 ^ (e - 23))
  rw [abs_le] at herr
  have hz : (2 : ℤ) ^ (23 : ℕ) ≤ rne (q / 2 ^ (e - 23)) := by
    have h1 : ((2 : ℤ) ^ (23 : ℕ) : ℚ) - 1 < (rne (q / 2 ^ (e - 23)) : ℚ) := by
      push_cast
      linarith [herr.1]
    have h2 : (2 : ℤ) ^ (23 : ℕ) - 1 < rne (q / 2 ^ (e - 23)) := by exact_mod_cast h1
    omega
  have hzq : (2 : ℚ) ^ (23 : ℕ) ≤ (rne (q / 2 ^ (e - 23)) : ℚ) := by exact_mod_cast hz
  unfold roundTo
  calc (2 : ℚ) ^ e = 2 ^ (23 : ℕ) * 2 ^ (e - 23) := by
        rw [← zpow_natCast, ← zpow_add₀ (by norm_num)]
        congr 1
        push_cast
        ring
    _ ≤ (rne (q / 2 ^ (e - 23)) : ℚ) * 2 ^ (e - 23) :=
        mul_le_mul_of_nonneg_right hzq (le_of_lt hu)

theorem ilog2_nonneg (q : ℚ) (hq : 1 ≤ q) : 0 ≤ ilog2 q := by
  obtain ⟨_, s2⟩ := ilog2_spec q (by linarith)
  by_contra hcon
  push_neg at hcon
  have : (2 : ℚ) ^ (ilog2 q + 1) ≤ 2 ^ (0 : ℤ) := zpow_le_zpow_right₀ (by norm_num) (by omega)
  simp at this
  linarith

/-- The `ERANGE` flag of `strtof` on a natural number is set exactly on
overflow. -/
theorem finishFloat_natCast_any (n : ℕ) :
    finishFloat (n : ℚ) =
      match round32 (n : ℚ) with
      | F32.fin r => (F32.fin r, false)
      | v => (v, true) := by
  unfold finishFloat
  cases hr : round32 (n : ℚ) with
  | fin r =>
    simp only [Prod.mk.injEq, true_and, decide_eq_false_iff_not]
    intro ⟨h0, hlt, _⟩
    have hn : (1 : ℚ) ≤ n := by
      have : n ≠ 0 := by exact_mod_cast h0
      exact_mod_cast Nat.one_le_iff_ne_zero.mpr this
    have habs : |(n : ℚ)| = n := abs_of_nonneg (by linarith)
    rw [habs] at hlt
    have hge := roundTo_ge (n : ℚ) (by linarith)
    have he := ilog2_nonneg (n : ℚ) hn
    have h1 : (1 : ℚ) ≤ 2 ^ ilog2 (n : ℚ) := one_le_zpow₀ (by norm_num) he
    have h2 : (2 : ℚ) ^ (-126 : ℤ) ≤ 1 := by norm_num
    have h3 : (0 : ℚ) ≤ roundTo (ilog2 (n : ℚ)) n := by linarith
    rw [abs_of_nonneg h3] at hlt
    linarith
  | inf s => rfl
  | nan => rfl

theorem strtofBody_digits_any (ds : Str) (h : IsDigits ds) :
    strtofBody ds =
      ((finishFloat (digitsVal ds : ℚ)).1, ds.length, (finishFloat (digitsVal ds : ℚ)).2) := by
  obtain ⟨h0, hds⟩ := h
  have hlow := map_toLower_digits hds
  have e1 : ds.take 8 ≠ "infinity".toList := digits_take_ne hds 8 _ 'i' (by decide) (by decide)
  have e2 : ds.take 3 ≠ "inf".toList := digits_take_ne hds 3 _ 'i' (by decide) (by decide)
  have e3 : ds.take 3 ≠ "nan".toList := digits_take_ne hds 3 _ 'n' (by decide) (by decide)
  have e4 : ds.take 2 ≠ "0x".toList := digits_take_ne hds 2 _ 'x' (by decide) (by decide)
  have e5 : ds.takeWhile isdigit = ds := List.takeWhile_eq_self_iff.mpr hds
  have e6 : parseMantissa isdigit ds = (ds, [], ds.length) := by
    simp [parseMantissa, e5]
  have e7 : ds.length ≠ 0 := by simpa using h0
  unfold strtofBody
  simp only [hlow, e1, e2, e3, e4, e6, if_false, false_and, e7, List.drop_length,
    parseExponent, List.append_nil, List.length_nil]
  simp

/-- The conversion `std::stof` of a string of digits of any length: the
nearest `float`, or `std::out_of_range` when that is not finite. -/
theorem stof_digits_any (ds : Str) (h : IsDigits ds) :
    stof ds =
      match round32 (digitsVal ds : ℚ) with
      | F32.fin r => Res.ok (F32.fin r, ds.length)
      | _ => Res.throw "stof".toList := by
  have hb := strtofBody_digits_any ds h
  rw [finishFloat_natCast_any] at hb
  obtain ⟨h0, hds⟩ := h
  have e3 : ds.length ≠ 0 := by simpa using h0
  obtain ⟨c, cs, rfl⟩ := List.exists_cons_of_ne_nil h0
  have hc := hds c (List.mem_cons_self _ _)
  have e1 : (c :: cs).takeWhile isspace = [] := by
    simp [List.takeWhile_cons, isdigit_not_isspace hc]
  unfold stof
  simp only [e1, List.length_nil, List.drop_zero, takeSign_digit hc, hb]
  cases hr : round32 (digitsVal (c :: cs) : ℚ) <;> simp [e3]

theorem stof_minus_digits_any (ds : Str) (h : IsDigits ds) :
    stof ('-' :: ds) =
      match round32 (digitsVal ds : ℚ) with
      | F32.fin r => Res.ok (F32.fin (-r), 1 + ds.length)
      | _ => Res.throw "stof".toList := by
  have hb := strtofBody_digits_any ds h
  rw [finishFloat_natCast_any] at hb
  have e1 : ('-' :: ds).takeWhile isspace = [] := by
    rw [List.takeWhile_cons]
    have : isspace '-' = false := by decide
    simp [this]
  have e2 : takeSign ('-' :: ds) = (true, ds, 1) := rfl
  have e3 : ds.length ≠ 0 := by simpa using h.1
  unfold stof
  simp only [e1, List.length_nil, List.drop_zero, e2, hb]
  cases hr : round32 (digitsVal ds : ℚ) <;> simp [e3, F32.neg]

theorem stoi_digits_big (ds : Str) (h : IsDigits ds) (hv : 2147483647 < digitsVal ds) :
    stoi ds = Res.throw "stoi".toList := by
  obtain ⟨h0, hds⟩ := h
  have e5 : ds.takeWhile isdigit = ds := List.takeWhile_eq_self_iff.mpr hds
  obtain ⟨c, cs, rfl⟩ := List.exists_cons_of_ne_nil h0
  have hc := hds c (List.mem_cons_self _ _)
  have e1 : (c :: cs).takeWhile isspace = [] := by
    simp [List.takeWhile_cons, isdigit_not_isspace hc]
  unfold stoi
  simp only [e1, List.length_nil, List.drop_zero, takeSign_digit hc, e5]
  simp only [reduceCtorEq, if_false, Bool.false_eq_true]
  rw [if_pos (by omega)]

theorem parseLiteral_digits_big (ds : Str) (h : IsDigits ds) (hv : 2147483647 < digitsVal ds) :
    parseLiteral ds =
      match round32 (digitsVal ds : ℚ) with
      | F32.fin r => VarType.float (F32.fin r)
      | _ => VarType.string ds := by
  unfold parseLiteral
  rw [stoi_digits_big ds h hv, stof_digits_any ds h]
  cases hr : round32 (digitsVal ds : ℚ) <;> simp

/-- A string of digits whose value is above the `int` range resolves by
rule 6 to the nearest `float`, and by rule 7 to itself when `std::stof`
overflows. -/
theorem evaluate_expression_digits_big (vars : Store) (currentLine : Int) (ds : Str)
    (h : IsDigits ds) (hv : 2147483647 < digitsVal ds) (hfree : vars.find ds = none) :
    evaluate_expression vars currentLine ds =
      (Res.ok (match round32 (digitsVal ds : ℚ) with
        | F32.fin r => VarType.float (F32.fin r)
        | _ => VarType.string ds), vars) := by
  have hp := parseLiteral_digits_big ds h hv
  obtain ⟨back, hb1, hb2⟩ := digits_getLast h
  obtain ⟨h0, hds⟩ := h
  obtain ⟨c, cs, rfl⟩ := List.exists_cons_of_ne_nil h0
  have hc := hds c (List.mem_cons_self _ _)
  have ht : trim (c :: cs) = c :: cs :=
    trim_eq_self (List.head?_cons) hb1 (digit_not_trimmed hc) (digit_not_trimmed hb2)
  have n1 : (c :: cs) ≠ "true".toList := digits_ne_of_mem hds (x := 't') (by decide) (by decide)
  have n2 : (c :: cs) ≠ "false".toList := digits_ne_of_mem hds (x := 'f') (by decide) (by decide)
  have n3 : find_first_of (c :: cs) "+-*/()".toList = none := by
    unfold find_first_of
    rw [List.findIdx?_eq_none_iff]
    intro x hx
    exact digit_not_opchar (hds x hx)
  unfold evaluate_expression
  simp only [ht, hb1, List.head?_cons, digit_not_quote hc, hfree, n1, n2, n3, hp]
  simp

/-- A `-` followed by digits is one token of the arithmetic rule: it resolves
to the negated nearest `float`, and to itself when `std::stof` overflows and
line 221 catches the exception. -/
theorem evaluate_expression_minus_digits_any (vars : Store) (currentLine : Int) (ds : Str)
    (h : IsDigits ds) (hfree : vars.find ('-' :: ds) = none) :
    evaluate_expression vars currentLine ('-' :: ds) =
      (Res.ok (match round32 (digitsVal ds : ℚ) with
        | F32.fin r => VarType.float (F32.fin (-r))
        | _ => VarType.string ('-' :: ds)), vars) := by
  obtain ⟨back, hb1, hb2⟩ := digits_getLast h
  have hs := stof_minus_digits_any ds h
  have htok := tokenize_minus_digits ds h
  obtain ⟨h0, hds⟩ := h
  have hlen : 1 < ('-' :: ds).length := by
    have : ds.length ≠ 0 := by simpa using h0
    simp only [List.length_cons]
    omega
  have hb : ('-' :: ds).getLast? = some back := by
    obtain ⟨c, cs, rfl⟩ := List.exists_cons_of_ne_nil h0
    rw [List.getLast?_cons_cons]
    exact hb1
  have ht : trim ('-' :: ds) = '-' :: ds :=
    trim_eq_self (List.head?_cons) hb (by decide) (digit_not_trimmed hb2)
  have n1 : ('-' :: ds) ≠ "true".toList := by simp
  have n2 : ('-' :: ds) ≠ "false".toList := by simp
  have n3 : find_first_of ('-' :: ds) "+-*/()".toList = some 0 := by
    unfold find_first_of
    exact findIdx?_head ds (by decide)
  have hq : isQuoted '-' back = false := by simp [isQuoted]
  have hnum : isNumberToken ('-' :: ds) = true := by
    simp only [isNumberToken, hlen]
    simp
  have hop : isOperandToken vars ('-' :: ds) = true := by
    simp [isOperandToken, hnum]
  have hpost : infixToPostfix vars ['-' :: ds] = ['-' :: ds] := by
    simp [infixToPostfix, infixStep, hop]
  have hmath : evaluate_math_expression vars currentLine ('-' :: ds) =
      match round32 (digitsVal ds : ℚ) with
      | F32.fin r => (Res.ok (F32.fin (-r)), vars)
      | _ => (Res.throw "stof".toList, vars) := by
    simp only [evaluate_math_expression, htok, hpost, evaluatePostfix, evalLoop]
    cases hr : round32 (digitsVal ds : ℚ) <;> rw [hr] at hs <;>
      simp [evalToken, hfree, hnum, hs, evalLoop]
  unfold evaluate_expression
  simp only [ht, hb, List.head?_cons, hq, hfree, n1, n2, n3, hmath]
  cases hr : round32 (digitsVal ds : ℚ) <;> simp

theorem round32_natCast_overflow (n : ℕ) (h : 2 ^ 128 ≤ n) (r : ℚ) :
    round32 (n : ℚ) ≠ F32.fin r := by
  have hq : (2 : ℚ) ^ (128 : ℕ) ≤ (n : ℚ) := by exact_mod_cast h
  have hpos : (0 : ℚ) < n := lt_of_lt_of_le (by positivity) hq
  obtain ⟨_, s2⟩ := ilog2_spec (n : ℚ) hpos
  have he : 128 ≤ ilog2 (n : ℚ) := by
    by_contra hcon
    push_neg at hcon
    have : (2 : ℚ) ^ (ilog2 (n : ℚ) + 1) ≤ 2 ^ (128 : ℤ) :=
      zpow_le_zpow_right₀ (by norm_num) (by omega)
    have h3 : (2 : ℚ) ^ (128 : ℤ) = 2 ^ (128 : ℕ) := by norm_num
    linarith
  have hge := roundTo_ge (n : ℚ) hpos
  have h1 : (2 : ℚ) ^ (128 : ℤ) ≤ 2 ^ ilog2 (n : ℚ) := zpow_le_zpow_right₀ (by norm_num) he
  have h3 : (2 : ℚ) ^ (128 : ℤ) = 2 ^ (128 : ℕ) := by norm_num
  have hmax : max (ilog2 (n : ℚ)) (-126) = ilog2 (n : ℚ) := max_eq_left (by omega)
  have habs : |(n : ℚ)| = n := abs_of_pos hpos
  have hr0 : (0 : ℚ) ≤ roundTo (ilog2 (n : ℚ)) n := by
    have : (0 : ℚ) < 2 ^ ilog2 (n : ℚ) := by positivity
    linarith
  unfold round32
  rw [if_neg (ne_of_gt hpos)]
  simp only [habs, hmax]
  rw [if_pos (by rw [abs_of_nonneg hr0]; linarith)]
  simp

theorem round32_natCast_finite (n : ℕ) (h0 : n ≠ 0) (h : n < 2 ^ 127) :
    ∃ r : ℚ, round32 (n : ℚ) = F32.fin r ∧ |r - n| ≤ n * (2 : ℚ) ^ (-24 : ℤ) := by
  have hn : (1 : ℚ) ≤ n := by exact_mod_cast Nat.one_le_iff_ne_zero.mpr h0
  have hlo : (2 : ℚ) ^ (-126 : ℤ) ≤ n := le_trans (by norm_num) hn
  have hhi : (n : ℚ) < (2 : ℚ) ^ (127 : ℤ) := by
    have : (n : ℚ) < ((2 ^ 127 : ℕ) : ℚ) := by exact_mod_cast h
    have h3 : ((2 ^ 127 : ℕ) : ℚ) = (2 : ℚ) ^ (127 : ℤ) := by norm_num
    linarith
  exact round32_error (n : ℚ) hlo hhi

theorem intCast_of_nonneg (n : ℤ) (h : 0 ≤ n) : (n : ℚ) = ((n.natAbs : ℕ) : ℚ) := by
  have h1 : ((n.natAbs : ℕ) : ℤ) = n := Int.natAbs_of_nonneg h
  calc (n : ℚ) = (((n.natAbs : ℕ) : ℤ) : ℚ) := by rw [h1]
    _ = ((n.natAbs : ℕ) : ℚ) := Int.cast_natCast _

theorem intCast_of_neg (n : ℤ) (h : n < 0) : (n : ℚ) = -((n.natAbs : ℕ) : ℚ) := by
  have h1 : -((n.natAbs : ℕ) : ℤ) = n := by omega
  calc (n : ℚ) = ((-((n.natAbs : ℕ) : ℤ) : ℤ) : ℚ) := by rw [h1]
    _ = -((n.natAbs : ℕ) : ℚ) := by rw [Int.cast_neg, Int.cast_natCast]

/-! ## Declarations on a target: lemmas -/

/-- Where the trimmed expression is not empty the target plays no part. -/
theorem evaluate_expressionOn_of_ne (t : Target) (vars : Store) (currentLine : Int)
    {expr : Str} (h : trim expr ≠ []) :
    evaluate_expressionOn t vars currentLine expr = evaluate_expression vars currentLine expr := by
  obtain ⟨front, rest, hcons⟩ := List.exists_cons_of_ne_nil h
  have hhead : (trim expr).head? = some front := by rw [hcons]; rfl
  have hlast : (trim expr).getLast? = some ((trim expr).getLast h) :=
    List.getLast?_eq_getLast _ h
  unfold evaluate_expressionOn evaluate_expression
  simp only [hhead, hlast, Option.getD_some]

theorem evaluate_expression_of_empty (vars : Store) (currentLine : Int)
    {expr : Str} (h : trim expr = []) :
    evaluate_expression vars currentLine expr = (Res.undefined, vars) := by
  unfold evaluate_expression
  simp only [h, List.head?_nil]

theorem evaluate_expressionOn_store (t : Target) (vars : Store) (currentLine : Int)
    (expr : Str) : (evaluate_expressionOn t vars currentLine expr).2 = vars := by
  by_cases h : trim expr = []
  · unfold evaluate_expressionOn
    simp only [h]
    split_ifs with h1 h2 h3 h4 h5
    · rfl
    · exact Store.index_of_isSome h2
    · rfl
    · rfl
    · simp [find_first_of] at h5
    · rfl
  · rw [evaluate_expressionOn_of_ne t vars currentLine h]
    exact evaluate_expression_store vars currentLine expr

theorem evaluate_expressionOn_ne_undefined (t : Target) (vars : Store) (currentLine : Int)
    (expr : Str) : (evaluate_expressionOn t vars currentLine expr).1 ≠ Res.undefined := by
  have hm := evaluate_math_expression_ne_undefined vars currentLine (trim expr)
  unfold evaluate_expressionOn
  simp only
  split_ifs
  · simp
  · simp
  · simp
  · simp
  · rcases he : evaluate_math_expression vars currentLine (trim expr) with ⟨res, vars1⟩
    rw [he] at hm
    cases res with
    | ok v => simp
    | throw w => simp
    | undefined => exact absurd rfl hm
  · simp

theorem floatToInt_ne_throw (f : F32) (what : Str) : floatToInt f ≠ Res.throw what := by
  unfold floatToInt
  cases f with
  | fin q => simp only; split_ifs <;> simp
  | inf s => simp
  | nan => simp

theorem castToInt_of_ok (t : Target) {f : F32} {i : Int} (h : floatToInt f = Res.ok i) :
    castToInt t f = i := by
  simp [castToInt, h]

/-- The value a declaration stores on a target agrees with the declared type;
the evaluation leaves the store as it was and always returns or throws. -/
theorem coerceValueOn_spec (t : Target) (vars : Store) (currentLine : Int)
    (varType valueStr : Str) :
    (coerceValueOn t vars currentLine varType valueStr).2 = vars ∧
    (coerceValueOn t vars currentLine varType valueStr).1 ≠ Res.undefined ∧
    ∀ value, (coerceValueOn t vars currentLine varType valueStr).1 = Res.ok value →
      Variable.Consistent ⟨value, varType⟩ := by
  have hs := evaluate_expressionOn_store t vars currentLine valueStr
  have hu := evaluate_expressionOn_ne_undefined t vars currentLine valueStr
  unfold coerceValueOn
  rcases he : evaluate_expressionOn t vars currentLine valueStr with ⟨res, vars1⟩
  rw [he] at hs hu
  simp only at hs hu
  subst hs
  split_ifs with h1 h2 h3 h4
  · rcases res with v | w | _
    · cases v <;> simp [Variable.Consistent, h1]
    · simp
    · exact absurd rfl hu
  · rcases res with v | w | _
    · cases v <;> simp [Variable.Consistent, h2]
    · simp
    · exact absurd rfl hu
  · simp [Variable.Consistent, h3]
  · rcases res with v | w | _
    · cases v <;> simp [Variable.Consistent]
      exact h4
    · simp
    · exact absurd rfl hu
  · simp

/-- A declaration on a target either leaves the store as it was or binds the
validated identifier to a value that agrees with the declared type. -/
theorem handle_variable_assignmentOn_store (t : Target) (vars : Store) (currentLine : Int)
    (line : Str) :
    (handle_variable_assignmentOn t vars currentLine line).2 = vars ∨
    ∃ varType identifier valueStr value,
      parseDeclaration currentLine line = Res.ok (varType, identifier, valueStr) ∧
      Variable.Consistent ⟨value, varType⟩ ∧
      (handle_variable_assignmentOn t vars currentLine line).2 =
        vars.assign identifier ⟨value, varType⟩ := by
  unfold handle_variable_assignmentOn
  cases hp : parseDeclaration currentLine line with
  | ok parts =>
    obtain ⟨varType, identifier, valueStr⟩ := parts
    simp only
    obtain ⟨hs, _, hc⟩ := coerceValueOn_spec t vars currentLine varType valueStr
    rcases hcv : coerceValueOn t vars currentLine varType valueStr with ⟨res, vars2⟩
    rw [hcv] at hs hc
    simp only at hs hc
    subst hs
    cases res with
    | ok value =>
      right
      exact ⟨varType, identifier, valueStr, value, rfl, hc value rfl, rfl⟩
    | throw w => left; rfl
    | undefined => left; rfl
  | throw w => left; rfl
  | undefined => left; rfl

/-- On every target a declaration line returns or throws. -/
theorem handle_variable_assignmentOn_ne_undefined (t : Target) (vars : Store)
    (currentLine : Int) (line : Str) :
    (handle_variable_assignmentOn t vars currentLine line).1 ≠ Res.undefined := by
  unfold handle_variable_assignmentOn
  cases hp : parseDeclaration currentLine line with
  | ok parts =>
    obtain ⟨varType, identifier, valueStr⟩ := parts
    simp only
    obtain ⟨_, hu, _⟩ := coerceValueOn_spec t vars currentLine varType valueStr
    rcases hcv : coerceValueOn t vars currentLine varType valueStr with ⟨res, vars2⟩
    rw [hcv] at hu
    cases res with
    | ok value => simp
    | throw w => simp
    | undefined => exact absurd rfl hu
  | throw w => simp
  | undefined =>
    exfalso
    unfold parseDeclaration at hp
    split at hp
    · simp at hp
    · simp only at hp
      split at hp
      · simp at hp
      · split at hp
        · simp at hp
        · split at hp
          · simp at hp
          · split_ifs at hp

theorem coerceValueOn_eq (t : Target) (vars : Store) (currentLine : Int)
    (varType valueStr : Str)
    (h : (coerceValue vars currentLine varType valueStr).1 ≠ Res.undefined) :
    coerceValueOn t vars currentLine varType valueStr =
      coerceValue vars currentLine varType valueStr := by
  unfold coerceValueOn
  unfold coerceValue at h ⊢
  by_cases he : trim valueStr = []
  · rw [evaluate_expression_of_empty vars currentLine he] at h ⊢
    split_ifs at h ⊢ with h1 h2 h3 h4
    · simp at h
    · simp at h
    · rfl
    · simp at h
    · rfl
  · rw [evaluate_expressionOn_of_ne t vars currentLine he]
    rcases hev : evaluate_expression vars currentLine valueStr with ⟨res, vars1⟩
    rw [hev] at h
    split_ifs at h ⊢ with h1 h2 h3 h4
    · rcases res with v | w | _
      · cases v with
        | float f =>
          cases hf : floatToInt f with
          | ok i => simp [hf, castToInt_of_ok t hf]
          | throw w => exact absurd hf (floatToInt_ne_throw f w)
          | undefined => simp [hf] at h
        | _ => rfl
      · rfl
      · rfl
    · rcases res with v | w | _
      · cases v <;> rfl
      · rfl
      · rfl
    · rfl
    · rcases res with v | w | _
      · cases v <;> rfl
      · rfl
      · rfl
    · rfl

/-- Where the standard defines the behaviour of a declaration line, every
target does what `handle_variable_assignment` does. -/
theorem handle_variable_assignmentOn_eq (t : Target) (vars : Store) (currentLine : Int)
    (line : Str) (h : (handle_variable_assignment vars currentLine line).1 ≠ Res.undefined) :
    handle_variable_assignmentOn t vars currentLine line =
      handle_variable_assignment vars currentLine line := by
  unfold handle_variable_assignmentOn
  unfold handle_variable_assignment at h ⊢
  cases hp : parseDeclaration currentLine line with
  | ok parts =>
    obtain ⟨varType, identifier, valueStr⟩ := parts
    rw [hp] at h
    simp only at h ⊢
    have hc : (coerceValue vars currentLine varType valueStr).1 ≠ Res.undefined := by
      intro hcon
      rcases hcv : coerceValue vars currentLine varType valueStr with ⟨res, vars2⟩
      rw [hcv] at h hcon
      simp only at hcon
      subst hcon
      exact h rfl
    rw [coerceValueOn_eq t vars currentLine varType valueStr hc]
  | throw w => rfl
  | undefined => rfl

theorem reachable_invariant {vars : Store} (h : vars.Reachable) :
    (∀ key var, vars.find key = some var → var.Consistent) ∧ vars.KeysAreIdentifiers ∧
    ∀ key, (vars.find key).isSome → trim key = key := by
  induction h with
  | empty =>
    refine ⟨?_, Store.empty_keysAreIdentifiers, ?_⟩
    · intro key var hk
      simp [Store.find, Store.empty] at hk
    · intro key hk
      simp [Store.find, Store.empty] at hk
  | step t vars currentLine line _ ih =>
    obtain ⟨ih1, ih2, ih3⟩ := ih
    rcases handle_variable_assignmentOn_store t vars currentLine line with hst | hst
    · rw [hst]
      exact ⟨ih1, ih2, ih3⟩
    · obtain ⟨varType, identifier, valueStr, value, hp, hcons, hst⟩ := hst
      rw [hst]
      refine ⟨?_, ?_, ?_⟩
      · intro key var hkey
        by_cases hk : key = identifier
        · simp only [Store.find, Store.assign, hk, if_true, Option.some.injEq] at hkey
          rw [← hkey]
          exact hcons
        · apply ih1 key
          simpa [Store.find, Store.assign, hk] using hkey
      · intro key hkey
        by_cases hk : key = identifier
        · rw [hk]
          exact parseDeclaration_identifier hp
        · apply ih2 key
          simpa [Store.assign, hk] using hkey
      · intro key hkey
        by_cases hk : key = identifier
        · rw [hk]
          exact parseDeclaration_identifier_trimmed hp
        · apply ih3 key
          simpa [Store.find, Store.assign, hk] using hkey

/-! ## Claims -/

/-- C1: with `a`, `b`, `c` below 1000 written as decimal numerals, in a store
whose keys are identifiers, `evaluate_math_expression` returns `a + b * c` on
`"a + b * c"` and `(a + b) * c` on `"(a + b) * c"`, and leaves the store as it
was. -/
theorem evaluate_math_expression_precedence (vars : Store) (currentLine : Int) (a b c : ℕ)
    (hvars : vars.KeysAreIdentifiers) (ha : a < 1000) (hb : b < 1000) (hc : c < 1000) :
    evaluate_math_expression vars currentLine
        (decimal a ++ " + ".toList ++ decimal b ++ " * ".toList ++ decimal c) =
      (Res.ok (F32.fin ((a + b * c : ℕ) : ℚ)), vars) ∧
    evaluate_math_expression vars currentLine
        ('(' :: decimal a ++ " + ".toList ++ decimal b ++ ") * ".toList ++ decimal c) =
      (Res.ok (F32.fin (((a + b) * c : ℕ) : ℚ)), vars) := by
  have da := decimal_isDigits a
  have db := decimal_isDigits b
  have dc := decimal_isDigits c
  have va : digitsVal (decimal a) < 2 ^ 24 := by rw [digitsVal_decimal]; omega
  have vb : digitsVal (decimal b) < 2 ^ 24 := by rw [digitsVal_decimal]; omega
  have vc : digitsVal (decimal c) < 2 ^ 24 := by rw [digitsVal_decimal]; omega
  have hbc : b * c < 2 ^ 24 := by nlinarith
  have habc : a + b * c < 2 ^ 24 := by nlinarith
  have hab : a + b < 2 ^ 24 := by omega
  have habc2 : (a + b) * c < 2 ^ 24 := by nlinarith
  obtain ⟨t1, t2⟩ := tokenize_sum_product _ _ _ da db dc
  obtain ⟨p1, p2⟩ := infixToPostfix_sum_product vars _ _ _ da db dc
  have ea := fun values => evalToken_digits hvars currentLine values da va
  have eb := fun values => evalToken_digits hvars currentLine values db vb
  have ec := fun values => evalToken_digits hvars currentLine values dc vc
  have eo := fun x y rest => evalToken_operator hvars currentLine x y rest
  constructor
  · simp only [evaluate_math_expression, t1, p1, evaluatePostfix, evalLoop, ea, eb, ec,
      (eo _ _ _).1, (eo _ _ _).2.2.1, digitsVal_decimal, F32.mul_natCast b c hbc,
      F32.add_natCast a (b * c) habc]
  · simp only [evaluate_math_expression, t2, p2, evaluatePostfix, evalLoop, ea, eb, ec,
      (eo _ _ _).1, (eo _ _ _).2.2.1, digitsVal_decimal, F32.add_natCast a b hab,
      F32.mul_natCast (a + b) c habc2]

theorem evaluate_math_expression_precedence_witness :
    (evaluate_math_expression Store.empty 1 "2 + 3 * 4".toList).1 = Res.ok (F32.fin 14) ∧
    (evaluate_math_expression Store.empty 1 "(2 + 3) * 4".toList).1 = Res.ok (F32.fin 20) := by
  have h := evaluate_math_expression_precedence Store.empty 1 2 3 4
    Store.empty_keysAreIdentifiers (by decide) (by decide) (by decide)
  have e1 : decimal 2 ++ " + ".toList ++ decimal 3 ++ " * ".toList ++ decimal 4 =
    "2 + 3 * 4".toList := by decide
  have e2 : '(' :: decimal 2 ++ " + ".toList ++ decimal 3 ++ ") * ".toList ++ decimal 4 =
    "(2 + 3) * 4".toList := by decide
  rw [e1, e2] at h
  constructor
  · rw [h.1]; norm_num
  · rw [h.2]; norm_num

/-- C2 (amended): for an integer `n` whose decimal literal is not a bound name,
`evaluate_expression` on the literal returns Integer `n` exactly when
`0 ≤ n ≤ 2147483647`.  For every other `n` (negative, where the `-` sends the
literal through the arithmetic rule, or above 2147483647, where `std::stoi`
fails) it returns the Float nearest to `n` when that `float` is finite, and
the Text of the literal itself when it is not, because `std::stof` then throws
`std::out_of_range` and the resolver catches it.  The nearest `float` is `n`
itself when `|n| < 2 ^ 24`, finite and within relative error `2 ^ (-24)` when
`|n| < 2 ^ 127`, and never finite when `|n| ≥ 2 ^ 128`. -/
theorem evaluate_expression_intLiteral (vars : Store) (currentLine : Int) (n : Int)
    (hfree : vars.find (intLiteral n) = none) :
    (0 ≤ n → n ≤ 2147483647 →
      evaluate_expression vars currentLine (intLiteral n) = (Res.ok (VarType.int n), vars)) ∧
    (n < 0 ∨ 2147483647 < n →
      evaluate_expression vars currentLine (intLiteral n) =
        (Res.ok (match round32 (n : ℚ) with
          | F32.fin r => VarType.float (F32.fin r)
          | _ => VarType.string (intLiteral n)), vars)) ∧
    (n.natAbs < 2 ^ 24 → round32 (n : ℚ) = F32.fin n) ∧
    (n ≠ 0 → n.natAbs < 2 ^ 127 →
      ∃ r : ℚ, round32 (n : ℚ) = F32.fin r ∧ |r - n| ≤ |(n : ℚ)| * (2 : ℚ) ^ (-24 : ℤ)) ∧
    (2 ^ 128 ≤ n.natAbs → ∀ r : ℚ, round32 (n : ℚ) ≠ F32.fin r) := by
  have hcases : (0 ≤ n ∧ n = (n.natAbs : ℤ)) ∨ (n < 0 ∧ n = -(n.natAbs : ℤ)) := by omega
  refine ⟨?_, ?_, round32_intCast n, ?_, ?_⟩
  · intro h0 h1
    have hl : intLiteral n = decimal n.toNat := by simp [intLiteral, not_lt.mpr h0]
    rw [hl] at hfree ⊢
    have hv : digitsVal (decimal n.toNat) ≤ 2147483647 := by rw [digitsVal_decimal]; omega
    rw [evaluate_expression_digits vars currentLine _ (decimal_isDigits _) hv hfree,
      digitsVal_decimal]
    have : ((n.toNat : ℕ) : Int) = n := Int.toNat_of_nonneg h0
    rw [this]
  · intro hn
    rcases hcases with ⟨h0, he⟩ | ⟨h0, he⟩
    · have hbig : 2147483647 < n := by omega
      have hl : intLiteral n = decimal n.natAbs := by
        have : n.toNat = n.natAbs := by omega
        simp [intLiteral, not_lt.mpr h0, this]
      rw [hl] at hfree ⊢
      have hv : 2147483647 < digitsVal (decimal n.natAbs) := by rw [digitsVal_decimal]; omega
      rw [evaluate_expression_digits_big vars currentLine _ (decimal_isDigits _) hv hfree,
        digitsVal_decimal]
      have hq : (n : ℚ) = ((n.natAbs : ℕ) : ℚ) := intCast_of_nonneg n h0
      rw [hq]
    · have hl : intLiteral n = '-' :: decimal n.natAbs := by simp [intLiteral, h0]
      rw [hl] at hfree ⊢
      rw [evaluate_expression_minus_digits_any vars currentLine _ (decimal_isDigits _) hfree,
        digitsVal_decimal]
      have hq : round32 (n : ℚ) = F32.neg (round32 ((n.natAbs : ℕ) : ℚ)) := by
        rw [intCast_of_neg n h0, round32_neg]
      rw [hq]
      cases hr : round32 ((n.natAbs : ℕ) : ℚ) <;> simp [F32.neg]
  · intro hn0 hlt
    have hm0 : n.natAbs ≠ 0 := by omega
    obtain ⟨r, hr, hb⟩ := round32_natCast_finite n.natAbs hm0 hlt
    have habs : |(n : ℚ)| = ((n.natAbs : ℕ) : ℚ) := by
      rw [← Int.cast_abs, Int.abs_eq_natAbs, Int.cast_natCast]
    rcases hcases with ⟨h0, he⟩ | ⟨h0, he⟩
    · have hq : (n : ℚ) = ((n.natAbs : ℕ) : ℚ) := intCast_of_nonneg n h0
      refine ⟨r, by rw [hq]; exact hr, ?_⟩
      rw [habs, hq]
      exact hb
    · have hq : (n : ℚ) = -((n.natAbs : ℕ) : ℚ) := intCast_of_neg n h0
      refine ⟨-r, ?_, ?_⟩
      · rw [hq, round32_neg, hr]
        rfl
      · rw [habs, hq]
        have : -r - -((n.natAbs : ℕ) : ℚ) = -(r - ((n.natAbs : ℕ) : ℚ)) := by ring
        rw [this, abs_neg]
        exact hb
  · intro hbig r
    rcases hcases with ⟨h0, he⟩ | ⟨h0, he⟩
    · have hq : (n : ℚ) = ((n.natAbs : ℕ) : ℚ) := intCast_of_nonneg n h0
      rw [hq]
      exact round32_natCast_overflow _ hbig r
    · have hq : (n : ℚ) = -((n.natAbs : ℕ) : ℚ) := intCast_of_neg n h0
      rw [hq, round32_neg]
      intro hcon
      cases hr : round32 ((n.natAbs : ℕ) : ℚ) with
      | fin r1 => exact round32_natCast_overflow _ hbig r1 hr
      | inf s => rw [hr] at hcon; simp [F32.neg] at hcon
      | nan => rw [hr] at hcon; simp [F32.neg] at hcon

theorem evaluate_expression_intLiteral_witness :
    evaluate_expression Store.empty 1 (intLiteral 42) = (Res.ok (VarType.int 42), Store.empty) ∧
    evaluate_expression Store.empty 1 (intLiteral (-7)) =
      (Res.ok (VarType.float (F32.fin (-7))), Store.empty) ∧
    evaluate_expression Store.empty 1 (intLiteral (-16777217)) =
      (Res.ok (VarType.float (F32.fin (-16777216))), Store.empty) ∧
    evaluate_expression Store.empty 1 (intLiteral 3000000000) =
      (Res.ok (VarType.float (F32.fin 3000000000)), Store.empty) ∧
    evaluate_expression Store.empty 1 (intLiteral (10 ^ 40)) =
      (Res.ok (VarType.string (intLiteral (10 ^ 40))), Store.empty) ∧
    evaluate_expression Store.empty 1 (intLiteral (-(10 ^ 40))) =
      (Res.ok (VarType.string (intLiteral (-(10 ^ 40)))), Store.empty) :=
  ⟨(evaluate_expression_intLiteral Store.empty 1 42 rfl).1 (by decide) (by decide),
   ((evaluate_expression_intLiteral Store.empty 1 (-7) rfl).2.1 (Or.inl (by decide))).trans
     (by rw [show round32 ((-7 : ℤ) : ℚ) = F32.fin (-7) by decide!]),
   ((evaluate_expression_intLiteral Store.empty 1 (-16777217) rfl).2.1
     (Or.inl (by decide))).trans
     (by rw [show round32 ((-16777217 : ℤ) : ℚ) = F32.fin (-16777216) by decide!]),
   ((evaluate_expression_intLiteral Store.empty 1 3000000000 rfl).2.1
     (Or.inr (by decide))).trans
     (by rw [show round32 ((3000000000 : ℤ) : ℚ) = F32.fin 3000000000 by decide!]),
   ((evaluate_expression_intLiteral Store.empty 1 (10 ^ 40) rfl).2.1
     (Or.inr (by decide))).trans
     (by rw [show round32 (((10 : ℤ) ^ 40 : ℤ) : ℚ) = F32.inf false by decide!]),
   ((evaluate_expression_intLiteral Store.empty 1 (-(10 ^ 40)) rfl).2.1
     (Or.inl (by decide))).trans
     (by rw [show round32 ((-((10 : ℤ) ^ 40) : ℤ) : ℚ) = F32.inf true by decide!])⟩

theorem evaluate_expression_intLiteral_counterexample :
    intLiteral (-5) = "-5".toList ∧
    Store.empty.find (intLiteral (-5)) = none ∧
    (evaluate_expression Store.empty 1 (intLiteral (-5))).1 =
      Res.ok (VarType.float (F32.fin (-5))) ∧
    (evaluate_expression Store.empty 1 (intLiteral (-5))).1 ≠ Res.ok (VarType.int (-5)) ∧
    (evaluate_expression Store.empty 1 (intLiteral 2147483648)).1 =
      Res.ok (VarType.float (F32.fin 2147483648)) := by
  decide!

/-- C3: when the trimmed expression is not quoted, not a bound name, not
`true`/`false`, contains one of `+ - * / ( )`, and the pipeline
`evaluate_math_expression` does not return a value on it, then
`evaluate_expression` raises nothing and returns the Text variant equal to
the trimmed expression. -/
theorem evaluate_expression_fallback (vars : Store) (currentLine : Int) (expr : Str)
    (hq : startsAndEndsQuoted (trim expr) = false)
    (hfree : vars.find (trim expr) = none)
    (ht : trim expr ≠ "true".toList) (hfl : trim expr ≠ "false".toList)
    (hop : ∃ c ∈ trim expr, c ∈ "+-*/()".toList)
    (hfail : (evaluate_math_expression vars currentLine (trim expr)).1.isOk = false) :
    (evaluate_expression vars currentLine expr).1 = Res.ok (VarType.string (trim expr)) :=
  evaluate_expression_of_math_fails vars currentLine expr hq hfree ht hfl hop hfail

theorem evaluate_expression_fallback_witness :
    (evaluate_math_expression Store.empty 7 "10 / 0".toList).1 =
      Res.throw "Division by zero at line 7".toList ∧
    (evaluate_expression Store.empty 7 " 10 / 0 ".toList).1 =
      Res.ok (VarType.string "10 / 0".toList) :=
  ⟨by decide!,
   evaluate_expression_fallback Store.empty 7 " 10 / 0 ".toList (by decide!) (by decide!)
    (by decide!) (by decide!) (by decide!) (by decide!)⟩

/-- C4 (amended): in a store whose keys are identifiers, when the trimmed
expression reaches rule 4 (not quoted, not a bound name, not `true`/`false`,
contains one of `+ - * / ( )`), its tokens hold an identifier that is not
bound, and they hold at most one more operand (number or identifier) than
operators, as every well-formed infix expression does, then
`evaluate_expression` returns the Text variant equal to the trimmed
expression: `infixToPostfix` drops the unbound identifier and the evaluator is
left short of an operand. -/
theorem evaluate_expression_unbound_identifier (vars : Store) (currentLine : Int) (expr : Str)
    (hvars : vars.KeysAreIdentifiers)
    (hq : startsAndEndsQuoted (trim expr) = false)
    (hfree : vars.find (trim expr) = none)
    (ht : trim expr ≠ "true".toList) (hfl : trim expr ≠ "false".toList)
    (hop : ∃ c ∈ trim expr, c ∈ "+-*/()".toList)
    (hid : ∃ token ∈ tokenize (trim expr),
      isIdentifierToken token = true ∧ vars.find token = none)
    (hshape : (tokenize (trim expr)).countP isOperandShaped ≤
      (tokenize (trim expr)).countP isOperator + 1) :
    (evaluate_expression vars currentLine expr).1 = Res.ok (VarType.string (trim expr)) :=
  evaluate_expression_of_math_fails vars currentLine expr hq hfree ht hfl hop
    (evaluate_math_expression_short_of_operands hvars currentLine (trim expr) hid hshape)

theorem evaluate_expression_unbound_identifier_witness :
    (evaluate_expression Store.empty 1 "y + 1".toList).1 =
      Res.ok (VarType.string "y + 1".toList) :=
  evaluate_expression_unbound_identifier Store.empty 1 "y + 1".toList
    Store.empty_keysAreIdentifiers (by decide!) (by decide!) (by decide!) (by decide!)
    ⟨'+', by decide!, by decide!⟩ ⟨"y".toList, by decide!, by decide!, by decide!⟩ (by decide!)

theorem evaluate_expression_unbound_identifier_counterexample :
    tokenize "y(1)".toList = ["y".toList, "(".toList, "1".toList, ")".toList] ∧
    isIdentifierToken "y".toList = true ∧
    Store.empty.find "y".toList = none ∧
    (evaluate_expression Store.empty 1 "y(1)".toList).1 = Res.ok (VarType.float (F32.fin 1)) ∧
    (evaluate_expression Store.empty 1 "y(1)".toList).1 ≠
      Res.ok (VarType.string "y(1)".toList) ∧
    (evaluate_expression Store.empty 1 "1 + 2 y".toList).1 =
      Res.ok (VarType.float (F32.fin 3)) := by
  decide!

/-- C5 (the code departs from it): for non-empty digit strings `a` and `b`,
`tokenize` returns the single token `a-b` on `a ++ "-" ++ b`, because the `-`
is taken into the pending token while `tokens` is still empty, and the three
tokens `a`, `-`, `b` on `a ++ " - " ++ b`. -/
theorem tokenize_minus_glued (a b : Str) (ha : IsDigits a) (hb : IsDigits b) :
    tokenize (a ++ '-' :: b) = [a ++ '-' :: b] ∧
      tokenize (a ++ " - ".toList ++ b) = [a, ['-'], b] := by
  obtain ⟨ha0, ha⟩ := ha
  obtain ⟨hb0, hb⟩ := hb
  constructor
  · simp [tokenize, List.foldl_append, foldl_tokenizeStep_digits a ha,
      foldl_tokenizeStep_digits b hb, tokenizeStep, minusContext, isspace, isdigit, ha0, hb0]
  · have h1 : a ≠ ['('] := digits_ne_singleton ha (by decide)
    have h2 : a ≠ ['+'] := digits_ne_singleton ha (by decide)
    have h3 : a ≠ ['-'] := digits_ne_singleton ha (by decide)
    have h4 : a ≠ ['*'] := digits_ne_singleton ha (by decide)
    have h5 : a ≠ ['/'] := digits_ne_singleton ha (by decide)
    simp [tokenize, List.foldl_append, foldl_tokenizeStep_digits a ha,
      foldl_tokenizeStep_digits b hb, tokenizeStep, minusContext, isspace, isdigit, ha0, hb0,
      h1, h2, h3, h4, h5]

theorem tokenize_minus_glued_witness :
    tokenize "5-3".toList = ["5-3".toList] ∧
      tokenize "5 - 3".toList = ["5".toList, "-".toList, "3".toList] :=
  tokenize_minus_glued "5".toList "3".toList (by decide) (by decide)

/-- C6: for non-empty digit strings `a` and `b`, `tokenize` takes a unary
minus into the Number token: `"-a + b"` gives `-a`, `+`, `b`; `"(-a)"` gives
`(`, `-a`, `)`; and `"b op -a"` gives `b`, `op`, `-a` for each operator. -/
theorem tokenize_unary_minus (a b : Str) (ha : IsDigits a) (hb : IsDigits b) :
    tokenize ('-' :: a ++ " + ".toList ++ b) = ['-' :: a, ['+'], b] ∧
    tokenize ('(' :: '-' :: a ++ [')']) = [['('], '-' :: a, [')']] ∧
    ∀ op : Char, op = '+' ∨ op = '-' ∨ op = '*' ∨ op = '/' →
      tokenize (b ++ ' ' :: op :: ' ' :: '-' :: a) = [b, [op], '-' :: a] := by
  obtain ⟨ha0, ha⟩ := ha
  obtain ⟨hb0, hb⟩ := hb
  have h1 : b ≠ ['('] := digits_ne_singleton hb (by decide)
  have h2 : b ≠ ['+'] := digits_ne_singleton hb (by decide)
  have h3 : b ≠ ['-'] := digits_ne_singleton hb (by decide)
  have h4 : b ≠ ['*'] := digits_ne_singleton hb (by decide)
  have h5 : b ≠ ['/'] := digits_ne_singleton hb (by decide)
  refine ⟨?_, ?_, ?_⟩
  · simp [tokenize, List.foldl_append, foldl_tokenizeStep_digits a ha,
      foldl_tokenizeStep_digits b hb, tokenizeStep, minusContext, isspace, isdigit, ha0, hb0]
  · simp [tokenize, List.foldl_append, foldl_tokenizeStep_digits a ha,
      tokenizeStep, minusContext, isspace, isdigit, ha0]
  · intro op hop
    rcases hop with h | h | h | h <;> subst h <;>
    simp [tokenize, List.foldl_append, foldl_tokenizeStep_digits a ha,
      foldl_tokenizeStep_digits b hb, tokenizeStep, minusContext, isspace, isdigit, ha0, hb0,
      h1, h2, h3, h4, h5]

theorem tokenize_unary_minus_witness :
    tokenize "-5 + 3".toList = ["-5".toList, "+".toList, "3".toList] :=
  (tokenize_unary_minus "5".toList "3".toList (by decide) (by decide)).1

/-- C7 (amended): in a store whose keys are identifiers, when the evaluation of
a postfix sequence reaches a `/` with at least two values on the stack and the
top one equal to zero, `evaluatePostfix` throws "Division by zero at line N"
for the current line `N` and returns no value; in particular
`evaluate_math_expression` on `"a / 0"` does so for every number literal `a`
that starts with a digit and that `std::stof` converts. -/
theorem evaluatePostfix_division_by_zero (vars : Store) (currentLine : Int)
    (hvars : vars.KeysAreIdentifiers) :
    (∀ (pre post : List Str) (b a : F32) (rest : List F32) (vars1 : Store),
      evalLoop currentLine vars [] pre = (Res.ok (b :: a :: rest), vars1) → b.isZero = true →
      evaluatePostfix vars currentLine (pre ++ ['/'] :: post) =
        (Res.throw ("Division by zero at line ".toList ++ to_string currentLine), vars)) ∧
    (∀ (a : Str) (v : F32) (n : ℕ), IsNumberLiteral a → stof a = Res.ok (v, n) →
      evaluate_math_expression vars currentLine (a ++ " / 0".toList) =
        (Res.throw ("Division by zero at line ".toList ++ to_string currentLine), vars)) :=
  ⟨fun pre post b a rest vars1 h hb =>
      evaluatePostfix_reaches_zero_divisor hvars currentLine pre post b a rest vars1 h hb,
    fun a v n ha hs => evaluate_math_expression_quotient_zero hvars currentLine a v n ha hs⟩

theorem evaluatePostfix_division_by_zero_witness :
    evaluatePostfix Store.empty 3 ["4".toList, "2".toList, "-".toList, "0".toList, "/".toList] =
      (Res.throw ("Division by zero at line ".toList ++ to_string 3), Store.empty) ∧
    evaluate_math_expression Store.empty 3 ("1.5".toList ++ " / 0".toList) =
      (Res.throw ("Division by zero at line ".toList ++ to_string 3), Store.empty) :=
  ⟨(evaluatePostfix_division_by_zero Store.empty 3 Store.empty_keysAreIdentifiers).1
      ["4".toList, "2".toList, "-".toList, "0".toList] [] (F32.fin 0) (F32.fin 2) []
      Store.empty (Prod.ext (by decide!) (evalLoop_store 3 Store.empty [] _)) (by decide!),
   (evaluatePostfix_division_by_zero Store.empty 3 Store.empty_keysAreIdentifiers).2
      "1.5".toList (F32.fin (3 / 2)) 3 (by decide) (by decide!)⟩

theorem evaluatePostfix_division_by_zero_counterexample :
    IsNumberLiteral "1000000000000000000000000000000000000000".toList ∧
    (evaluate_math_expression Store.empty 3
      "1000000000000000000000000000000000000000 / 0".toList).1 = Res.throw "stof".toList ∧
    (evaluate_math_expression Store.empty 3 ".5 / 0".toList).1 =
      Res.throw "Invalid expression".toList := by
  decide!

/-- C8 (amended): for a declaration with declared type `int` whose value text
resolves to a finite Float `q` whose truncation toward zero is an `int`
(between -2147483648 and 2147483647), `handle_variable_assignment` succeeds
and stores the Integer `truncQ q` under the declared type "int", where
`truncQ q` is `q` truncated toward zero: no larger than `q` in magnitude and
less than 1 away from it. -/
theorem handle_variable_assignment_int_truncates (vars : Store) (currentLine : Int)
    (line identifier valueStr : Str) (q : ℚ)
    (hparse : parseDeclaration currentLine line = Res.ok ("int".toList, identifier, valueStr))
    (hres : (evaluate_expression vars currentLine valueStr).1 = Res.ok (VarType.float (F32.fin q)))
    (hrange : -2147483648 ≤ truncQ q ∧ truncQ q ≤ 2147483647) :
    handle_variable_assignment vars currentLine line =
      (Res.ok (), vars.assign identifier ⟨VarType.int (truncQ q), "int".toList⟩) ∧
    |(truncQ q : ℚ)| ≤ |q| ∧ |q - truncQ q| < 1 := by
  refine ⟨?_, truncQ_toward_zero q⟩
  unfold handle_variable_assignment
  rw [hparse]
  simp only [coerceValue_int_of_float vars currentLine valueStr q hres hrange]

theorem handle_variable_assignment_int_truncates_witness :
    handle_variable_assignment Store.empty 1 "let int x = 7.9".toList =
      (Res.ok (), Store.empty.assign "x".toList ⟨VarType.int 7, "int".toList⟩) := by
  have h := (handle_variable_assignment_int_truncates Store.empty 1 "let int x = 7.9".toList
    "x".toList "7.9".toList (16567501 / 2097152) (by decide!) (by decide!) (by decide!)).1
  have e : truncQ (16567501 / 2097152) = 7 := by decide!
  rw [e] at h
  exact h

theorem handle_variable_assignment_int_truncates_counterexample :
    parseDeclaration 1 "let int x = 3000000000".toList =
      Res.ok ("int".toList, "x".toList, "3000000000".toList) ∧
    (evaluate_expression Store.empty 1 "3000000000".toList).1 =
      Res.ok (VarType.float (F32.fin 3000000000)) ∧
    (handle_variable_assignment Store.empty 1 "let int x = 3000000000".toList).1 =
      Res.undefined ∧
    (handle_variable_assignment Store.empty 1 "let int x = 3000000000".toList).2 "x".toList =
      none ∧
    (evaluate_expression Store.empty 1 "nan".toList).1 = Res.ok (VarType.float F32.nan) ∧
    (handle_variable_assignment Store.empty 1 "let int x = nan".toList).1 = Res.undefined := by
  decide!

/-- C9: for a declaration with declared type `bool` or `boolean` whose value
text resolves to a value that is not a Boolean, `handle_variable_assignment`
throws "Error assigning variable 'id': Cannot convert to boolean" and leaves
the variable store exactly as it was. -/
theorem handle_variable_assignment_bool_mismatch (vars : Store) (currentLine : Int)
    (line varType identifier valueStr : Str) (v : VarType)
    (hparse : parseDeclaration currentLine line = Res.ok (varType, identifier, valueStr))
    (hty : varType = "bool".toList ∨ varType = "boolean".toList)
    (hres : (evaluate_expression vars currentLine valueStr).1 = Res.ok v)
    (hv : ∀ b, v ≠ VarType.bool b) :
    handle_variable_assignment vars currentLine line =
      (Res.throw ("Error assigning variable '".toList ++ identifier ++ "': ".toList ++
        "Cannot convert to boolean".toList), vars) := by
  have h := evaluate_expression_store vars currentLine valueStr
  rcases he : evaluate_expression vars currentLine valueStr with ⟨res, vars1⟩
  rw [he] at h hres
  simp only at h hres
  rw [h] at he
  subst hres
  have hc : coerceValue vars currentLine varType valueStr =
      (Res.throw "Cannot convert to boolean".toList, vars) := by
    unfold coerceValue
    have n1 : varType ≠ "int".toList := by rcases hty with h | h <;> rw [h] <;> decide
    have n2 : varType ≠ "float".toList := by rcases hty with h | h <;> rw [h] <;> decide
    have n3 : varType ≠ "string".toList := by rcases hty with h | h <;> rw [h] <;> decide
    rw [if_neg n1, if_neg n2, if_neg n3, if_pos hty, he]
    cases v with
    | bool b => exact absurd rfl (hv b)
    | _ => rfl
  unfold handle_variable_assignment
  rw [hparse]
  simp only [hc]

theorem handle_variable_assignment_bool_mismatch_witness :
    handle_variable_assignment Store.empty 1 "let bool b = 5".toList =
      (Res.throw ("Error assigning variable '".toList ++ "b".toList ++ "': ".toList ++
        "Cannot convert to boolean".toList), Store.empty) :=
  handle_variable_assignment_bool_mismatch Store.empty 1 "let bool b = 5".toList "bool".toList
    "b".toList "5".toList (VarType.int 5) (by decide!) (Or.inl rfl) (by decide!)
    (fun b => by simp)

/-- C10: when `handle_variable_assignment` succeeds on a line, the line parses
into a declared type `T`, an identifier `id` and a value text that converts to
a value `v`; the store afterwards maps `id` to exactly `(v, T)`, whatever it
held before, and every other key is mapped as before. -/
theorem handle_variable_assignment_replaces (vars vars1 : Store) (currentLine : Int) (line : Str)
    (h : handle_variable_assignment vars currentLine line = (Res.ok (), vars1)) :
    ∃ varType identifier valueStr value,
      parseDeclaration currentLine line = Res.ok (varType, identifier, valueStr) ∧
      (coerceValue vars currentLine varType valueStr).1 = Res.ok value ∧
      vars1.find identifier = some ⟨value, varType⟩ ∧
      ∀ key, key ≠ identifier → vars1.find key = vars.find key := by
  unfold handle_variable_assignment at h
  cases hp : parseDeclaration currentLine line with
  | ok parts =>
    obtain ⟨varType, identifier, valueStr⟩ := parts
    rw [hp] at h
    simp only at h
    have hs := coerceValue_store vars currentLine varType valueStr
    rcases hc : coerceValue vars currentLine varType valueStr with ⟨res, vars2⟩
    rw [hc] at h hs
    simp only at hs
    rw [hs] at h
    cases res with
    | ok value =>
      simp only [Prod.mk.injEq, true_and] at h
      subst h
      refine ⟨varType, identifier, valueStr, value, rfl, by rw [hc], ?_, ?_⟩
      · simp [Store.find, Store.assign]
      · intro key hk
        simp [Store.find, Store.assign, hk]
    | throw w => simp at h
    | undefined => simp at h
  | throw w => rw [hp] at h; simp at h
  | undefined => rw [hp] at h; simp at h

theorem handle_variable_assignment_replaces_witness :
    ∃ varType identifier valueStr value,
      parseDeclaration 2 "var string x = 'hi'".toList = Res.ok (varType, identifier, valueStr) ∧
      (coerceValue (Store.empty.assign "x".toList ⟨VarType.int 1, "int".toList⟩) 2 varType
        valueStr).1 = Res.ok value ∧
      (handle_variable_assignment (Store.empty.assign "x".toList ⟨VarType.int 1, "int".toList⟩) 2
        "var string x = 'hi'".toList).2.find identifier = some ⟨value, varType⟩ ∧
      ∀ key, key ≠ identifier →
        (handle_variable_assignment (Store.empty.assign "x".toList ⟨VarType.int 1, "int".toList⟩)
          2 "var string x = 'hi'".toList).2.find key =
        (Store.empty.assign "x".toList ⟨VarType.int 1, "int".toList⟩).find key :=
  handle_variable_assignment_replaces _ _ 2 "var string x = 'hi'".toList
    (Prod.ext (by decide!) rfl)

/-- C11: every store reached from the empty store by any sequence of
declaration lines, each succeeding or failing, maps each of its keys to a
variable whose value variant agrees with its declared type ("int" with
Integer, "float" with Float, "string" with Text, "bool" or "boolean" with
Boolean) and is never the empty `monostate`, and each key is non-empty and
starts with a letter.  Lines on which the C++ standard leaves the behaviour
undefined are included: whatever `int` the out-of-range cast of line 346
yields and whatever characters `front()` and `back()` read from an empty value
text, the write of line 372 stores an Integer under "int" or does not happen. -/
theorem store_invariant (vars : Store) (h : vars.Reachable) (key : Str) (var : Variable)
    (hkey : vars.find key = some var) :
    var.Consistent ∧ var.value ≠ VarType.monostate ∧
      ∃ c rest, key = c :: rest ∧ isalpha c = true := by
  obtain ⟨h1, h2, _⟩ := reachable_invariant h
  have hc := h1 key var hkey
  refine ⟨hc, ?_, h2 key (by simp [Store.find] at hkey; simp [hkey])⟩
  intro hm
  simp [Variable.Consistent, hm] at hc

theorem store_invariant_witness :
    (handle_variable_assignment Store.empty 1 "let int x = 3000000000".toList).1 =
      Res.undefined ∧
    (handle_variable_assignment Store.empty 2 "let float y =".toList).1 = Res.undefined ∧
    (handle_variable_assignmentOn ⟨fun _ => -2147483648, 'a', 'b'⟩
      (handle_variable_assignmentOn ⟨fun _ => -2147483648, 'a', 'b'⟩ Store.empty 1
        "let int x = 3000000000".toList).2 2 "let float y =".toList).2.find "x".toList =
      some ⟨VarType.int (-2147483648), "int".toList⟩ ∧
    (⟨VarType.int (-2147483648), "int".toList⟩ : Variable).Consistent ∧
    VarType.int (-2147483648) ≠ VarType.monostate ∧
    ∃ c rest, "x".toList = c :: rest ∧ isalpha c = true :=
  ⟨by decide!, by decide!, by decide!,
    store_invariant _
      (Store.Reachable.step ⟨fun _ => -2147483648, 'a', 'b'⟩ _ 2 "let float y =".toList
        (Store.Reachable.step ⟨fun _ => -2147483648, 'a', 'b'⟩ Store.empty 1
          "let int x = 3000000000".toList Store.Reachable.empty))
      "x".toList ⟨VarType.int (-2147483648), "int".toList⟩ (by decide!)⟩

/-- C12: for a declaration with declared type `string` and any value text `t`,
`handle_variable_assignment` succeeds and stores the Text `removeQuotes t`
under the declared type "string"; `evaluate_expression` is not consulted, so
the store, bound names, `true`/`false`, numbers and arithmetic in `t` play no
part. -/
theorem handle_variable_assignment_string (vars : Store) (currentLine : Int)
    (line identifier valueStr : Str)
    (hparse : parseDeclaration currentLine line =
      Res.ok ("string".toList, identifier, valueStr)) :
    handle_variable_assignment vars currentLine line =
      (Res.ok (), vars.assign identifier
        ⟨VarType.string (removeQuotes valueStr), "string".toList⟩) := by
  have hc : coerceValue vars currentLine "string".toList valueStr =
      (Res.ok (VarType.string (removeQuotes valueStr)), vars) := by
    unfold coerceValue
    rw [if_neg (by decide), if_neg (by decide), if_pos rfl]
  unfold handle_variable_assignment
  rw [hparse]
  simp only [hc]

theorem handle_variable_assignment_string_witness :
    handle_variable_assignment (Store.empty.assign "x".toList ⟨VarType.int 4, "int".toList⟩) 1
        "let string s = 1+2".toList =
      (Res.ok (), (Store.empty.assign "x".toList ⟨VarType.int 4, "int".toList⟩).assign
        "s".toList ⟨VarType.string (removeQuotes "1+2".toList), "string".toList⟩) ∧
    removeQuotes "1+2".toList = "1+2".toList ∧
    removeQuotes "x".toList = "x".toList ∧
    removeQuotes "true".toList = "true".toList ∧
    removeQuotes " 'a b' ".toList = "a b".toList :=
  ⟨handle_variable_assignment_string _ 1 "let string s = 1+2".toList "s".toList "1+2".toList
    (by decide!), by decide, by decide, by decide, by decide⟩

/-- C13: for a name bound in the store that is a trimmed, non-empty string
(as every name a declaration binds is) and does not start and end with a
matching quote, `evaluate_expression` on the name, with any run of the
characters `trim` strips before and after it, returns exactly the stored
Value of the variable; this comes before the rules for `true`/`false`,
arithmetic and numbers, whatever the name looks like. -/
theorem evaluate_expression_bound_name (vars : Store) (currentLine : Int)
    (name pre post : Str) (var : Variable)
    (hbound : vars.find name = some var) (hne : name ≠ []) (htrim : trim name = name)
    (hq : startsAndEndsQuoted name = false)
    (hpre : ∀ c ∈ pre, isTrimSpace c = true) (hpost : ∀ c ∈ post, isTrimSpace c = true) :
    evaluate_expression vars currentLine (pre ++ name ++ post) = (Res.ok var.value, vars) := by
  have hne' : trim name ≠ [] := by rw [htrim]; exact hne
  obtain ⟨h1, h2⟩ := trim_head_last name hne'
  have e : trim (pre ++ name ++ post) = name := by
    have := trim_surrounded pre (trim name) post hpre hpost hne' h1 h2
    rwa [htrim] at this
  exact evaluate_expression_of_bound currentLine (by rw [e]; exact hbound) (by rw [e]; exact hne)
    (by rw [e]; exact hq)

theorem evaluate_expression_bound_name_witness :
    evaluate_expression
        ((Store.empty.assign "true".toList ⟨VarType.int 5, "int".toList⟩).assign "a-b".toList
          ⟨VarType.string "x".toList, "string".toList⟩) 1 (" \t".toList ++ "true".toList ++ " ".toList) =
      (Res.ok (VarType.int 5),
        (Store.empty.assign "true".toList ⟨VarType.int 5, "int".toList⟩).assign "a-b".toList
          ⟨VarType.string "x".toList, "string".toList⟩) ∧
    evaluate_expression
        ((Store.empty.assign "true".toList ⟨VarType.int 5, "int".toList⟩).assign "a-b".toList
          ⟨VarType.string "x".toList, "string".toList⟩) 1 ([] ++ "a-b".toList ++ []) =
      (Res.ok (VarType.string "x".toList),
        (Store.empty.assign "true".toList ⟨VarType.int 5, "int".toList⟩).assign "a-b".toList
          ⟨VarType.string "x".toList, "string".toList⟩) :=
  ⟨evaluate_expression_bound_name _ 1 "true".toList " \t".toList " ".toList
      ⟨VarType.int 5, "int".toList⟩ (by decide!) (by decide) (by decide!) (by decide!)
      (by decide) (by decide),
   evaluate_expression_bound_name _ 1 "a-b".toList [] [] ⟨VarType.string "x".toList, "string".toList⟩
      (by decide!) (by decide) (by decide!) (by decide!) (by decide) (by decide)⟩

/-- C14 (amended): for an expression of at least two characters that starts
and ends with the same quote character (`"` or `'`), `evaluate_expression`
returns the Text variant equal to the expression without its first and last
characters, whatever the store holds and whatever the interior looks like.
(A lone quote character passes the test of lines 203-204 but `removeQuotes`
strips nothing from a string shorter than two characters.) -/
theorem evaluate_expression_quoted (vars : Store) (currentLine : Int) (expr : Str) (q : Char)
    (hq : q = '"' ∨ q = '\'') (hhead : expr.head? = some q) (hlast : expr.getLast? = some q)
    (hlen : 2 ≤ expr.length) :
    evaluate_expression vars currentLine expr =
      (Res.ok (VarType.string expr.tail.dropLast), vars) := by
  have hws : " \t\r\n".toList.contains q = false := by
    rcases hq with h | h <;> subst h <;> decide
  have ht : trim expr = expr := trim_eq_self hhead hlast hws hws
  have hqq : isQuoted q q = true := by
    rcases hq with h | h <;> subst h <;> decide
  have hrq : removeQuotes expr = expr.tail.dropLast := by
    unfold removeQuotes
    simp only [ht, hhead, hlast, Option.some.injEq]
    rw [if_pos ⟨hlen, by rcases hq with h | h <;> simp [h]⟩, substr_inner]
  unfold evaluate_expression
  simp only [ht, hhead, hlast, hqq, if_true, hrq]

theorem evaluate_expression_quoted_witness :
    evaluate_expression (Store.empty.assign "x".toList ⟨VarType.int 4, "int".toList⟩) 1
        "'x'".toList =
      (Res.ok (VarType.string "'x'".toList.tail.dropLast),
        Store.empty.assign "x".toList ⟨VarType.int 4, "int".toList⟩) ∧
    "'x'".toList.tail.dropLast = "x".toList ∧
    "\"1+2\"".toList.tail.dropLast = "1+2".toList :=
  ⟨evaluate_expression_quoted _ 1 "'x'".toList '\'' (Or.inr rfl) (by decide) (by decide)
    (by decide), by decide, by decide⟩

theorem evaluate_expression_quoted_counterexample :
    trim "\"".toList = "\"".toList ∧
    "\"".toList.head? = some '"' ∧ "\"".toList.getLast? = some '"' ∧
    "\"".toList.tail.dropLast = [] ∧
    (evaluate_expression Store.empty 1 "\"".toList).1 = Res.ok (VarType.string "\"".toList) ∧
    (evaluate_expression Store.empty 1 "\"".toList).1 ≠ Res.ok (VarType.string []) := by
  decide!

/-- C17: for natural numbers `a` and `b` below 1000 written as decimal
numerals, in a store whose keys are identifiers, `evaluatePostfix` returns
`a - b` on `[a, b, "-"]` and, when `b` is not zero, the `float` nearest to
`a / b` (within relative error `2 ^ (-24)`) on `[a, b, "/"]`: the value pushed
first is the left operand. -/
theorem evaluatePostfix_operand_order (vars : Store) (currentLine : Int) (a b : ℕ)
    (hvars : vars.KeysAreIdentifiers) (ha : a < 1000) (hb : b < 1000) :
    evaluatePostfix vars currentLine [decimal a, decimal b, ['-']] =
      (Res.ok (F32.fin ((a : ℚ) - b)), vars) ∧
    (b ≠ 0 →
      evaluatePostfix vars currentLine [decimal a, decimal b, ['/']] =
        (Res.ok (round32 ((a : ℚ) / b)), vars) ∧
      ∃ r : ℚ, round32 ((a : ℚ) / b) = F32.fin r ∧
        |r - (a : ℚ) / b| ≤ (a : ℚ) / b * (2 : ℚ) ^ (-24 : ℤ)) := by
  have da := decimal_isDigits a
  have db := decimal_isDigits b
  have va : digitsVal (decimal a) < 2 ^ 24 := by rw [digitsVal_decimal]; omega
  have vb : digitsVal (decimal b) < 2 ^ 24 := by rw [digitsVal_decimal]; omega
  have ea := fun values => evalToken_digits hvars currentLine values da va
  have eb := fun values => evalToken_digits hvars currentLine values db vb
  have eo := fun x y rest => evalToken_operator hvars currentLine x y rest
  constructor
  · simp only [evaluatePostfix, evalLoop, ea, eb, (eo _ _ _).2.1, digitsVal_decimal,
      F32.sub_natCast a b (by omega) (by omega)]
  · intro hb0
    refine ⟨?_, round32_quotient a b ha hb hb0⟩
    have hz : (F32.fin (b : ℚ)).isZero = false := by
      simp [F32.isZero, hb0]
    have hbq : (b : ℚ) ≠ 0 := by exact_mod_cast hb0
    simp only [evaluatePostfix, evalLoop, ea, eb, (eo _ _ _).2.2.2, digitsVal_decimal, hz,
      Bool.false_eq_true, if_false, F32.div, hbq]

theorem evaluatePostfix_operand_order_witness :
    evaluatePostfix Store.empty 1 ["2".toList, "7".toList, ['-']] =
      (Res.ok (F32.fin (-5)), Store.empty) ∧
    evaluatePostfix Store.empty 1 ["1".toList, "2".toList, ['/']] =
      (Res.ok (F32.fin (1 / 2)), Store.empty) := by
  have h := evaluatePostfix_operand_order Store.empty 1 2 7 Store.empty_keysAreIdentifiers
    (by decide) (by decide)
  have h' := evaluatePostfix_operand_order Store.empty 1 1 2 Store.empty_keysAreIdentifiers
    (by decide) (by decide)
  have e1 : decimal 2 = "2".toList := by decide
  have e7 : decimal 7 = "7".toList := by decide
  have e0 : decimal 1 = "1".toList := by decide
  have r1 : round32 (((1 : ℕ) : ℚ) / ((2 : ℕ) : ℚ)) = F32.fin (1 / 2) := by decide!
  constructor
  · have := h.1
    rw [e1, e7] at this
    rw [this]
    norm_num
  · have := (h'.2 (by decide)).1
    rw [e0, e1, r1] at this
    exact this

/-- C18: `evaluatePostfix`, `evaluate_math_expression` and
`evaluate_expression` leave the variable store exactly as they found it, for
every store and input and whatever the outcome. -/
theorem evaluation_reads_only (vars : Store) (currentLine : Int) (tokens : List Str)
    (expr : Str) :
    (evaluatePostfix vars currentLine tokens).2 = vars ∧
    (evaluate_math_expression vars currentLine expr).2 = vars ∧
    (evaluate_expression vars currentLine expr).2 = vars :=
  ⟨evaluatePostfix_store vars currentLine tokens,
    evaluate_math_expression_store vars currentLine expr,
    evaluate_expression_store vars currentLine expr⟩

/-- C19 (amended): for every input string, every token `tokenize` returns that
begins with a digit, or with `-` followed by a digit, contains no white space
and none of the characters `+ * / ( )`.  The tokenizer does not limit such a
token to digits and one decimal point. -/
theorem tokenize_number_token_chars (s t : Str) (ht : t ∈ tokenize s)
    (hnum : startsLikeNumber t = true) :
    ∀ c ∈ t, isspace c = false ∧ c ≠ '+' ∧ c ≠ '*' ∧ c ≠ '/' ∧ c ≠ '(' ∧ c ≠ ')' := by
  obtain ⟨h0, _, h2⟩ := (tokenize_spec s).1 t ht
  intro c hc
  rcases h2 with h2 | h2
  · match t, h2, hnum, hc with
    | [d], _, hnum, hc =>
      simp only [startsLikeNumber] at hnum
      rw [List.mem_singleton.mp hc]
      exact isTokenChar_spec (isTokenChar_digit hnum)
  · exact isTokenChar_spec (h2 c hc)

theorem tokenize_number_token_chars_witness :
    "-12.5".toList ∈ tokenize "3 * (-12.5)".toList ∧
    startsLikeNumber "-12.5".toList = true ∧
    (isspace '.' = false ∧ '.' ≠ '+' ∧ '.' ≠ '*' ∧ '.' ≠ '/' ∧ '.' ≠ '(' ∧ '.' ≠ ')') :=
  ⟨by decide, by decide,
    tokenize_number_token_chars "3 * (-12.5)".toList "-12.5".toList (by decide) (by decide)
      '.' (by decide)⟩

theorem tokenize_number_token_chars_counterexample :
    tokenize "1.2.3".toList = ["1.2.3".toList] ∧
    startsLikeNumber "1.2.3".toList = true ∧
    "1.2.3".toList.count '.' = 2 ∧
    tokenize "1abc + 2".toList = ["1abc".toList, "+".toList, "2".toList] ∧
    startsLikeNumber "1abc".toList = true ∧
    isdigit 'a' = false := by
  decide

/-- C20: for every input string, every token `tokenize` returns is non-empty
and contains no white-space character, and the tokens concatenated in order
are the input with its white-space characters removed. -/
theorem tokenize_preserves_characters (s : Str) :
    (∀ t ∈ tokenize s, t ≠ [] ∧ ∀ c ∈ t, isspace c = false) ∧
      (tokenize s).flatten = s.filter (fun c => !isspace c) :=
  ⟨fun t ht => ⟨((tokenize_spec s).1 t ht).1, ((tokenize_spec s).1 t ht).2.1⟩,
    (tokenize_spec s).2⟩

end Esp
